import Mathlib

/-!
Verification of the disk-space-inspector core (cache store, scanner, tree model)
against its specification.  The Rust sources in src/ are shallowly embedded:
relative paths become lists of components, the SQLite entries/roots tables
become lists of records, and the scanner's walk over a static filesystem
becomes structural recursion over a tree of nodes.  Machine integers (i64,
u64) are modelled as Int/Nat: none of the verified operations can overflow
for realistic inputs (timestamps, file sizes, flag bits).
-/

namespace Dusk

/-- A root-relative path, stored as its forward-slash-separated components.
The empty list stands for the root path, which the source renders as the
one-character string "." (src/cache.rs, relative path convention). -/
abbrev RelPath := List String

/-- Embedding of parent_relative (src/cache.rs lines 639-653, identical
helper in src/scanner.rs lines 592-604): "." (and the empty path) have no
parent; a one-component path has parent "."; otherwise drop the last
component.  With the empty list standing for ".", this is dropLast guarded
by emptiness. -/
def parent_relative (p : RelPath) : Option RelPath :=
  match p with
  | [] => none
  | _ :: _ => some p.dropLast

/-- FileKind from src/fs.rs. -/
inductive FileKind where
  | File
  | Directory
deriving DecidableEq

/-- One row of the entries table (src/cache.rs, CachedEntry plus the
last_seen_utc column that the struct omits but every query carries).
flags is non-negative in every reachable state (it is written only as 0 or
via OR with 1), so it is modelled as Nat. -/
structure CachedEntry where
  rootId : Int
  path : RelPath
  parent : Option RelPath
  kind : FileKind
  direct_size : Nat
  aggregate_size : Nat
  modified : Option Int
  created : Option Int
  last_seen : Int
  flags : Nat
deriving DecidableEq

/-- One row of the roots table (src/cache.rs, initialize_schema). -/
structure RootRow where
  id : Int
  canonical_root : String
  last_scan_utc : Int
  schema_version : Int
  scan_count : Int
  last_pruned_utc : Int
deriving DecidableEq

/-- The whole persistent store: the roots and entries tables. -/
structure CacheDb where
  roots : List RootRow
  entries : List CachedEntry
deriving DecidableEq

/-- SELECT ... FROM entries WHERE root_id = ?1 AND path = ?2
(src/cache.rs, Cache::fetch_entry).  The primary key (root_id, path) makes
the row unique in reachable states; find? returns the first match. -/
def fetch_entry (tbl : List CachedEntry) (rid : Int) (p : RelPath) : Option CachedEntry :=
  tbl.find? (fun e => decide (e.rootId = rid ∧ e.path = p))

/-- SELECT ... FROM entries WHERE root_id = ?1 AND parent IS ?2
(src/cache.rs, Cache::fetch_children).  Callers always pass a non-empty
parent path ("." or an entry path), so the empty-string branch of the
source is not modelled. -/
def children_of (tbl : List CachedEntry) (rid : Int) (p : RelPath) : List CachedEntry :=
  tbl.filter (fun e => decide (e.rootId = rid ∧ e.parent = some p))

/-- INSERT ... ON CONFLICT(root_id, path) DO UPDATE (src/cache.rs,
ScanSession::upsert_entry).  An insert leaves flags at its column default 0;
an update overwrites every non-key column and sets flags = 0 and
last_seen_utc = scan_ts. -/
def upsert_entry (tbl : List CachedEntry) (rid ts : Int) (p : RelPath) (par : Option RelPath)
    (kind : FileKind) (direct aggregate : Nat) (modified created : Option Int) :
    List CachedEntry :=
  if tbl.any (fun e => decide (e.rootId = rid ∧ e.path = p)) then
    tbl.map (fun e =>
      if e.rootId = rid ∧ e.path = p then
        { e with parent := par, kind := kind, direct_size := direct,
                 aggregate_size := aggregate, modified := modified, created := created,
                 last_seen := ts, flags := 0 }
      else e)
  else
    tbl ++ [⟨rid, p, par, kind, direct, aggregate, modified, created, ts, 0⟩]

/-- UPDATE entries SET flags = flags | 1 WHERE root_id = ?1 AND path = ?2
(src/cache.rs, Cache::mark_dirty, and the loop body of mark_ancestors_dirty). -/
def mark_dirty (tbl : List CachedEntry) (rid : Int) (p : RelPath) : List CachedEntry :=
  tbl.map (fun e =>
    if e.rootId = rid ∧ e.path = p then { e with flags := e.flags ||| 1 } else e)

/-- The while-let loop of Cache::mark_ancestors_dirty (src/cache.rs lines
193-205), made structurally recursive on a step counter; the wrapper below
supplies p.length + 1 steps, which is exactly the length of the chain
p, parent(p), ..., ".". -/
def markAncGo : Nat → List CachedEntry → Int → Option RelPath → List CachedEntry
  | _, tbl, _, none => tbl
  | 0, tbl, _, some _ => tbl
  | f + 1, tbl, rid, some p => markAncGo f (mark_dirty tbl rid p) rid (parent_relative p)

/-- Cache::mark_ancestors_dirty (src/cache.rs lines 193-205): walk from the
given relative path up to and including ".", OR-ing bit 0 into flags of any
matching row at each level. -/
def mark_ancestors_dirty (tbl : List CachedEntry) (rid : Int) (p : RelPath) :
    List CachedEntry :=
  markAncGo (p.length + 1) tbl rid (some p)

/-- CACHE_MAX_AGE from src/cache.rs (30 days, in seconds). -/
def CACHE_MAX_AGE_SECS : Int := 60 * 60 * 24 * 30

/-- CACHE_MAX_BYTES from src/cache.rs (512 MiB safety ceiling). -/
def CACHE_MAX_BYTES : Nat := 512 * 1024 * 1024

/-- Ascending insertion by last_seen_utc, used to model
ORDER BY last_seen_utc ASC (ties resolved by position, standing in for
SQLite's rowid order). -/
def insertByLastSeen (e : CachedEntry) : List CachedEntry → List CachedEntry
  | [] => [e]
  | x :: xs => if e.last_seen < x.last_seen then e :: x :: xs else x :: insertByLastSeen e xs

/-- Model of ORDER BY last_seen_utc ASC over a row list. -/
def sortByLastSeen (l : List CachedEntry) : List CachedEntry :=
  l.foldr insertByLastSeen []

/-- One iteration's DELETE in the size-ceiling loop of
ScanSession::prune_if_needed (src/cache.rs lines 600-609): remove the up to
512 oldest-last_seen rows of this root; returns the new table and the number
of rows removed. -/
def pruneBatch (tbl : List CachedEntry) (rid : Int) : List CachedEntry × Nat :=
  let victims := (sortByLastSeen (tbl.filter (fun e => decide (e.rootId = rid)))).take 512
  (tbl.filter (fun e => decide (¬ (e.rootId = rid ∧ e ∈ victims))), victims.length)

/-- The size-ceiling loop of prune_if_needed (src/cache.rs lines 599-620),
structurally recursive on a step counter (each iteration that continues has
removed at least one row, so tbl.length + 1 steps always suffice).  sizes is
the sequence of file sizes that fs::metadata reports: index 0 is the reading
taken before the loop, index k the reading after the k-th batch; a missing
reading stands for a metadata error, which the source maps to 0. -/
def pruneLoopGo : Nat → List CachedEntry → Int → List Nat → Nat → List CachedEntry
  | 0, tbl, _, _, _ => tbl
  | f + 1, tbl, rid, sizes, k =>
    let step := pruneBatch tbl rid
    if step.2 = 0 then step.1
    else if sizes.getD k 0 ≤ CACHE_MAX_BYTES then step.1
    else pruneLoopGo f step.1 rid sizes (k + 1)

/-- ScanSession::prune_if_needed (src/cache.rs lines 574-627).  Reads the
root row (a missing row is the query error the caller surfaces, leaving
the tables as they are), decides whether to prune, deletes rows older than
the 30-day cutoff, runs the size-ceiling batch loop while the backing file
stays above 512 MiB, and stamps last_pruned_utc. -/
def prune_if_needed (roots : List RootRow) (tbl : List CachedEntry) (rid : Int)
    (scan_ts : Int) (sizes : List Nat) : List RootRow × List CachedEntry :=
  match roots.find? (fun r => decide (r.id = rid)) with
  | none => (roots, tbl)
  | some row =>
    let last_pruned := row.last_pruned_utc
    let scan_count := row.scan_count
    let elapsed := scan_ts - last_pruned
    if ¬ (scan_ts ≤ last_pruned ∨ elapsed ≥ 3600 ∨ scan_count % 5 = 0) then (roots, tbl)
    else
      let cutoff := scan_ts - CACHE_MAX_AGE_SECS
      let tbl1 := tbl.filter (fun e => decide (¬ (e.rootId = rid ∧ e.last_seen < cutoff)))
      let db_size := sizes.getD 0 0
      let tbl2 :=
        if db_size > CACHE_MAX_BYTES then pruneLoopGo (tbl1.length + 1) tbl1 rid sizes 1
        else tbl1
      let roots2 := roots.map (fun r =>
        if r.id = rid then { r with last_pruned_utc := scan_ts } else r)
      (roots2, tbl2)

/-- ScanSession::finish (src/cache.rs lines 554-572): delete this root's
rows not stamped with scan_ts, update the root row's last_scan_utc and
scan_count, then prune if the policy conditions hold.  The connection is in
autocommit mode, so each statement takes effect immediately. -/
def finish (db : CacheDb) (rid : Int) (scan_ts : Int) (sizes : List Nat) : CacheDb :=
  let entries1 := db.entries.filter (fun e => decide (¬ (e.rootId = rid ∧ e.last_seen ≠ scan_ts)))
  let roots1 := db.roots.map (fun r =>
    if r.id = rid then { r with last_scan_utc := scan_ts, scan_count := r.scan_count + 1 }
    else r)
  let pruned := prune_if_needed roots1 entries1 rid scan_ts sizes
  ⟨pruned.1, pruned.2⟩

/-- Concrete cache table for the C6 witness: the spec's dirty-propagation
scenario over the tree ./dir/sub/file.txt. -/
def tblC6 : List CachedEntry :=
  [⟨1, [], none, .Directory, 0, 62, none, none, 7, 0⟩,
   ⟨1, ["dir"], some [], .Directory, 0, 62, none, none, 7, 0⟩,
   ⟨1, ["dir", "sub"], some ["dir"], .Directory, 0, 62, none, none, 7, 0⟩,
   ⟨1, ["dir", "sub", "file.txt"], some ["dir", "sub"], .File, 62, 62, none, none, 7, 0⟩]

/-- FileEntry from src/fs.rs: the scanner's emitted entry, with the absolute
path as components and SystemTime stamps as integer seconds. -/
structure FileEntry where
  path : List String
  file_name : String
  kind : FileKind
  direct_size : Nat
  modified : Option Int
  created : Option Int
deriving DecidableEq

/-- TreeNode from src/tree.rs; children models the BTreeSet of child paths. -/
structure TreeNode where
  name : String
  kind : FileKind
  direct_size : Nat
  modified : Option Int
  created : Option Int
  children : List (List String)
  contains_match : Bool
deriving DecidableEq

/-- TreeNode::new (src/tree.rs lines 101-113): a fresh node is its own match
exactly when the entry is a File. -/
def TreeNode.new (entry : FileEntry) : TreeNode :=
  ⟨entry.file_name, entry.kind, entry.direct_size, entry.modified, entry.created, [],
   decide (entry.kind = FileKind.File)⟩

/-- The TreeStore node map (BTreeMap of path to node), as an association
list; buildStore keeps its keys unique. -/
abbrev TreeStore := List (List String × TreeNode)

/-- BTreeMap::get. -/
def lookupNode (st : TreeStore) (p : List String) : Option TreeNode :=
  (st.find? (fun kv => decide (kv.1 = p))).map (·.2)

/-- BTreeMap::insert / the entry(path).or_insert_with pattern: replace the
node at the key or append a new binding. -/
def insertNode (st : TreeStore) (p : List String) (n : TreeNode) : TreeStore :=
  if st.any (fun kv => decide (kv.1 = p)) then
    st.map (fun kv => if kv.1 = p then (kv.1, n) else kv)
  else st ++ [(p, n)]

/-- get_mut + in-place mutation at one key. -/
def mapNode (st : TreeStore) (p : List String) (f : TreeNode → TreeNode) : TreeStore :=
  st.map (fun kv => if kv.1 = p then (kv.1, f kv.2) else kv)

/-- The node modification performed at each level of
mark_contains_match_upwards. -/
def setTrue (n : TreeNode) : TreeNode := { n with contains_match := true }

/-- Path::parent on absolute component lists (src/tree.rs uses Path::parent
directly): none at the root, otherwise drop the last component. -/
def parentPath (p : List String) : Option (List String) :=
  match p with
  | [] => none
  | _ :: _ => some p.dropLast

/-- BTreeSet::insert for a children set. -/
def insertChild (l : List (List String)) (x : List String) : List (List String) :=
  if x ∈ l then l else l ++ [x]

/-- The while-let loop of TreeStore::mark_contains_match_upwards
(src/tree.rs lines 87-98), structurally recursive on a step counter; the
wrapper supplies start.length + 1 steps, the length of the ancestor chain. -/
def markUpGo : Nat → TreeStore → Option (List String) → TreeStore
  | _, st, none => st
  | 0, st, some _ => st
  | f + 1, st, some p =>
    markUpGo f (mapNode st p (fun n => { n with contains_match := true })) (parentPath p)

/-- TreeStore::mark_contains_match_upwards: set contains_match on the start
path and every existing ancestor node up to the root. -/
def mark_contains_match_upwards (st : TreeStore) (start : List String) : TreeStore :=
  markUpGo (start.length + 1) st (some start)

/-- TreeStore::upsert (src/tree.rs lines 28-50): insert or refresh the node,
link it into an existing parent's children, and propagate contains_match
upward when the entry is a File. -/
def TreeStore.upsert (st : TreeStore) (entry : FileEntry) : TreeStore :=
  let node0 := match lookupNode st entry.path with
    | some n => n
    | none => TreeNode.new entry
  let node := { node0 with
    name := entry.file_name,
    kind := entry.kind,
    direct_size := entry.direct_size,
    modified := entry.modified,
    created := entry.created }
  let st1 := insertNode st entry.path node
  let st2 := match parentPath entry.path with
    | some pp =>
      mapNode st1 pp (fun pn => { pn with children := insertChild pn.children entry.path })
    | none => st1
  if entry.kind = FileKind.File then mark_contains_match_upwards st2 entry.path else st2

/-- The node value upsert writes at entry.path: the existing node (or a
fresh TreeNode::new) with the five entry fields overwritten. -/
def upsertNode (st : TreeStore) (entry : FileEntry) : TreeNode :=
  let node0 := match lookupNode st entry.path with
    | some n => n
    | none => TreeNode.new entry
  { node0 with
    name := entry.file_name,
    kind := entry.kind,
    direct_size := entry.direct_size,
    modified := entry.modified,
    created := entry.created }

/-- The store after upsert's insert and parent-linking stages, before the
contains_match propagation. -/
def upStage2 (st : TreeStore) (entry : FileEntry) : TreeStore :=
  match parentPath entry.path with
  | some pp =>
    mapNode (insertNode st entry.path (upsertNode st entry)) pp
      (fun pn => { pn with children := insertChild pn.children entry.path })
  | none => insertNode st entry.path (upsertNode st entry)

/-- Fold a stream of scanner entries into a tree starting from the empty
store (TreeStore::default, or the state after clear()). -/
def buildStore (es : List FileEntry) : TreeStore :=
  es.foldl TreeStore.upsert []

/-- Memo lookup (BTreeMap::get on the query-scoped cache). -/
def memoLookup (memo : List (List String × Nat)) (p : List String) : Option Nat :=
  (memo.find? (fun kv => decide (kv.1 = p))).map (·.2)

/-- Memo insert (BTreeMap::insert). -/
def memoInsert (memo : List (List String × Nat)) (p : List String) (v : Nat) :
    List (List String × Nat) :=
  if memo.any (fun kv => decide (kv.1 = p)) then
    memo.map (fun kv => if kv.1 = p then (kv.1, v) else kv)
  else memo ++ [(p, v)]

/-- TreeStore::aggregated_size_with_cache (src/tree.rs lines 63-85), with a
step counter for the recursion over children: return a memo hit, 0 for a
missing node (without memoising), otherwise direct_size plus the children's
aggregates for directories, memoising the total. -/
def aggregated_size_with_cache (st : TreeStore) :
    Nat → List String → List (List String × Nat) → Nat × List (List String × Nat)
  | 0, _, memo => (0, memo)
  | f + 1, p, memo =>
    match memoLookup memo p with
    | some v => (v, memo)
    | none =>
      match lookupNode st p with
      | none => (0, memo)
      | some node =>
        let res :=
          if node.kind = FileKind.Directory then
            node.children.foldl
              (fun acc c =>
                let r := aggregated_size_with_cache st f c acc.2
                (acc.1 + r.1, r.2))
              (node.direct_size, memo)
          else (node.direct_size, memo)
        (res.1, memoInsert res.2 p res.1)

/-- The naive unmemoised recursive aggregate that C10 compares against:
direct_size plus the sum of the children's recursive aggregates when the
node is a Directory, the direct size for other nodes, and 0 when the path
is absent.  This is the refinement comparison definition, written from the
claim's words rather than from the source. -/
def aggregated_size_naive (st : TreeStore) : Nat → List String → Nat
  | 0, _ => 0
  | f + 1, p =>
    match lookupNode st p with
    | none => 0
    | some node =>
      if node.kind = FileKind.Directory then
        node.direct_size + (node.children.map (fun c => aggregated_size_naive st f c)).sum
      else node.direct_size

/-- Well-formedness of a tree store: every recorded child path is one
component longer than its parent's path.  This is an invariant of every
store the entry stream builds (children are inserted only as
entry.path into the node at entry.path.parent). -/
def TreeWf (st : TreeStore) : Prop :=
  ∀ kv ∈ st, ∀ c ∈ kv.2.children, c.length = kv.1.length + 1

/-- Length of the longest key in a store. -/
def maxKeyLen (st : TreeStore) : Nat :=
  (st.map (fun kv => kv.1.length)).foldr max 0

/-- C9's first quantified property, as the claim states it: every stored
node whose path is a proper ancestor of some stored File node has
contains_match = true. -/
def AncestorsMarked (st : TreeStore) : Prop :=
  ∀ kv ∈ st, ∀ kv' ∈ st, kv'.2.kind = FileKind.File → kv.1 <+: kv'.1 → kv.1 ≠ kv'.1 →
    kv.2.contains_match = true

/-- Transitive containment through the stored children sets. -/
inductive Reaches (st : TreeStore) : List String → List String → Prop where
  | child : ∀ p q n, lookupNode st p = some n → q ∈ n.children → Reaches st p q
  | step : ∀ p q r n, lookupNode st p = some n → q ∈ n.children → Reaches st q r →
      Reaches st p r

/-- C9's second quantified property, as the claim states it: a stored
Directory node has contains_match = true iff it transitively contains a
stored File node. -/
def DirContainsIff (st : TreeStore) : Prop :=
  ∀ kv ∈ st, kv.2.kind = FileKind.Directory →
    (kv.2.contains_match = true ↔
      ∃ kv' ∈ st, kv'.2.kind = FileKind.File ∧ Reaches st kv.1 kv'.1)

/-- Parents-first discipline over an entry stream: starting from st, each
upserted entry either is a root path or already has its parent node in the
store.  The scanner's depth-first stream (directories before their
contents) satisfies this. -/
def parentsFirst : TreeStore → List FileEntry → Bool
  | _, [] => true
  | st, e :: rest =>
    (match parentPath e.path with
     | none => true
     | some pp => (lookupNode st pp).isSome) && parentsFirst (st.upsert e) rest

/-- Kind-stability of an entry stream: no path is upserted with two
different kinds. -/
def KindStable (es : List FileEntry) : Prop :=
  ∀ e ∈ es, ∀ e' ∈ es, e.path = e'.path → e.kind = e'.kind

/-- The out-of-order stream refuting C9 as stated: the file arrives before
its parent directory. -/
def esC9 : List FileEntry :=
  [⟨["a", "b"], "b", .File, 1, none, none⟩, ⟨["a"], "a", .Directory, 0, none, none⟩]

/-- A parents-first, kind-stable stream for the C9 witness. -/
def esC9w : List FileEntry :=
  [⟨[], "", .Directory, 0, none, none⟩,
   ⟨["a"], "a", .Directory, 0, none, none⟩,
   ⟨["a", "f"], "f", .File, 3, none, none⟩]

/-- Keys of a store are pairwise distinct (buildStore maintains this). -/
def StoreUniq (st : TreeStore) : Prop := (st.map (fun kv => kv.1)).Nodup

/-- Every stored non-root node's parent path is stored too. -/
def AncClosed (st : TreeStore) : Prop :=
  ∀ p n, lookupNode st p = some n → ∀ pp, parentPath p = some pp →
    (lookupNode st pp).isSome = true

/-- The children sets record exactly the stored paths whose Path::parent is
this node's path. -/
def ChildrenChar (st : TreeStore) : Prop :=
  ∀ p n, lookupNode st p = some n →
    ∀ q, q ∈ n.children ↔ ((lookupNode st q).isSome = true ∧ parentPath q = some p)

/-- contains_match records exactly whether some stored File node sits at or
below the node's path. -/
def ContainsChar (st : TreeStore) : Prop :=
  ∀ p n, lookupNode st p = some n →
    (n.contains_match = true ↔
      ∃ q m, lookupNode st q = some m ∧ m.kind = FileKind.File ∧ p <+: q)

/-- The inductive invariant of stores built by parents-first, kind-stable
upsert streams. -/
def StoreInv (st : TreeStore) : Prop :=
  StoreUniq st ∧ AncClosed st ∧ ChildrenChar st ∧ ContainsChar st

/-- Every stored node's kind was written by some entry of the processed
stream at the same path. -/
def StoreKinds (es : List FileEntry) (st : TreeStore) : Prop :=
  ∀ p m, lookupNode st p = some m → ∃ e ∈ es, e.path = p ∧ e.kind = m.kind

/-- Concrete well-formed store for the C10 witness. -/
def stC10 : TreeStore :=
  [([], ⟨"", .Directory, 0, none, none, [["a"], ["b"]], false⟩),
   (["a"], ⟨"a", .File, 5, none, none, [], true⟩),
   (["b"], ⟨"b", .Directory, 1, none, none, [["b", "c"]], false⟩),
   (["b", "c"], ⟨"c", .File, 7, none, none, [], true⟩)]

/-- SizeOperator from src/query.rs. -/
inductive SizeOperator where
  | GreaterThan
  | GreaterThanOrEqual
  | LessThan
  | LessThanOrEqual
deriving DecidableEq

/-- SizeFilter from src/query.rs. -/
structure SizeFilter where
  operator : SizeOperator
  bytes : Nat
deriving DecidableEq

/-- SizeFilter::matches (src/query.rs lines 21-28). -/
def SizeFilter.matches (f : SizeFilter) (size : Nat) : Bool :=
  match f.operator with
  | .GreaterThan => decide (size > f.bytes)
  | .GreaterThanOrEqual => decide (size ≥ f.bytes)
  | .LessThan => decide (size < f.bytes)
  | .LessThanOrEqual => decide (size ≤ f.bytes)

/-- A compiled glob pattern, modelling the globset crate as configured by
build_glob (src/scanner.rs lines 656-660): literal_separator(true), so "*"
and "?" do not cross "/", while "**" does.  Character classes are not used
by any claim and are treated as literal characters. -/
inductive GlobTok where
  | lit (c : Char)
  | one
  | star
  | globStar
deriving DecidableEq

/-- Tokenise a glob pattern ("**" first, then "*", "?", literals). -/
def parseGlob : List Char → List GlobTok
  | [] => []
  | '*' :: '*' :: rest => .globStar :: parseGlob rest
  | '*' :: rest => .star :: parseGlob rest
  | '?' :: rest => .one :: parseGlob rest
  | c :: rest => .lit c :: parseGlob rest

/-- Glob matching with literal-separator semantics, structurally recursive
on a step counter; every recursive call shrinks the combined length of the
pattern and the text, so the wrapper's fuel always suffices. -/
def globMatchGo : Nat → List GlobTok → List Char → Bool
  | 0, _, _ => false
  | f + 1, ps, cs =>
    match ps, cs with
    | [], [] => true
    | [], _ :: _ => false
    | .lit c :: ps', d :: ds => c == d && globMatchGo f ps' ds
    | .lit _ :: _, [] => false
    | .one :: ps', d :: ds => d != '/' && globMatchGo f ps' ds
    | .one :: _, [] => false
    | .star :: ps', ds =>
      globMatchGo f ps' ds ||
        (match ds with
         | [] => false
         | d :: ds' => d != '/' && globMatchGo f (.star :: ps') ds')
    | .globStar :: ps', ds =>
      globMatchGo f ps' ds ||
        (match ds with
         | [] => false
         | _ :: ds' => globMatchGo f (.globStar :: ps') ds')

/-- GlobSet::is_match for the single-pattern sets the scanner builds. -/
def globMatch (ps : List GlobTok) (cs : List Char) : Bool :=
  globMatchGo (ps.length + cs.length + 1) ps cs

/-- compile_matcher (src/scanner.rs lines 646-654): no pattern yields no
matcher; the empty pattern is replaced by "**"; otherwise the pattern is
compiled as written.  (The source's build-failure path only triggers on
malformed patterns and is not modelled.) -/
def compile_matcher : Option String → Option (List GlobTok)
  | none => none
  | some pattern => some (parseGlob (if pattern = "" then "**" else pattern).toList)

/-- Render path components the way to_string_lossy renders an OS path with
forward slashes. -/
def renderPath (p : List String) : String := String.intercalate "/" p

/-- Path::strip_prefix on component lists: drop the root components when
they are a prefix. -/
def stripPrefixPath (root path : List String) : Option (List String) :=
  if root.isPrefixOf path then some (path.drop root.length) else none

/-- should_include (src/scanner.rs lines 606-644): directories are always
included; a size-filtered file that fails the filter is excluded; with a
matcher a file is included iff the absolute path or the non-empty root-
relative path matches; with no matcher every file is included. -/
def should_include (path : List String) (kind : FileKind) (direct_size : Nat)
    (matcher : Option (List GlobTok)) (root : List String)
    (size_filter : Option SizeFilter) : Bool :=
  if kind = FileKind.Directory then true
  else if (match size_filter with
           | some filter => !filter.matches direct_size
           | none => false) then false
  else
    match matcher with
    | some m =>
      if globMatch m (renderPath path).toList then true
      else
        match stripPrefixPath root path with
        | some rel =>
          if !rel.isEmpty && globMatch m (renderPath rel).toList then true else false
        | none => false
    | none => true

/-- Fixture for the C3 counterexample: one root whose clock went backwards
(last_pruned_utc ahead of scan_ts), forcing the prune branch. -/
def rootsC3 : List RootRow := [⟨1, "/r", 0, 1, 1, 200⟩]

/-- Fixture for the C3 counterexample: a single entry that the session just
stamped with scan_ts = 100. -/
def tblC3 : List CachedEntry := [⟨1, [], none, .Directory, 0, 0, none, none, 100, 0⟩]

/-- Fixture for the C3 witness: same shape, file size under the ceiling. -/
def tblC3w : List CachedEntry :=
  [⟨1, [], none, .Directory, 0, 10, none, none, 100, 0⟩,
   ⟨1, ["old"], some [], .File, 10, 10, none, none, 40, 0⟩]

/-- Fixture for the C4 counterexample: root whose fifth scan is finishing
(scan_count 4 is incremented to 5, triggering the modulo-5 prune) while the
backing file stays above the ceiling. -/
def dbC4 : CacheDb :=
  ⟨[⟨1, "/r", 0, 1, 4, 0⟩], [⟨1, [], none, .Directory, 0, 0, none, none, 100, 0⟩]⟩

/-- Fixture for the C4 witness: two roots, stale and current rows. -/
def dbC4w : CacheDb :=
  ⟨[⟨1, "/r", 0, 1, 1, 0⟩, ⟨2, "/s", 0, 1, 0, 0⟩],
   [⟨1, [], none, .Directory, 0, 10, none, none, 100, 0⟩,
    ⟨1, ["gone"], some [], .File, 5, 5, none, none, 40, 0⟩,
    ⟨2, [], none, .Directory, 0, 0, none, none, 40, 0⟩]⟩

/-- CacheValidationError (src/cache.rs): the two variants the verification
paths produce, plus a model-only Fuel constructor standing for exhaustion of
the recursion counter (the Rust recursion has no counter; the lemmas below
always supply enough fuel, so Fuel is never returned by a verified call). -/
inductive CacheValidationError where
  | MissingEntry (path : RelPath)
  | AggregateMismatch (path : RelPath) (expected cached : Nat)
  | Fuel
deriving DecidableEq

/-- AggregateSummary from src/cache.rs. -/
structure AggregateSummary where
  entry_count : Nat
  directory_count : Nat
  total_size : Nat
deriving DecidableEq

/-- EmitStats from src/scanner.rs. -/
structure EmitStats where
  entries : Nat
  directories : Nat
  files : Nat
  aggregate_size : Nat
deriving DecidableEq

/-- Length of the longest relative path in an entries table; the recursion
counters below are sized from it. -/
def maxRelLen (tbl : List CachedEntry) : Nat :=
  (tbl.map (fun e => e.path.length)).foldr max 0

/-- The cached subtree of an entry: the entry itself and, below a Directory,
the subtrees of its parent-linked children, in fetch_children order.  This is
the set of rows the verification walks visit. -/
def subEntries (tbl : List CachedEntry) (rid : Int) : Nat → CachedEntry → List CachedEntry
  | 0, e => [e]
  | f + 1, e =>
    e :: (if e.kind = FileKind.Directory then
            ((children_of tbl rid e.path).map (fun c => subEntries tbl rid f c)).flatten
          else [])

/-- The total the verification walks recompute for one entry: direct size
plus the stored aggregates of the parent-linked children for a Directory,
the direct size alone otherwise. -/
def computedTotal (tbl : List CachedEntry) (rid : Int) (e : CachedEntry) : Nat :=
  if e.kind = FileKind.Directory then
    e.direct_size + ((children_of tbl rid e.path).map (fun c => c.aggregate_size)).sum
  else e.direct_size

/-- Aggregate-consistency violation of one row: its stored aggregate differs
from the recomputed total. -/
def entryViolates (tbl : List CachedEntry) (rid : Int) (e : CachedEntry) : Bool :=
  decide (e.aggregate_size ≠ computedTotal tbl rid e)

/-- Number of Directory rows in a list. -/
def countDirs (l : List CachedEntry) : Nat :=
  (l.filter (fun e => decide (e.kind = FileKind.Directory))).length

/-- Number of File rows in a list. -/
def countFiles (l : List CachedEntry) : Nat :=
  (l.filter (fun e => decide (e.kind = FileKind.File))).length

/-- Aggregate consistency of a root's table, as claim C2 states it: every
row of the root satisfies aggregate_size = computedTotal (for a Directory,
direct size plus the children's aggregates; for a File, its direct size). -/
def AggConsistent (tbl : List CachedEntry) (rid : Int) : Prop :=
  ∀ e ∈ tbl, e.rootId = rid → e.aggregate_size = computedTotal tbl rid e

/-- The for-loop of verify_entry_with_conn (src/cache.rs lines 231-239)
over an already-fetched child list: verify each child with the supplied
recursive verifier, propagating the first error, and accumulate
(entry_count, directory_count, child_total). -/
def verifyFold (g : CachedEntry → Except CacheValidationError AggregateSummary) :
    List CachedEntry → Except CacheValidationError (Nat × Nat × Nat)
  | [] => Except.ok (0, 0, 0)
  | c :: cs =>
    match g c with
    | Except.error err => Except.error err
    | Except.ok s =>
      match verifyFold g cs with
      | Except.error err => Except.error err
      | Except.ok t =>
        Except.ok (s.entry_count + t.1, s.directory_count + t.2.1, s.total_size + t.2.2)

/-- Cache::verify_entry_with_conn (src/cache.rs lines 219-253), with a step
counter for the recursion depth: count the entry, recompute its total from
its children's verified totals (each equal to the child's stored aggregate),
and fail with AggregateMismatch when the stored aggregate differs. -/
def verifyGo (tbl : List CachedEntry) (rid : Int) :
    Nat → CachedEntry → Except CacheValidationError AggregateSummary
  | 0, _ => Except.error CacheValidationError.Fuel
  | f + 1, e =>
    if e.kind = FileKind.Directory then
      match verifyFold (fun c => verifyGo tbl rid f c) (children_of tbl rid e.path) with
      | Except.error err => Except.error err
      | Except.ok t =>
        if e.aggregate_size ≠ e.direct_size + t.2.2 then
          Except.error (CacheValidationError.AggregateMismatch e.path
            (e.direct_size + t.2.2) e.aggregate_size)
        else Except.ok ⟨1 + t.1, 1 + t.2.1, e.aggregate_size⟩
    else
      if e.aggregate_size ≠ e.direct_size then
        Except.error (CacheValidationError.AggregateMismatch e.path e.direct_size e.aggregate_size)
      else Except.ok ⟨1, 0, e.aggregate_size⟩

/-- Cache::validate_aggregate (src/cache.rs lines 207-217): fetch the anchor
row (MissingEntry when absent) and verify its subtree. -/
def validate_aggregate (db : CacheDb) (rid : Int) (p : RelPath) :
    Except CacheValidationError AggregateSummary :=
  match fetch_entry db.entries rid p with
  | none => Except.error (CacheValidationError.MissingEntry p)
  | some e => verifyGo db.entries rid (maxRelLen db.entries + 1) e

/-- Well-formed parent links: every row's parent column is Path::parent of
its path, as upsert_entry always writes it. -/
def WfP (tbl : List CachedEntry) : Prop :=
  ∀ e ∈ tbl, e.parent = parent_relative e.path

/-- The (root_id, path) primary key holds: no two rows share it. -/
def UniqP (tbl : List CachedEntry) : Prop :=
  (tbl.map (fun e => (e.rootId, e.path))).Nodup

/-- The columns of a row that scan-session upserts never change when they
replay a row verbatim: everything except last_seen_utc and flags. -/
def strip (e : CachedEntry) :
    Int × RelPath × Option RelPath × FileKind × Nat × Nat × Option Int × Option Int :=
  (e.rootId, e.path, e.parent, e.kind, e.direct_size, e.aggregate_size, e.modified, e.created)

/-- The per-run scan environment: the session's root id and timestamp
(begin_scan opens a plain autocommit connection and starts no transaction,
src/cache.rs lines 496-505, so the session is just these two values), the
canonical root path, and the compiled matcher and size filter of run_scan
lines 203-204. -/
structure ScanEnv where
  rid : Int
  scan_ts : Int
  root : List String
  matcher : Option (List GlobTok)
  filt : Option SizeFilter
deriving DecidableEq

/-- The children for-loop of emit_cached_subtree (src/scanner.rs lines
501-516) over an already-fetched child list, threading the live table:
replay each child with the supplied recursive emitter, propagating the
first error together with the table mutated so far, and accumulate the
child stats and the computed total. -/
def emitFold
    (g : RelPath → List CachedEntry → List CachedEntry × Except CacheValidationError EmitStats) :
    List CachedEntry → List CachedEntry → EmitStats → Nat →
      List CachedEntry × Except CacheValidationError (EmitStats × Nat)
  | [], tbl, acc, total => (tbl, Except.ok (acc, total))
  | c :: cs, tbl, acc, total =>
    match g c.path tbl with
    | (tbl1, Except.error err) => (tbl1, Except.error err)
    | (tbl1, Except.ok cs_stats) =>
      emitFold g cs tbl1
        ⟨acc.entries + cs_stats.entries, acc.directories + cs_stats.directories,
         acc.files + cs_stats.files, acc.aggregate_size + cs_stats.aggregate_size⟩
        (total + cs_stats.aggregate_size)

/-- The tail of emit_cached_subtree's directory branch (src/scanner.rs
lines 521-533) applied to the children loop's outcome: propagate an error,
or check the computed total against the stored aggregate and build the
final EmitStats. -/
def emitFinish (entry : CachedEntry)
    (r : List CachedEntry × Except CacheValidationError (EmitStats × Nat)) :
    List CachedEntry × Except CacheValidationError EmitStats :=
  match r with
  | (tbl2, Except.error err) => (tbl2, Except.error err)
  | (tbl2, Except.ok acc) =>
    if acc.2 ≠ entry.aggregate_size then
      (tbl2, Except.error
        (CacheValidationError.AggregateMismatch entry.path acc.2 entry.aggregate_size))
    else
      (tbl2, Except.ok
        ⟨acc.1.entries + 1, acc.1.directories, acc.1.files, entry.aggregate_size⟩)

/-- emit_cached_subtree (src/scanner.rs lines 432-534), with a step counter
for the recursion depth, threading the entries table (the session writes
through the same autocommit connection the fetches read).  The row at rel
is fetched, upserted verbatim through the session (stamping last_seen and
clearing flags) BEFORE any validation, then for a Directory the children are
replayed and the computed total is checked against the stored aggregate;
the emitted UI messages carry no cache state and are not modelled. -/
def emitGo (env : ScanEnv) : Nat → RelPath → List CachedEntry →
    List CachedEntry × Except CacheValidationError EmitStats
  | 0, _, tbl => (tbl, Except.error CacheValidationError.Fuel)
  | fu + 1, rel, tbl =>
    match fetch_entry tbl env.rid rel with
    | none => (tbl, Except.error (CacheValidationError.MissingEntry rel))
    | some entry =>
      let tbl1 := upsert_entry tbl env.rid env.scan_ts entry.path entry.parent entry.kind
        entry.direct_size entry.aggregate_size entry.modified entry.created
      if entry.kind = FileKind.Directory then
        emitFinish entry
          (emitFold (fun r t => emitGo env fu r t) (children_of tbl1 env.rid entry.path)
            tbl1 ⟨0, 1, 0, 0⟩ entry.direct_size)
      else
        if entry.direct_size ≠ entry.aggregate_size then
          (tbl1, Except.error
            (CacheValidationError.AggregateMismatch entry.path entry.direct_size
              entry.aggregate_size))
        else (tbl1, Except.ok ⟨1, 0, 1, entry.aggregate_size⟩)

/-- emit_cached_subtree with the depth counter sized for the table. -/
def emit_cached_subtree (env : ScanEnv) (rel : RelPath) (tbl : List CachedEntry) :
    List CachedEntry × Except CacheValidationError EmitStats :=
  emitGo env (maxRelLen tbl + 1) rel tbl

/-- One WalkDir entry of the depth-first walk: absolute path, depth below
the walk root, kind, metadata length, and timestamps. -/
structure WalkEvent where
  path : List String
  depth : Nat
  kind : FileKind
  size : Nat
  mtime : Option Int
  created : Option Int
deriving DecidableEq

/-- DirectoryFrame from src/scanner.rs. -/
structure DirectoryFrame where
  relative : RelPath
  parent : Option RelPath
  direct_size : Nat
  aggregate_size : Nat
  modified : Option Int
  created : Option Int
deriving DecidableEq

/-- ScanStats from src/scanner.rs; replay_failures is model-only
instrumentation counting failed cached replays (the source only logs them
to stderr). -/
structure ScanStats where
  files_scanned : Nat
  dirs_scanned : Nat
  cached_dirs : Nat
  cached_entries : Nat
  cached_bytes : Nat
  fs_errors : Nat
  cache_validation_errors : Nat
  replay_failures : Nat
deriving DecidableEq

/-- The mutable state of run_scan's walk loop. -/
structure LoopState where
  stack : List DirectoryFrame
  tbl : List CachedEntry
  stats : ScanStats
  aborted : Bool
deriving DecidableEq

/-- What one loop iteration produces: the new stack, table and stats, and
whether walker.skip_current_dir() was called. -/
structure StepOut where
  stack : List DirectoryFrame
  tbl : List CachedEntry
  stats : ScanStats
  skip : Bool
deriving DecidableEq

/-- relative_path (src/scanner.rs lines 576-582): strip the root prefix,
"." (the empty list) when the path is the root or not under it. -/
def relative_path (root p : List String) : RelPath :=
  if root.isPrefixOf p then p.drop root.length else []

/-- Adding into the frame below (dir_stack.last_mut() /
parent_frame.aggregate_size += total); the stack's head is its top. -/
def addToParent (stack : List DirectoryFrame) (amount : Nat) : List DirectoryFrame :=
  match stack with
  | [] => []
  | p :: rest => { p with aggregate_size := p.aggregate_size + amount } :: rest

/-- finalize_directory (src/scanner.rs lines 540-574) with the session
present: upsert the directory with aggregate_size = direct + accumulated,
and add the total into the parent frame. -/
def finalize_directory (env : ScanEnv) (frame : DirectoryFrame)
    (stack : List DirectoryFrame) (tbl : List CachedEntry) :
    List DirectoryFrame × List CachedEntry :=
  let total := frame.aggregate_size + frame.direct_size
  let tbl1 := upsert_entry tbl env.rid env.scan_ts frame.relative frame.parent
    FileKind.Directory frame.direct_size total frame.modified frame.created
  (addToParent stack total, tbl1)

/-- The while-loop popping and finalizing frames deeper than the incoming
depth (src/scanner.rs lines 238-245; with depth 0, also the end-of-walk
flush of lines 395-399), structurally recursive on a step counter; each
iteration pops one frame, so the stack length suffices. -/
def popToGo (env : ScanEnv) (depth : Nat) :
    Nat → List DirectoryFrame → List CachedEntry →
      List DirectoryFrame × List CachedEntry
  | 0, stack, tbl => (stack, tbl)
  | fu + 1, stack, tbl =>
    match stack with
    | [] => ([], tbl)
    | frame :: rest =>
      if rest.length + 1 ≤ depth then (frame :: rest, tbl)
      else
        let fin := finalize_directory env frame rest tbl
        popToGo env depth fu fin.1 fin.2

/-- The frame-popping loop with the counter sized to the stack. -/
def popTo (env : ScanEnv) (depth : Nat) (stack : List DirectoryFrame)
    (tbl : List CachedEntry) : List DirectoryFrame × List CachedEntry :=
  popToGo env depth stack.length stack tbl

/-- The tail of run_scan's loop body after the cached-replay gate
(src/scanner.rs lines 324-391): inclusion check, session upsert, and the
per-kind bookkeeping (file sizes into the parent frame, directories pushed
as new frames). -/
def scanFresh (env : ScanEnv) (ev : WalkEvent) (stack : List DirectoryFrame)
    (tbl : List CachedEntry) (stats : ScanStats) (rel : RelPath)
    (parent_rel : Option RelPath) (direct : Nat) : StepOut :=
  if should_include ev.path ev.kind direct env.matcher env.root env.filt = false then
    ⟨stack, tbl, stats, false⟩
  else
    let tbl1 := upsert_entry tbl env.rid env.scan_ts rel parent_rel ev.kind direct
      (if ev.kind = FileKind.File then direct else 0) ev.mtime ev.created
    match ev.kind with
    | FileKind.File =>
      ⟨addToParent stack direct, tbl1,
       { stats with files_scanned := stats.files_scanned + 1 }, false⟩
    | FileKind.Directory =>
      ⟨⟨rel, parent_rel, direct, 0, ev.mtime, ev.created⟩ :: stack, tbl1,
       { stats with dirs_scanned := stats.dirs_scanned + 1 }, false⟩

/-- One iteration of run_scan's walk loop (src/scanner.rs lines 214-392)
with a session present and the entry readable: finalize completed frames,
then for a clean mtime-matching cached Directory attempt the cached replay
(on success add its aggregate into the parent frame and skip the subtree;
on a validation failure mark the ancestry dirty and fall through to the
fresh walk), otherwise process the entry freshly. -/
def scanStep (env : ScanEnv) (ev : WalkEvent) (stack : List DirectoryFrame)
    (tbl : List CachedEntry) (stats : ScanStats) : StepOut :=
  let popped := popTo env ev.depth stack tbl
  let stack1 := popped.1
  let tbl1 := popped.2
  let direct := if ev.kind = FileKind.File then ev.size else 0
  let rel := relative_path env.root ev.path
  let parent_rel := parent_relative rel
  match (if ev.kind = FileKind.Directory then fetch_entry tbl1 env.rid rel else none) with
  | some cached =>
    if cached.flags % 2 = 0 ∧ cached.modified = ev.mtime then
      match emit_cached_subtree env rel tbl1 with
      | (tbl2, Except.ok es) =>
        ⟨addToParent stack1 es.aggregate_size, tbl2,
         { stats with
             cached_dirs := stats.cached_dirs + es.directories,
             cached_entries := stats.cached_entries + es.entries,
             cached_bytes := stats.cached_bytes + es.aggregate_size }, true⟩
      | (tbl2, Except.error _) =>
        scanFresh env ev stack1 (mark_ancestors_dirty tbl2 env.rid rel)
          { stats with replay_failures := stats.replay_failures + 1 } rel parent_rel direct
    else scanFresh env ev stack1 tbl1 stats rel parent_rel direct
  | none => scanFresh env ev stack1 tbl1 stats rel parent_rel direct

/-- run_scan's walk loop over the WalkDir event stream, structurally
recursive on a step counter (each iteration consumes at least the current
event, so events.length + 1 steps suffice).  budget models the shared job
counter: the counter still equals job_id for exactly budget more iteration
checks, after which the load at the loop head differs and the walk aborts
(the counter is bumped monotonically, so it never returns to job_id). -/
def scanLoopGo (env : ScanEnv) :
    Nat → List WalkEvent → Nat → LoopState → LoopState
  | 0, _, _, st => st
  | _ + 1, [], _, st => st
  | fu + 1, ev :: rest, budget, st =>
    if budget = 0 then { st with aborted := true }
    else
      let out := scanStep env ev st.stack st.tbl st.stats
      let rest' :=
        if out.skip then rest.dropWhile (fun e2 => decide (ev.depth < e2.depth)) else rest
      scanLoopGo env fu rest' (budget - 1)
        { st with stack := out.stack, tbl := out.tbl, stats := out.stats }

/-- The result of one whole scan: the database, the stats, and whether the
walk was preempted. -/
structure ScanOutcome where
  db : CacheDb
  stats : ScanStats
  aborted : Bool
deriving DecidableEq

/-- run_scan (src/scanner.rs lines 196-430) with a cache session: walk the
events; an aborted walk returns immediately (begin_scan started no
transaction, so the partial upserts stay in the table); a completed walk
flushes the frame stack, runs Session.finish, and validates the root's
aggregates, marking the root dirty and counting a validation error on
mismatch. -/
def run_scan (env : ScanEnv) (events : List WalkEvent) (budget : Nat)
    (db : CacheDb) (sizes : List Nat) : ScanOutcome :=
  let st := scanLoopGo env (events.length + 1) events budget
    ⟨[], db.entries, ⟨0, 0, 0, 0, 0, 0, 0, 0⟩, false⟩
  if st.aborted then ⟨⟨db.roots, st.tbl⟩, st.stats, true⟩
  else
    let fin := popTo env 0 st.stack st.tbl
    let db1 := finish ⟨db.roots, fin.2⟩ env.rid env.scan_ts sizes
    match validate_aggregate db1 env.rid [] with
    | Except.ok _ => ⟨db1, st.stats, false⟩
    | Except.error _ =>
      ⟨⟨db1.roots, mark_dirty db1.entries env.rid []⟩,
       { st.stats with
           cache_validation_errors := st.stats.cache_validation_errors + 1 }, false⟩

mutual
/-- A static filesystem node for generating WalkDir event streams. -/
inductive FsNode where
  | file (name : String) (size : Nat) (mtime : Option Int)
  | dir (name : String) (mtime : Option Int) (children : FsForest)
deriving DecidableEq
/-- A sibling list of filesystem nodes. -/
inductive FsForest where
  | nil
  | cons (hd : FsNode) (tl : FsForest)
deriving DecidableEq
end

/-- Name of a filesystem node. -/
def nodeName : FsNode → String
  | .file n _ _ => n
  | .dir n _ _ => n

mutual
/-- The WalkDir event stream of one node at the given absolute path and
depth: the node's own entry, then (for directories) the events of its
children one level deeper — WalkDir's default depth-first order. -/
def eventsNode : List String → Nat → FsNode → List WalkEvent
  | selfPath, depth, .file _ size mtime => [⟨selfPath, depth, FileKind.File, size, mtime, none⟩]
  | selfPath, depth, .dir _ mtime cs =>
    ⟨selfPath, depth, FileKind.Directory, 0, mtime, none⟩ :: eventsForest selfPath (depth + 1) cs
/-- The concatenated event streams of a sibling list. -/
def eventsForest : List String → Nat → FsForest → List WalkEvent
  | _, _, .nil => []
  | parentPath, depth, .cons n rest =>
    eventsNode (parentPath ++ [nodeName n]) depth n ++ eventsForest parentPath depth rest
end

/-- Fixture for C8 and C5: the testable-properties scenario with the root
stored at aggregate 999 while its children sum to 100. -/
def dbC8 : CacheDb :=
  ⟨[⟨1, "/r", 0, 1, 0, 0⟩],
   [⟨1, [], none, .Directory, 0, 999, none, none, 40, 0⟩,
    ⟨1, ["a"], some [], .File, 60, 60, none, none, 40, 0⟩,
    ⟨1, ["b"], some [], .File, 40, 40, none, none, 40, 0⟩]⟩

/-- The root row of the C8 fixture. -/
def rootC8 : CachedEntry := ⟨1, [], none, .Directory, 0, 999, none, none, 40, 0⟩

/-- Fixture for the C5 witness: a consistent two-row subtree. -/
def tblC5 : List CachedEntry :=
  [⟨1, [], none, .Directory, 0, 60, none, none, 40, 0⟩,
   ⟨1, ["a"], some [], .File, 60, 60, none, none, 40, 0⟩]

/-- The anchor row of the C5 witness table. -/
def rootC5 : CachedEntry := ⟨1, [], none, .Directory, 0, 60, none, none, 40, 0⟩

/-- Scan environment for the C5 witness. -/
def envC5 : ScanEnv := ⟨1, 50, ["r"], none, none⟩

/-- The characterisation of one emit_cached_subtree call on a live table
that agrees with the pristine table tbl up to session stamps: a
violation-free subtree yields Ok with the anchor's stored aggregate and a
table still agreeing with tbl up to stamps; a violating subtree yields
AggregateMismatch for a violating row with the recomputed total. -/
def EmitCharP (env : ScanEnv) (tbl : List CachedEntry) (fu : Nat) (rel : RelPath)
    (a : CachedEntry) (tblLive : List CachedEntry) : Prop :=
  ((∀ d ∈ subEntries tbl env.rid fu a, entryViolates tbl env.rid d = false) →
    ∃ t' es, emitGo env fu rel tblLive = (t', Except.ok es)
      ∧ t'.map strip = tbl.map strip ∧ es.aggregate_size = a.aggregate_size)
  ∧ ((∃ d ∈ subEntries tbl env.rid fu a, entryViolates tbl env.rid d = true) →
    ∃ t' d, d ∈ subEntries tbl env.rid fu a ∧ entryViolates tbl env.rid d = true
      ∧ emitGo env fu rel tblLive =
          (t', Except.error (CacheValidationError.AggregateMismatch d.path
            (computedTotal tbl env.rid d) d.aggregate_size))
      ∧ t'.map strip = tbl.map strip)

/-- Scan environment for the C1 scenario: root /r, no matcher, no filter. -/
def envC1 : ScanEnv := ⟨1, 100, ["r"], none, none⟩

/-- Disk tree for C1: the root directory with a single 5-byte file. -/
def fsC1 : FsNode := .dir "r" (some 1) (.cons (.file "a" 5 (some 2)) .nil)

/-- WalkDir events of the C1 tree. -/
def eventsC1 : List WalkEvent := eventsNode ["r"] 0 fsC1

/-- Initial database for C1: a registered root with no entry rows. -/
def dbC1 : CacheDb := ⟨[⟨1, "/r", 0, 1, 0, 0⟩], []⟩

/-- Scan environment for the C2 scenario. -/
def envC2 : ScanEnv := ⟨1, 1000, ["r"], none, none⟩

/-- Initial database for the C2 counterexample: directory a is cached clean
(flags 0) with matching mtime and a consistent aggregate of 60 over children
f (50/50) and stale (direct 11, aggregate 10 — the file row violating
aggregate consistency that makes the replay fail after its verbatim
upserts). -/
def dbC2 : CacheDb :=
  ⟨[⟨1, "/r", 0, 1, 0, 999⟩],
   [⟨1, ["a"], some [], .Directory, 0, 60, some 5, none, 40, 0⟩,
    ⟨1, ["a", "f"], some ["a"], .File, 50, 50, some 6, none, 40, 0⟩,
    ⟨1, ["a", "stale"], some ["a"], .File, 11, 10, some 7, none, 40, 0⟩]⟩

/-- Disk tree for C2: the root holds directory a (mtime matching the cached
row), which now holds only the file f; stale is gone from disk. -/
def fsC2 : FsNode :=
  .dir "r" (some 9) (.cons (.dir "a" (some 5) (.cons (.file "f" 50 (some 6)) .nil)) .nil)

/-- WalkDir events of the C2 tree. -/
def eventsC2 : List WalkEvent := eventsNode ["r"] 0 fsC2

/-- The relative paths of the frames on the directory stack. -/
def framePaths (F : List DirectoryFrame) : List RelPath :=
  F.map (fun fr => fr.relative)

/-- The per-row effect of upsert_entry's ON CONFLICT update branch. -/
def updRow (rid ts : Int) (p : RelPath) (par : Option RelPath) (k : FileKind)
    (ds asz : Nat) (m c : Option Int) (e : CachedEntry) : CachedEntry :=
  if e.rootId = rid ∧ e.path = p then
    ⟨e.rootId, e.path, par, k, ds, asz, m, c, ts, 0⟩
  else e

/-- The stack is the proper-ancestor chain of a node at relative path p:
the top frame is p's parent directory, and so on down to the root frame. -/
def FrameChain : List DirectoryFrame → RelPath → Prop
  | [], p => p = []
  | fr :: rest, p => parent_relative p = some fr.relative ∧ FrameChain rest fr.relative

/-- No row of the scanned root sits at or below the relative path p. -/
def FreshP (env : ScanEnv) (tbl : List CachedEntry) (p : RelPath) : Prop :=
  ∀ e ∈ tbl, e.rootId = env.rid → ¬ (p <+: e.path)

/-- The walk-loop invariant at quiescent points of a cold scan (a scan of a
root with no prior cache rows): the table keys stay unique with well-formed
parent links, every row of the scanned root is stamped with the session
timestamp, every such row not belonging to a still-open directory frame is
aggregate-consistent, and every open frame carries zero direct size, its
path's parent link, an accumulated aggregate equal to the sum of its
current children rows' aggregates, and a placeholder row with aggregate 0. -/
def ScanInv2 (env : ScanEnv) (F : List DirectoryFrame) (tbl : List CachedEntry) : Prop :=
  WfP tbl ∧ UniqP tbl
  ∧ (∀ e ∈ tbl, e.rootId = env.rid → e.last_seen = env.scan_ts)
  ∧ (∀ e ∈ tbl, e.rootId = env.rid → e.path ∉ framePaths F →
      e.aggregate_size = computedTotal tbl env.rid e)
  ∧ (∀ fr ∈ F, fr.direct_size = 0 ∧ fr.parent = parent_relative fr.relative
      ∧ fr.aggregate_size =
          ((children_of tbl env.rid fr.relative).map (fun c => c.aggregate_size)).sum
      ∧ ∃ row, fetch_entry tbl env.rid fr.relative = some row ∧ row.aggregate_size = 0)

/-- The sibling names of a forest, in walk order. -/
def forestNames : FsForest → List String
  | .nil => []
  | .cons n rest => nodeName n :: forestNames rest

mutual
/-- Sibling names are pairwise distinct at every level of the tree. -/
def nodeUniq : FsNode → Bool
  | .file _ _ _ => true
  | .dir _ _ cs => decide (forestNames cs).Nodup && forestUniq cs
/-- Sibling-name uniqueness for every node of a forest. -/
def forestUniq : FsForest → Bool
  | .nil => true
  | .cons n rest => nodeUniq n && forestUniq rest
end

/-- The per-node simulation statement of the cold-scan walk: processing the
node's event block consumes exactly its events and one budget unit each,
never aborts, and turns a quiescent state (stack popped to the node's
ancestor chain F over table T) into a quiescent state over the same chain
with some size S added into the parent frame, a table that extends T only
at or below the node's relative path, and the invariant re-established. -/
def NodeSim (env : ScanEnv) (n : FsNode) (rp : RelPath) (d : Nat) : Prop :=
  ∀ (rest : List WalkEvent) (fu b : Nat) (st : LoopState) (F : List DirectoryFrame)
    (T : List CachedEntry),
    rp.length = d →
    nodeUniq n = true →
    st.aborted = false →
    (eventsNode (env.root ++ rp) d n).length + rest.length + 1 ≤ fu →
    (eventsNode (env.root ++ rp) d n).length + rest.length ≤ b →
    popTo env d st.stack st.tbl = (F, T) →
    ScanInv2 env F T →
    FrameChain F rp →
    FreshP env T rp →
    ∃ (st' : LoopState) (S : Nat) (T' : List CachedEntry),
      scanLoopGo env fu (eventsNode (env.root ++ rp) d n ++ rest) b st =
        scanLoopGo env (fu - (eventsNode (env.root ++ rp) d n).length) rest
          (b - (eventsNode (env.root ++ rp) d n).length) st'
      ∧ st'.aborted = false
      ∧ popTo env d st'.stack st'.tbl = (addToParent F S, T')
      ∧ ScanInv2 env (addToParent F S) T'
      ∧ (∀ e ∈ T', e.rootId = env.rid → e ∈ T ∨ rp <+: e.path)

/-- The per-forest simulation statement: the siblings' event blocks in
sequence, same shape as NodeSim with the additions confined to the sibling
subtrees. -/
def ForestSim (env : ScanEnv) (cs : FsForest) (parentRel : RelPath) (d : Nat) : Prop :=
  ∀ (rest : List WalkEvent) (fu b : Nat) (st : LoopState) (F : List DirectoryFrame)
    (T : List CachedEntry),
    parentRel.length + 1 = d →
    forestUniq cs = true →
    (forestNames cs).Nodup →
    st.aborted = false →
    (eventsForest (env.root ++ parentRel) d cs).length + rest.length + 1 ≤ fu →
    (eventsForest (env.root ++ parentRel) d cs).length + rest.length ≤ b →
    popTo env d st.stack st.tbl = (F, T) →
    ScanInv2 env F T →
    (∀ s : String, FrameChain F (parentRel ++ [s])) →
    (∀ s ∈ forestNames cs, FreshP env T (parentRel ++ [s])) →
    ∃ (st' : LoopState) (S : Nat) (T' : List CachedEntry),
      scanLoopGo env fu (eventsForest (env.root ++ parentRel) d cs ++ rest) b st =
        scanLoopGo env (fu - (eventsForest (env.root ++ parentRel) d cs).length) rest
          (b - (eventsForest (env.root ++ parentRel) d cs).length) st'
      ∧ st'.aborted = false
      ∧ popTo env d st'.stack st'.tbl = (addToParent F S, T')
      ∧ ScanInv2 env (addToParent F S) T'
      ∧ (∀ e ∈ T', e.rootId = env.rid →
          e ∈ T ∨ ∃ s ∈ forestNames cs, (parentRel ++ [s]) <+: e.path)

/-- Scan environment for the C2 amended-theorem witness. -/
def envC2w : ScanEnv := ⟨1, 2000, ["r"], none, none⟩

/-- Disk tree for the C2 amended-theorem witness: root with a directory
holding two files and a sibling file. -/
def fsC2w : FsNode :=
  .dir "r" (some 1)
    (.cons (.dir "a" (some 2)
      (.cons (.file "f" 30 (some 3)) (.cons (.file "g" 12 (some 4)) .nil)))
    (.cons (.file "h" 7 (some 5)) .nil))

/-- WalkDir events of the C2 witness tree. -/
def eventsC2w : List WalkEvent := eventsNode ["r"] 0 fsC2w

/-- Initial database for the C2 amended-theorem witness: a registered root
with no entry rows. -/
def dbC2w : CacheDb := ⟨[⟨1, "/r", 0, 1, 0, 1999⟩], []⟩

-- ---------------------------------------------------------------------------
-- C6: mark_ancestors_dirty marks exactly the ancestor chain.
-- The ancestor chain of rel (rel itself, its parent, ..., ".") is exactly the
-- set of list-prefixes of rel.
-- ---------------------------------------------------------------------------

/-- Setting the dirty bit of one entry: the per-row effect of the
flags = flags OR 1 update. -/
def bump (e : CachedEntry) : CachedEntry := { e with flags := e.flags ||| 1 }

@[simp] lemma bump_rootId (e : CachedEntry) : (bump e).rootId = e.rootId := rfl

@[simp] lemma bump_path (e : CachedEntry) : (bump e).path = e.path := rfl

@[simp] lemma bump_flags (e : CachedEntry) : (bump e).flags = e.flags ||| 1 := rfl

lemma bump_bump (e : CachedEntry) : bump (bump e) = bump e := by
  simp [bump, Nat.or_assoc]

lemma mark_dirty_map (tbl : List CachedEntry) (rid : Int) (p : RelPath) :
    mark_dirty tbl rid p =
      tbl.map (fun e => if e.rootId = rid ∧ e.path = p then bump e else e) := rfl

lemma prefix_dropLast_or_self {α : Type _} {q l : List α} (h : q <+: l) :
    q = l ∨ q <+: l.dropLast := by
  rcases h with ⟨t, rfl⟩
  cases t with
  | nil => left; simp
  | cons a t =>
    right
    refine ⟨(a :: t).dropLast, ?_⟩
    rw [← List.dropLast_append_of_ne_nil]
    simp

/-- Marking the chain starting at p affects exactly the prefixes of p:
key commuting step for the main C6 theorem. -/
lemma markAncGo_spec (f : Nat) (p : RelPath) (hf : p.length < f) :
    ∀ tbl rid, markAncGo f tbl rid (some p) =
      tbl.map (fun e => if e.rootId = rid ∧ e.path <+: p then bump e else e) := by
  induction f generalizing p with
  | zero => omega
  | succ f ih =>
    intro tbl rid
    match p, hf with
    | [], _ =>
      simp only [markAncGo, parent_relative]
      rw [mark_dirty_map]
      apply List.map_congr_left
      intro e _
      by_cases h : e.rootId = rid ∧ e.path = []
      · rw [if_pos h, if_pos ⟨h.1, h.2 ▸ List.prefix_refl _⟩]
      · have h' : ¬ (e.rootId = rid ∧ e.path <+: ([] : RelPath)) := by
          simpa [List.prefix_nil] using h
        rw [if_neg h, if_neg h']
    | a :: p', hf =>
      have hlen : (a :: p').dropLast.length < f := by
        simp only [List.length_dropLast, List.length_cons] at *
        omega
      simp only [markAncGo, parent_relative]
      rw [ih _ hlen]
      rw [mark_dirty_map, List.map_map]
      apply List.map_congr_left
      intro e _
      show (if (if e.rootId = rid ∧ e.path = a :: p' then bump e else e).rootId = rid ∧
              (if e.rootId = rid ∧ e.path = a :: p' then bump e else e).path <+: (a :: p').dropLast
            then bump (if e.rootId = rid ∧ e.path = a :: p' then bump e else e)
            else (if e.rootId = rid ∧ e.path = a :: p' then bump e else e)) =
           (if e.rootId = rid ∧ e.path <+: a :: p' then bump e else e)
      by_cases hq : e.rootId = rid ∧ e.path = a :: p'
      · rw [if_pos hq]
        have hpre : e.path <+: a :: p' := hq.2 ▸ List.prefix_refl _
        have hd : ¬ ((bump e).rootId = rid ∧ (bump e).path <+: (a :: p').dropLast) := by
          rintro ⟨-, h2⟩
          rw [bump_path, hq.2] at h2
          have := h2.length_le
          simp only [List.length_dropLast, List.length_cons] at this
          omega
        rw [if_neg hd, if_pos ⟨hq.1, hpre⟩]
      · rw [if_neg hq]
        by_cases hd : e.rootId = rid ∧ e.path <+: (a :: p').dropLast
        · have hpre : e.path <+: a :: p' := hd.2.trans (List.dropLast_prefix _)
          rw [if_pos hd, if_pos ⟨hd.1, hpre⟩]
        · have hnp : ¬ (e.rootId = rid ∧ e.path <+: a :: p') := by
            rintro ⟨h1, h2⟩
            rcases prefix_dropLast_or_self h2 with h3 | h3
            · exact hq ⟨h1, h3⟩
            · exact hd ⟨h1, h3⟩
          rw [if_neg hd, if_neg hnp]

/-- C6.  mark_ancestors_dirty(root_id, rel) sets bit 0 of flags on exactly
the entries of that root whose path is rel or an ancestor of rel (a prefix,
down to and including the root path "."); every other entry is unchanged, and
a level with no matching entry simply contributes nothing.  Stated as an
exact characterisation (first conjunct) together with the claim's
bit-0 phrasing (second conjunct). -/
theorem C6_mark_ancestors_dirty_spec (tbl : List CachedEntry) (rid : Int) (rel : RelPath) :
    mark_ancestors_dirty tbl rid rel =
      tbl.map (fun e =>
        if e.rootId = rid ∧ e.path <+: rel then { e with flags := e.flags ||| 1 } else e)
    ∧ ∀ e ∈ mark_ancestors_dirty tbl rid rel,
        e.rootId = rid → e.path <+: rel → e.flags.testBit 0 = true := by
  have hmain := markAncGo_spec (rel.length + 1) rel (Nat.lt_succ_self _) tbl rid
  constructor
  · exact hmain
  · intro e he h1 h2
    rw [mark_ancestors_dirty, hmain] at he
    rcases List.mem_map.mp he with ⟨e₀, _, heq⟩
    by_cases hc : e₀.rootId = rid ∧ e₀.path <+: rel
    · rw [if_pos hc] at heq
      subst heq
      simp [bump, Nat.testBit_or]
    · rw [if_neg hc] at heq
      subst heq
      exact absurd ⟨h1, h2⟩ hc

/-- Witness for C6, instantiating the spec's dirty-propagation scenario
(tree ./dir/sub/file.txt): after marking dir/sub/file.txt, the entry at
dir/sub (an ancestor level) is present with bit 0 set. -/
theorem C6_witness :
    (⟨1, ["dir", "sub"], some ["dir"], .Directory, 0, 62, none, none, 7, 1⟩ : CachedEntry) ∈
        mark_ancestors_dirty tblC6 1 ["dir", "sub", "file.txt"]
    ∧ (⟨1, ["dir", "sub"], some ["dir"], .Directory, 0, 62, none, none, 7, 1⟩ :
        CachedEntry).flags.testBit 0 = true :=
  ⟨by decide,
   (C6_mark_ancestors_dirty_spec tblC6 1 ["dir", "sub", "file.txt"]).2
     ⟨1, ["dir", "sub"], some ["dir"], .Directory, 0, 62, none, none, 7, 1⟩
     (by decide) rfl (by decide)⟩

-- ---------------------------------------------------------------------------
-- C3: prune safety.  The age-based deletion can never remove a row stamped
-- with the current scan_ts, and with the backing file at or below the 512 MiB
-- ceiling the batch loop does not run; but when the file stays above the
-- ceiling the batch loop deletes oldest-first without excluding scan_ts rows
-- (counterexample below), so the claim as stated fails.
-- ---------------------------------------------------------------------------

/-- Counterexample for C3: with the clock-backwards prune trigger and a
backing file that stays above the 512 MiB ceiling after the batch delete,
prune_if_needed removes the root's only row even though its last_seen_utc
equals scan_ts. -/
theorem C3_counterexample :
    (prune_if_needed rootsC3 tblC3 1 100 [CACHE_MAX_BYTES + 1, CACHE_MAX_BYTES + 1]).2 = []
    ∧ tblC3 = [⟨1, [], none, .Directory, 0, 0, none, none, 100, 0⟩]
    ∧ (⟨1, [], none, .Directory, 0, 0, none, none, 100, 0⟩ : CachedEntry).last_seen = 100 := by
  refine ⟨?_, rfl, rfl⟩
  decide

/-- C3 as amended: during pruning with session timestamp scan_ts, no entry
whose last_seen_utc equals scan_ts is deleted, provided the backing file's
size reading does not exceed the 512 MiB ceiling (so the oldest-entry batch
loop, which ignores last_seen_utc, does not run). -/
theorem C3_prune_never_removes_current (roots : List RootRow) (tbl : List CachedEntry)
    (rid scan_ts : Int) (sizes : List Nat)
    (hsize : sizes.getD 0 0 ≤ CACHE_MAX_BYTES) :
    ∀ e ∈ tbl, e.last_seen = scan_ts →
      e ∈ (prune_if_needed roots tbl rid scan_ts sizes).2 := by
  intro e he hts
  unfold prune_if_needed
  cases hfind : roots.find? (fun r => decide (r.id = rid)) with
  | none => exact he
  | some row =>
    simp only
    by_cases hcond : ¬ (scan_ts ≤ row.last_pruned_utc ∨
        scan_ts - row.last_pruned_utc ≥ 3600 ∨ row.scan_count % 5 = 0)
    · rw [if_pos hcond]
      exact he
    · rw [if_neg hcond]
      have hnotbig : ¬ (sizes.getD 0 0 > CACHE_MAX_BYTES) := by omega
      simp only [if_neg hnotbig]
      refine List.mem_filter.mpr ⟨he, ?_⟩
      have : ¬ (e.rootId = rid ∧ e.last_seen < scan_ts - CACHE_MAX_AGE_SECS) := by
        rintro ⟨-, hlt⟩
        rw [hts] at hlt
        have : CACHE_MAX_AGE_SECS = 2592000 := by decide
        omega
      exact decide_eq_true this

/-- Witness for C3: a stale row is aged out while the freshly stamped row
survives a prune whose file-size reading is under the ceiling. -/
theorem C3_witness :
    ((10 : Nat) ≤ CACHE_MAX_BYTES)
    ∧ (⟨1, [], none, .Directory, 0, 10, none, none, 100, 0⟩ : CachedEntry) ∈
        (prune_if_needed [⟨1, "/r", 0, 1, 1, 200⟩] tblC3w 1 100 [10]).2 :=
  ⟨by decide,
   C3_prune_never_removes_current [⟨1, "/r", 0, 1, 1, 200⟩] tblC3w 1 100 [10] (by decide)
     ⟨1, [], none, .Directory, 0, 10, none, none, 100, 0⟩ (by decide) rfl⟩

-- ---------------------------------------------------------------------------
-- C4: finish semantics.  finish deletes exactly the root's rows whose
-- last_seen_utc differs from scan_ts and updates the root row -- except that
-- when the prune size-ceiling loop runs it can delete further rows of the
-- root (counterexample below).
-- ---------------------------------------------------------------------------

/-- Counterexample for C4: with the modulo-5 prune trigger and the backing
file above the ceiling, finish deletes a row whose last_seen_utc equals the
session's scan_ts, so it does not delete exactly the differing rows. -/
theorem C4_counterexample :
    (finish dbC4 1 100 [CACHE_MAX_BYTES + 1, CACHE_MAX_BYTES + 1]).entries = []
    ∧ dbC4.entries = [⟨1, [], none, .Directory, 0, 0, none, none, 100, 0⟩]
    ∧ (⟨1, [], none, .Directory, 0, 0, none, none, 100, 0⟩ : CachedEntry).last_seen = 100 := by
  refine ⟨?_, rfl, rfl⟩
  decide

/-- C4 as amended: provided the backing file's size reading does not exceed
the 512 MiB ceiling, Session.finish() deletes exactly the rows of root R
whose last_seen_utc differs from scan_ts (rows of other roots untouched),
sets R's last_scan_utc to scan_ts and increments R's scan_count, and leaves
every remaining entry of R stamped with scan_ts.  (When the file stays above
the ceiling, the prune loop may additionally delete R's oldest rows,
including rows stamped scan_ts.) -/
theorem C4_finish_spec (db : CacheDb) (rid scan_ts : Int) (sizes : List Nat)
    (hsize : sizes.getD 0 0 ≤ CACHE_MAX_BYTES) :
    (finish db rid scan_ts sizes).entries =
        db.entries.filter (fun e => decide (¬ (e.rootId = rid ∧ e.last_seen ≠ scan_ts)))
    ∧ (∀ r ∈ db.roots, r.id ≠ rid → r ∈ (finish db rid scan_ts sizes).roots)
    ∧ (∀ r ∈ db.roots, r.id = rid →
        ∃ r' ∈ (finish db rid scan_ts sizes).roots,
          r'.id = rid ∧ r'.last_scan_utc = scan_ts ∧ r'.scan_count = r.scan_count + 1)
    ∧ (∀ e ∈ (finish db rid scan_ts sizes).entries,
        e.rootId = rid → e.last_seen = scan_ts) := by
  have hentries : (finish db rid scan_ts sizes).entries =
      db.entries.filter (fun e => decide (¬ (e.rootId = rid ∧ e.last_seen ≠ scan_ts))) := by
    unfold finish
    simp only
    set entries1 := db.entries.filter
      (fun e => decide (¬ (e.rootId = rid ∧ e.last_seen ≠ scan_ts))) with hdef
    unfold prune_if_needed
    cases hfind : (db.roots.map (fun r =>
        if r.id = rid then { r with last_scan_utc := scan_ts, scan_count := r.scan_count + 1 }
        else r)).find? (fun r => decide (r.id = rid)) with
    | none => rfl
    | some row =>
      simp only
      by_cases hcond : ¬ (scan_ts ≤ row.last_pruned_utc ∨
          scan_ts - row.last_pruned_utc ≥ 3600 ∨ row.scan_count % 5 = 0)
      · rw [if_pos hcond]
      · rw [if_neg hcond]
        have hnotbig : ¬ (sizes.getD 0 0 > CACHE_MAX_BYTES) := by omega
        simp only [if_neg hnotbig]
        have hid : entries1.filter
            (fun e => decide (¬ (e.rootId = rid ∧ e.last_seen < scan_ts - CACHE_MAX_AGE_SECS)))
            = entries1 := by
          apply List.filter_eq_self.mpr
          intro e hmem
          have hsurv := (List.mem_filter.mp (hdef ▸ hmem)).2
          have hsurv' : ¬ (e.rootId = rid ∧ e.last_seen ≠ scan_ts) := of_decide_eq_true hsurv
          apply decide_eq_true
          rintro ⟨h1, hlt⟩
          have hts : e.last_seen = scan_ts := by
            by_contra hne
            exact hsurv' ⟨h1, hne⟩
          rw [hts] at hlt
          have : CACHE_MAX_AGE_SECS = 2592000 := by decide
          omega
        rw [hid]
  refine ⟨hentries, ?_, ?_, ?_⟩
  · intro r hr hne
    unfold finish
    simp only
    unfold prune_if_needed
    cases hfind : (db.roots.map (fun r =>
        if r.id = rid then { r with last_scan_utc := scan_ts, scan_count := r.scan_count + 1 }
        else r)).find? (fun r => decide (r.id = rid)) with
    | none =>
      simp only
      refine List.mem_map.mpr ⟨r, hr, ?_⟩
      rw [if_neg hne]
    | some row =>
      simp only
      have hmem1 : r ∈ db.roots.map (fun r =>
          if r.id = rid then { r with last_scan_utc := scan_ts, scan_count := r.scan_count + 1 }
          else r) := List.mem_map.mpr ⟨r, hr, by rw [if_neg hne]⟩
      by_cases hcond : ¬ (scan_ts ≤ row.last_pruned_utc ∨
          scan_ts - row.last_pruned_utc ≥ 3600 ∨ row.scan_count % 5 = 0)
      · rw [if_pos hcond]
        exact hmem1
      · rw [if_neg hcond]
        refine List.mem_map.mpr ⟨r, hmem1, ?_⟩
        rw [if_neg hne]
  · intro r hr hid
    unfold finish
    simp only
    unfold prune_if_needed
    cases hfind : (db.roots.map (fun r =>
        if r.id = rid then { r with last_scan_utc := scan_ts, scan_count := r.scan_count + 1 }
        else r)).find? (fun r => decide (r.id = rid)) with
    | none =>
      simp only
      refine ⟨{ r with last_scan_utc := scan_ts, scan_count := r.scan_count + 1 },
        List.mem_map.mpr ⟨r, hr, by rw [if_pos hid]⟩, by simpa using hid, rfl, rfl⟩
    | some row =>
      simp only
      have hmem1 : ({ r with last_scan_utc := scan_ts, scan_count := r.scan_count + 1 } : RootRow)
          ∈ db.roots.map (fun r =>
            if r.id = rid then { r with last_scan_utc := scan_ts, scan_count := r.scan_count + 1 }
            else r) := List.mem_map.mpr ⟨r, hr, by rw [if_pos hid]⟩
      by_cases hcond : ¬ (scan_ts ≤ row.last_pruned_utc ∨
          scan_ts - row.last_pruned_utc ≥ 3600 ∨ row.scan_count % 5 = 0)
      · rw [if_pos hcond]
        exact ⟨_, hmem1, by simpa using hid, rfl, rfl⟩
      · rw [if_neg hcond]
        refine ⟨_, List.mem_map.mpr ⟨_, hmem1, rfl⟩, ?_⟩
        have hid2 : ({ r with last_scan_utc := scan_ts, scan_count := r.scan_count + 1 } :
            RootRow).id = rid := hid
        rw [if_pos hid2]
        exact ⟨hid, rfl, rfl⟩
  · intro e he hrid
    rw [hentries] at he
    have hp := (List.mem_filter.mp he).2
    have hp' : ¬ (e.rootId = rid ∧ e.last_seen ≠ scan_ts) := of_decide_eq_true hp
    by_contra hne
    exact hp' ⟨hrid, hne⟩

/-- Witness for C4: a concrete finish under the size ceiling deletes exactly
the stale row of root 1, leaving the ts-stamped row and root 2's row. -/
theorem C4_witness :
    ((10 : Nat) ≤ CACHE_MAX_BYTES)
    ∧ (finish dbC4w 1 100 [10]).entries =
        dbC4w.entries.filter (fun e => decide (¬ (e.rootId = 1 ∧ e.last_seen ≠ 100))) :=
  ⟨by decide, (C4_finish_spec dbC4w 1 100 [10] (by decide)).1⟩

-- ---------------------------------------------------------------------------
-- C7: the inclusion predicate.
-- ---------------------------------------------------------------------------

lemma globMatchGo_globStar (cs : List Char) :
    ∀ f, cs.length + 2 ≤ f → globMatchGo f [.globStar] cs = true := by
  induction cs with
  | nil =>
    intro f hf
    obtain ⟨g, rfl⟩ : ∃ g, f = g + 2 := ⟨f - 2, by omega⟩
    simp [globMatchGo]
  | cons d ds ih =>
    intro f hf
    obtain ⟨g, rfl⟩ : ∃ g, f = g + 1 := ⟨f - 1, by omega⟩
    have hrec : globMatchGo g [.globStar] ds = true := by
      apply ih
      simp only [List.length_cons] at hf
      omega
    simp [globMatchGo, hrec]

/-- The "**" pattern matches every text: the model of the spec sentence
that an empty pattern means match everything. -/
lemma globMatch_globStar (cs : List Char) : globMatch [.globStar] cs = true := by
  apply globMatchGo_globStar
  simp only [List.length_cons, List.length_nil]
  omega

lemma compile_matcher_empty : compile_matcher (some "") = some [.globStar] := by decide

lemma should_include_file_unfold (path : List String) (s : Nat) (m : List GlobTok)
    (root : List String) (filt_opt : Option SizeFilter) :
    should_include path .File s (some m) root filt_opt =
      (if (match filt_opt with
           | some filter => !filter.matches s
           | none => false) = true then false
       else if globMatch m (renderPath path).toList = true then true
       else match stripPrefixPath root path with
            | some rel =>
              if (!rel.isEmpty && globMatch m (renderPath rel).toList) = true then true
              else false
            | none => false) := by
  simp only [should_include]
  rw [if_neg (by simp : ¬ (FileKind.File = FileKind.Directory))]

/-- C7.  The inclusion predicate: directories are always included; a file
failing a present size filter is excluded; with a matcher a file is included
iff its absolute path matches or its non-empty root-relative path matches;
with no matcher every file is included; and the empty query pattern includes
every file. -/
theorem C7_should_include_spec :
    (∀ path s m root f, should_include path .Directory s m root f = true)
    ∧ (∀ path s m root filt, filt.matches s = false →
        should_include path .File s m root (some filt) = false)
    ∧ (∀ path s m root filt_opt,
        (∀ filt, filt_opt = some filt → filt.matches s = true) →
        should_include path .File s (some m) root filt_opt =
          (globMatch m (renderPath path).toList ||
            (root.isPrefixOf path &&
              (!(path.drop root.length).isEmpty &&
                globMatch m (renderPath (path.drop root.length)).toList))))
    ∧ (∀ path s root filt_opt,
        (∀ filt, filt_opt = some filt → filt.matches s = true) →
        should_include path .File s none root filt_opt = true)
    ∧ (∀ path s root, should_include path .File s (compile_matcher (some "")) root none = true) := by
  refine ⟨?_, ?_, ?_, ?_, ?_⟩
  · intro path s m root f
    simp [should_include]
  · intro path s m root filt h
    simp [should_include, h]
  · intro path s m root filt_opt hfilt
    have core : ∀ filt_opt', (match filt_opt' with
          | some filter => !filter.matches s
          | none => false) = false →
        should_include path .File s (some m) root filt_opt' =
          (globMatch m (renderPath path).toList ||
            (root.isPrefixOf path &&
              (!(path.drop root.length).isEmpty &&
                globMatch m (renderPath (path.drop root.length)).toList))) := by
      intro filt_opt' hfl
      rw [should_include_file_unfold, if_neg (by simp [hfl])]
      cases hA : globMatch m (renderPath path).toList with
      | true =>
        rw [if_pos rfl, Bool.true_or]
      | false =>
        rw [if_neg (by simp), Bool.false_or]
        cases hB : root.isPrefixOf path with
        | false =>
          have hsp : stripPrefixPath root path = none := by
            rw [stripPrefixPath, if_neg]
            rw [hB]
            simp
          rw [hsp, Bool.false_and]
        | true =>
          have hsp : stripPrefixPath root path = some (path.drop root.length) := by
            rw [stripPrefixPath, if_pos hB]
          rw [hsp, Bool.true_and]
          cases hC : (!(path.drop root.length).isEmpty &&
              globMatch m (renderPath (path.drop root.length)).toList) with
          | true =>
            show (if (!(path.drop root.length).isEmpty &&
                globMatch m (renderPath (path.drop root.length)).toList) = true
              then true else false) = true
            rw [hC]
            simp
          | false =>
            show (if (!(path.drop root.length).isEmpty &&
                globMatch m (renderPath (path.drop root.length)).toList) = true
              then true else false) = false
            rw [hC]
            simp
    apply core
    cases filt_opt with
    | none => rfl
    | some filt => simp [hfilt filt rfl]
  · intro path s root filt_opt hfilt
    have core4 : ∀ filt_opt', (match filt_opt' with
          | some filter => !filter.matches s
          | none => false) = false →
        should_include path .File s none root filt_opt' = true := by
      intro filt_opt' hfl
      simp [should_include, hfl]
    apply core4
    cases filt_opt with
    | none => rfl
    | some filt => simp [hfilt filt rfl]
  · intro path s root
    rw [compile_matcher_empty]
    simp [should_include, globMatch_globStar]

/-- Witness for C7: a concrete file matched through the root-relative branch
of the matcher (pattern *.rs does not match the absolute rendering because
"*" does not cross "/"). -/
theorem C7_witness :
    should_include ["home", "file.rs"] .File 5 (compile_matcher (some "*.rs")) ["home"] none
      = true := by
  have hc : compile_matcher (some "*.rs") = some (parseGlob "*.rs".toList) := by decide
  rw [hc, C7_should_include_spec.2.2.1 ["home", "file.rs"] 5 (parseGlob "*.rs".toList) ["home"]
      none (fun filt h => by cases h)]
  decide

-- ---------------------------------------------------------------------------
-- C10: memoised aggregate size agrees with the naive recursion.
-- ---------------------------------------------------------------------------

lemma maxKeyLen_bound : ∀ (st : TreeStore), ∀ kv ∈ st, kv.1.length ≤ maxKeyLen st := by
  intro st
  induction st with
  | nil => intro kv hkv; cases hkv
  | cons hd tl ih =>
    intro kv hkv
    rcases List.mem_cons.mp hkv with h | h
    · subst h
      simp only [maxKeyLen, List.map_cons, List.foldr_cons]
      exact le_max_left _ _
    · have hle := ih kv h
      simp only [maxKeyLen, List.map_cons, List.foldr_cons]
      simp only [maxKeyLen] at hle
      exact le_trans hle (le_max_right _ _)

lemma lookupNode_mem {st : TreeStore} {p : List String} {n : TreeNode}
    (h : lookupNode st p = some n) : (p, n) ∈ st := by
  unfold lookupNode at h
  rcases Option.map_eq_some'.mp h with ⟨kv, hfind, hv⟩
  have hmem := List.mem_of_find?_eq_some hfind
  have hkey := List.find?_some hfind
  simp only [decide_eq_true_eq] at hkey
  obtain ⟨k1, k2⟩ := kv
  simp only at hkey hv
  subst hkey
  subst hv
  exact hmem

lemma lookupNode_length {st : TreeStore} {p : List String} {n : TreeNode}
    (h : lookupNode st p = some n) : p.length ≤ maxKeyLen st :=
  maxKeyLen_bound st (p, n) (lookupNode_mem h)

lemma naive_succ (st : TreeStore) (f : Nat) (p : List String) :
    aggregated_size_naive st (f + 1) p =
      match lookupNode st p with
      | none => 0
      | some node =>
        if node.kind = FileKind.Directory then
          node.direct_size + (node.children.map (fun c => aggregated_size_naive st f c)).sum
        else node.direct_size := rfl

lemma naive_succ_none (st : TreeStore) (f : Nat) (p : List String)
    (h : lookupNode st p = none) : aggregated_size_naive st (f + 1) p = 0 := by
  rw [naive_succ, h]

lemma naive_succ_some (st : TreeStore) (f : Nat) (p : List String) (node : TreeNode)
    (h : lookupNode st p = some node) :
    aggregated_size_naive st (f + 1) p =
      if node.kind = FileKind.Directory then
        node.direct_size + (node.children.map (fun c => aggregated_size_naive st f c)).sum
      else node.direct_size := by
  rw [naive_succ, h]

lemma naive_stable (st : TreeStore) (hwf : TreeWf st) :
    ∀ f g p, maxKeyLen st + 2 ≤ f + p.length → maxKeyLen st + 2 ≤ g + p.length →
      aggregated_size_naive st f p = aggregated_size_naive st g p := by
  intro f
  induction f with
  | zero =>
    intro g p hf hg
    have hnone : lookupNode st p = none := by
      cases hcase : lookupNode st p with
      | none => rfl
      | some n => have := lookupNode_length hcase; omega
    cases g with
    | zero => rfl
    | succ g => rw [naive_succ_none st g p hnone]; rfl
  | succ f ih =>
    intro g p hf hg
    cases g with
    | zero =>
      have hnone : lookupNode st p = none := by
        cases hcase : lookupNode st p with
        | none => rfl
        | some n => have := lookupNode_length hcase; omega
      rw [naive_succ_none st f p hnone]; rfl
    | succ g =>
      cases hcase : lookupNode st p with
      | none => rw [naive_succ_none st f p hcase, naive_succ_none st g p hcase]
      | some node =>
        rw [naive_succ_some st f p node hcase, naive_succ_some st g p node hcase]
        by_cases hk : node.kind = FileKind.Directory
        · rw [if_pos hk, if_pos hk]
          have hmaps : node.children.map (fun c => aggregated_size_naive st f c) =
              node.children.map (fun c => aggregated_size_naive st g c) := by
            apply List.map_congr_left
            intro c hc
            have hlen : c.length = p.length + 1 :=
              hwf (p, node) (lookupNode_mem hcase) c hc
            exact ih g c (by omega) (by omega)
          rw [hmaps]
        · rw [if_neg hk, if_neg hk]

lemma memoLookup_cons (hd : List String × Nat) (tl : List (List String × Nat))
    (q : List String) :
    memoLookup (hd :: tl) q = if hd.1 = q then some hd.2 else memoLookup tl q := by
  unfold memoLookup
  rw [List.find?_cons]
  by_cases h : hd.1 = q
  · simp [h]
  · simp [h]

lemma memoLookup_map_ne (tl : List (List String × Nat)) (p : List String) (v : Nat)
    (q : List String) (hq : q ≠ p) :
    memoLookup (tl.map (fun kv => if kv.1 = p then (kv.1, v) else kv)) q =
      memoLookup tl q := by
  induction tl with
  | nil => rfl
  | cons hd tl ih =>
    rw [List.map_cons]
    by_cases hp : hd.1 = p
    · rw [if_pos hp, memoLookup_cons, memoLookup_cons]
      have hne : ¬ (hd.1 = q) := fun h => hq (h.symm.trans hp)
      rw [if_neg hne, if_neg hne]
      exact ih
    · rw [if_neg hp, memoLookup_cons, memoLookup_cons]
      by_cases hh : hd.1 = q
      · rw [if_pos hh, if_pos hh]
      · rw [if_neg hh, if_neg hh]
        exact ih

lemma memoLookup_map_eq (tl : List (List String × Nat)) (p : List String) (v : Nat)
    (hmem : tl.any (fun kv => decide (kv.1 = p)) = true) :
    memoLookup (tl.map (fun kv => if kv.1 = p then (kv.1, v) else kv)) p = some v := by
  induction tl with
  | nil => simp at hmem
  | cons hd tl ih =>
    rw [List.map_cons]
    by_cases hp : hd.1 = p
    · rw [if_pos hp, memoLookup_cons, if_pos hp]
    · rw [if_neg hp, memoLookup_cons, if_neg hp]
      apply ih
      simpa [List.any_cons, hp] using hmem

lemma memoLookup_append_ne (memo : List (List String × Nat)) (p : List String) (v : Nat)
    (q : List String) (hq : q ≠ p) :
    memoLookup (memo ++ [(p, v)]) q = memoLookup memo q := by
  induction memo with
  | nil =>
    rw [List.nil_append, memoLookup_cons, if_neg (fun h => hq h.symm)]
  | cons hd tl ih =>
    rw [List.cons_append, memoLookup_cons, memoLookup_cons]
    by_cases hh : hd.1 = q
    · rw [if_pos hh, if_pos hh]
    · rw [if_neg hh, if_neg hh]
      exact ih

lemma memoLookup_append_eq (memo : List (List String × Nat)) (p : List String) (v : Nat)
    (hmem : memo.any (fun kv => decide (kv.1 = p)) = false) :
    memoLookup (memo ++ [(p, v)]) p = some v := by
  induction memo with
  | nil => rw [List.nil_append, memoLookup_cons, if_pos rfl]
  | cons hd tl ih =>
    have hmem' : ¬ (hd.1 = p) ∧ tl.any (fun kv => decide (kv.1 = p)) = false := by
      constructor
      · intro h
        rw [List.any_cons] at hmem
        simp [h] at hmem
      · rw [List.any_cons] at hmem
        rcases Bool.or_eq_false_iff.mp hmem with ⟨-, h2⟩
        exact h2
    rw [List.cons_append, memoLookup_cons, if_neg hmem'.1]
    exact ih hmem'.2

lemma memoLookup_insert (memo : List (List String × Nat)) (p : List String) (v : Nat)
    (q : List String) :
    memoLookup (memoInsert memo p v) q = if q = p then some v else memoLookup memo q := by
  unfold memoInsert
  by_cases hmem : memo.any (fun kv => decide (kv.1 = p)) = true
  · rw [if_pos hmem]
    by_cases hq : q = p
    · subst hq
      rw [if_pos rfl]
      exact memoLookup_map_eq memo q v hmem
    · rw [if_neg hq]
      exact memoLookup_map_ne memo p v q hq
  · rw [if_neg hmem]
    by_cases hq : q = p
    · subst hq
      rw [if_pos rfl]
      exact memoLookup_append_eq memo q v
        (by simp only [Bool.not_eq_true] at hmem; exact hmem)
    · rw [if_neg hq]
      exact memoLookup_append_ne memo p v q hq

lemma cache_succ (st : TreeStore) (f : Nat) (p : List String)
    (memo : List (List String × Nat)) :
    aggregated_size_with_cache st (f + 1) p memo =
      match memoLookup memo p with
      | some v => (v, memo)
      | none =>
        match lookupNode st p with
        | none => (0, memo)
        | some node =>
          let res :=
            if node.kind = FileKind.Directory then
              node.children.foldl
                (fun acc c =>
                  let r := aggregated_size_with_cache st f c acc.2
                  (acc.1 + r.1, r.2))
                (node.direct_size, memo)
            else (node.direct_size, memo)
          (res.1, memoInsert res.2 p res.1) := rfl

lemma cache_succ_hit (st : TreeStore) (f : Nat) (p : List String)
    (memo : List (List String × Nat)) (v : Nat) (h : memoLookup memo p = some v) :
    aggregated_size_with_cache st (f + 1) p memo = (v, memo) := by
  rw [cache_succ, h]

lemma cache_succ_miss_none (st : TreeStore) (f : Nat) (p : List String)
    (memo : List (List String × Nat)) (h : memoLookup memo p = none)
    (hl : lookupNode st p = none) :
    aggregated_size_with_cache st (f + 1) p memo = (0, memo) := by
  rw [cache_succ, h, hl]

lemma cache_succ_miss_some (st : TreeStore) (f : Nat) (p : List String)
    (memo : List (List String × Nat)) (node : TreeNode) (h : memoLookup memo p = none)
    (hl : lookupNode st p = some node) :
    aggregated_size_with_cache st (f + 1) p memo =
      (let res :=
        if node.kind = FileKind.Directory then
          node.children.foldl
            (fun acc c =>
              let r := aggregated_size_with_cache st f c acc.2
              (acc.1 + r.1, r.2))
            (node.direct_size, memo)
        else (node.direct_size, memo)
       (res.1, memoInsert res.2 p res.1)) := by
  rw [cache_succ, h, hl]

lemma cached_correct (st : TreeStore) (hwf : TreeWf st) :
    ∀ f p memo, maxKeyLen st + 2 ≤ f + p.length →
      (∀ q v, memoLookup memo q = some v →
        v = aggregated_size_naive st (maxKeyLen st + 2) q) →
      (aggregated_size_with_cache st f p memo).1
          = aggregated_size_naive st (maxKeyLen st + 2) p
      ∧ (∀ q v, memoLookup (aggregated_size_with_cache st f p memo).2 q = some v →
          v = aggregated_size_naive st (maxKeyLen st + 2) q) := by
  intro f
  induction f with
  | zero =>
    intro p memo hb hm
    have hnone : lookupNode st p = none := by
      cases hcase : lookupNode st p with
      | none => rfl
      | some n => have := lookupNode_length hcase; omega
    constructor
    · show (0 : Nat) = aggregated_size_naive st (maxKeyLen st + 2) p
      rw [show aggregated_size_naive st (maxKeyLen st + 2) p
            = aggregated_size_naive st (maxKeyLen st + 1 + 1) p from rfl,
          naive_succ_none st (maxKeyLen st + 1) p hnone]
    · exact hm
  | succ f ih =>
    intro p memo hb hm
    cases hmo : memoLookup memo p with
    | some v =>
      rw [cache_succ_hit st f p memo v hmo]
      exact ⟨hm p v hmo, hm⟩
    | none =>
      cases hlk : lookupNode st p with
      | none =>
        rw [cache_succ_miss_none st f p memo hmo hlk]
        constructor
        · show (0 : Nat) = aggregated_size_naive st (maxKeyLen st + 2) p
          rw [show aggregated_size_naive st (maxKeyLen st + 2) p
                = aggregated_size_naive st (maxKeyLen st + 1 + 1) p from rfl,
              naive_succ_none st (maxKeyLen st + 1) p hlk]
        · exact hm
      | some node =>
        rw [cache_succ_miss_some st f p memo node hmo hlk]
        have hmemlem : ∀ c ∈ node.children, c.length = p.length + 1 :=
          fun c hc => hwf (p, node) (lookupNode_mem hlk) c hc
        by_cases hk : node.kind = FileKind.Directory
        case neg =>
          simp only [if_neg hk]
          have hval : aggregated_size_naive st (maxKeyLen st + 2) p = node.direct_size := by
            rw [show aggregated_size_naive st (maxKeyLen st + 2) p
                  = aggregated_size_naive st (maxKeyLen st + 1 + 1) p from rfl,
                naive_succ_some st (maxKeyLen st + 1) p node hlk, if_neg hk]
          constructor
          · exact hval.symm
          · intro q v hq
            rw [memoLookup_insert] at hq
            by_cases hqp : q = p
            · rw [if_pos hqp] at hq
              cases hq
              rw [hqp, hval]
            · rw [if_neg hqp] at hq
              exact hm q v hq
        case pos =>
          simp only [if_pos hk]
          have hmapeq : node.children.map
                (fun c => aggregated_size_naive st (maxKeyLen st + 1) c)
              = node.children.map
                (fun c => aggregated_size_naive st (maxKeyLen st + 2) c) :=
            List.map_congr_left fun c hc =>
              naive_stable st hwf _ _ c
                (by have := hmemlem c hc; omega) (by have := hmemlem c hc; omega)
          have hnval : aggregated_size_naive st (maxKeyLen st + 2) p =
              node.direct_size + (node.children.map
                (fun c => aggregated_size_naive st (maxKeyLen st + 2) c)).sum := by
            rw [show aggregated_size_naive st (maxKeyLen st + 2) p
                  = aggregated_size_naive st (maxKeyLen st + 1 + 1) p from rfl,
                naive_succ_some st (maxKeyLen st + 1) p node hlk, if_pos hk, hmapeq]
          have main : ∀ (cs : List (List String)), (∀ c ∈ cs, c ∈ node.children) →
              ∀ (a : Nat) (memo0 : List (List String × Nat)),
              (∀ q v, memoLookup memo0 q = some v →
                v = aggregated_size_naive st (maxKeyLen st + 2) q) →
              (cs.foldl (fun acc c =>
                  let r := aggregated_size_with_cache st f c acc.2
                  (acc.1 + r.1, r.2)) (a, memo0)).1
                = a + (cs.map
                    (fun c => aggregated_size_naive st (maxKeyLen st + 2) c)).sum
              ∧ (∀ q v, memoLookup (cs.foldl (fun acc c =>
                  let r := aggregated_size_with_cache st f c acc.2
                  (acc.1 + r.1, r.2)) (a, memo0)).2 q = some v →
                  v = aggregated_size_naive st (maxKeyLen st + 2) q) := by
            intro cs
            induction cs with
            | nil =>
              intro _ a memo0 hm0
              exact ⟨by simp, hm0⟩
            | cons c cs ihc =>
              intro hsub a memo0 hm0
              have hcb : maxKeyLen st + 2 ≤ f + c.length := by
                have := hmemlem c (hsub c (List.mem_cons_self c cs))
                omega
              have hc := ih c memo0 hcb hm0
              have hrest := ihc (fun x hx => hsub x (List.mem_cons_of_mem c hx))
                (a + (aggregated_size_with_cache st f c memo0).1)
                (aggregated_size_with_cache st f c memo0).2 hc.2
              constructor
              · simp only [List.foldl_cons]
                rw [hrest.1, hc.1, List.map_cons, List.sum_cons]
                omega
              · simp only [List.foldl_cons]
                exact hrest.2
          obtain ⟨h1, h2⟩ := main node.children (fun _ hx => hx) node.direct_size memo hm
          constructor
          · rw [h1, hnval]
          · intro q v hq
            rw [memoLookup_insert] at hq
            by_cases hqp : q = p
            · rw [if_pos hqp] at hq
              cases hq
              rw [hqp, hnval, h1]
            · rw [if_neg hqp] at hq
              exact h2 q v hq

/-- C10.  aggregated_size_with_cache started with an empty memo computes the
naive unmemoised recursive aggregate; a memo whose entries record naive
values (as produced by earlier calls on the same tree) gives the same
value as an empty memo; and the resulting memo again records only naive
values.  The counter hypothesis gives the recursion enough steps to explore
any chain of stored keys, and TreeWf is the child-shape invariant of every
store built from the entry stream. -/
theorem C10_aggregated_size_with_cache_correct (st : TreeStore) (hwf : TreeWf st)
    (fuel : Nat) (p : List String) (memo : List (List String × Nat))
    (hfuel : maxKeyLen st + 2 ≤ fuel + p.length)
    (hmemo : ∀ q v, memoLookup memo q = some v →
        v = aggregated_size_naive st (maxKeyLen st + 2) q) :
    (aggregated_size_with_cache st fuel p []).1
        = aggregated_size_naive st (maxKeyLen st + 2) p
    ∧ (aggregated_size_with_cache st fuel p memo).1 =
        (aggregated_size_with_cache st fuel p []).1
    ∧ (∀ q v, memoLookup (aggregated_size_with_cache st fuel p memo).2 q = some v →
        v = aggregated_size_naive st (maxKeyLen st + 2) q) := by
  have hempty := cached_correct st hwf fuel p [] hfuel (fun q v h => by cases h)
  have hfull := cached_correct st hwf fuel p memo hfuel hmemo
  exact ⟨hempty.1, hfull.1.trans hempty.1.symm, hfull.2⟩

/-- Witness for C10: on a concrete four-node store, the memoised aggregate at
the root from an empty memo equals the naive aggregate, which computes 13. -/
theorem C10_witness :
    TreeWf stC10
    ∧ (aggregated_size_with_cache stC10 4 [] []).1
        = aggregated_size_naive stC10 (maxKeyLen stC10 + 2) []
    ∧ aggregated_size_naive stC10 (maxKeyLen stC10 + 2) [] = 13 :=
  ⟨by unfold TreeWf; decide,
   (C10_aggregated_size_with_cache_correct stC10 (by unfold TreeWf; decide) 4 [] []
      (by decide) (fun q v h => by cases h)).1,
   by decide⟩

-- ---------------------------------------------------------------------------
-- C9: contains_match propagation in the tree store.
-- ---------------------------------------------------------------------------

/-- Counterexample for C9 as stated: in the stream esC9 the file a/b arrives
before its parent directory a, so the later-created node a is an ancestor of
a stored File node but carries contains_match = false (upsert only marks
ancestors that already exist, and creating a directory never revisits its
descendants). -/
theorem C9_counterexample :
    ¬ (AncestorsMarked (buildStore esC9) ∧ DirContainsIff (buildStore esC9)) := by
  rintro ⟨hA, -⟩
  have hmark := hA (["a"], ⟨"a", .Directory, 0, none, none, [], false⟩) (by decide)
    (["a", "b"], ⟨"b", .File, 1, none, none, [], true⟩) (by decide) (by decide)
    (by decide) (by decide)
  exact absurd hmark (by decide)

lemma lookupNode_cons (hd : List String × TreeNode) (tl : TreeStore) (q : List String) :
    lookupNode (hd :: tl) q = if hd.1 = q then some hd.2 else lookupNode tl q := by
  unfold lookupNode
  rw [List.find?_cons]
  by_cases h : hd.1 = q
  · simp [h]
  · simp [h]

lemma lookupNode_map_ne (tl : TreeStore) (p : List String) (n : TreeNode)
    (q : List String) (hq : q ≠ p) :
    lookupNode (tl.map (fun kv => if kv.1 = p then (kv.1, n) else kv)) q =
      lookupNode tl q := by
  induction tl with
  | nil => rfl
  | cons hd tl ih =>
    rw [List.map_cons]
    by_cases hp : hd.1 = p
    · rw [if_pos hp, lookupNode_cons, lookupNode_cons]
      have hne : ¬ (hd.1 = q) := fun h => hq (h.symm.trans hp)
      rw [if_neg hne, if_neg hne]
      exact ih
    · rw [if_neg hp, lookupNode_cons, lookupNode_cons]
      by_cases hh : hd.1 = q
      · rw [if_pos hh, if_pos hh]
      · rw [if_neg hh, if_neg hh]
        exact ih

lemma lookupNode_map_eq (tl : TreeStore) (p : List String) (n : TreeNode)
    (hmem : tl.any (fun kv => decide (kv.1 = p)) = true) :
    lookupNode (tl.map (fun kv => if kv.1 = p then (kv.1, n) else kv)) p = some n := by
  induction tl with
  | nil => simp at hmem
  | cons hd tl ih =>
    rw [List.map_cons]
    by_cases hp : hd.1 = p
    · rw [if_pos hp, lookupNode_cons, if_pos hp]
    · rw [if_neg hp, lookupNode_cons, if_neg hp]
      apply ih
      rw [List.any_cons] at hmem
      rcases Bool.or_eq_true_iff.mp hmem with h1 | h2
      · exact absurd (of_decide_eq_true h1) hp
      · exact h2

lemma lookupNode_append_ne (st : TreeStore) (p : List String) (n : TreeNode)
    (q : List String) (hq : q ≠ p) :
    lookupNode (st ++ [(p, n)]) q = lookupNode st q := by
  induction st with
  | nil => rw [List.nil_append, lookupNode_cons, if_neg (fun h => hq h.symm)]
  | cons hd tl ih =>
    rw [List.cons_append, lookupNode_cons, lookupNode_cons]
    by_cases hh : hd.1 = q
    · rw [if_pos hh, if_pos hh]
    · rw [if_neg hh, if_neg hh]
      exact ih

lemma lookupNode_append_eq (st : TreeStore) (p : List String) (n : TreeNode)
    (hmem : st.any (fun kv => decide (kv.1 = p)) = false) :
    lookupNode (st ++ [(p, n)]) p = some n := by
  induction st with
  | nil => rw [List.nil_append, lookupNode_cons, if_pos rfl]
  | cons hd tl ih =>
    have hmem' : ¬ (hd.1 = p) ∧ tl.any (fun kv => decide (kv.1 = p)) = false := by
      constructor
      · intro h
        rw [List.any_cons] at hmem
        simp [h] at hmem
      · rw [List.any_cons] at hmem
        rcases Bool.or_eq_false_iff.mp hmem with ⟨-, h2⟩
        exact h2
    rw [List.cons_append, lookupNode_cons, if_neg hmem'.1]
    exact ih hmem'.2

lemma lookupNode_insertNode (st : TreeStore) (p : List String) (n : TreeNode)
    (q : List String) :
    lookupNode (insertNode st p n) q = if q = p then some n else lookupNode st q := by
  unfold insertNode
  by_cases hmem : st.any (fun kv => decide (kv.1 = p)) = true
  · rw [if_pos hmem]
    by_cases hq : q = p
    · subst hq
      rw [if_pos rfl]
      exact lookupNode_map_eq st q n hmem
    · rw [if_neg hq]
      exact lookupNode_map_ne st p n q hq
  · rw [if_neg hmem]
    by_cases hq : q = p
    · subst hq
      rw [if_pos rfl]
      exact lookupNode_append_eq st q n (by simp only [Bool.not_eq_true] at hmem; exact hmem)
    · rw [if_neg hq]
      exact lookupNode_append_ne st p n q hq

lemma lookupNode_mapNode (st : TreeStore) (p : List String) (f : TreeNode → TreeNode)
    (q : List String) :
    lookupNode (mapNode st p f) q =
      if q = p then (lookupNode st p).map f else lookupNode st q := by
  induction st with
  | nil =>
    by_cases hq : q = p
    · rw [if_pos hq]; rfl
    · rw [if_neg hq]; rfl
  | cons hd tl ih =>
    unfold mapNode at *
    rw [List.map_cons]
    by_cases hp : hd.1 = p
    · rw [if_pos hp]
      by_cases hq : q = p
      · subst hq
        rw [if_pos rfl, lookupNode_cons, lookupNode_cons]
        rw [if_pos hp, if_pos hp]
        rfl
      · rw [if_neg hq, lookupNode_cons, lookupNode_cons]
        have hne : ¬ (hd.1 = q) := fun h => hq (h.symm.trans hp)
        rw [if_neg hne, if_neg hne, ih, if_neg hq]
    · rw [if_neg hp]
      by_cases hq : q = p
      · subst hq
        rw [if_pos rfl, lookupNode_cons, lookupNode_cons, if_neg hp, if_neg hp, ih,
            if_pos rfl]
      · rw [if_neg hq, lookupNode_cons, lookupNode_cons]
        by_cases hh : hd.1 = q
        · rw [if_pos hh, if_pos hh]
        · rw [if_neg hh, if_neg hh, ih, if_neg hq]

lemma setTrue_setTrue (n : TreeNode) : setTrue (setTrue n) = setTrue n := rfl

/-- mark_contains_match_upwards sets contains_match on exactly the existing
nodes whose path is a prefix of the start path. -/
lemma markUpGo_spec (f : Nat) (p : List String) (hf : p.length < f) :
    ∀ st, markUpGo f st (some p) =
      st.map (fun kv => if kv.1 <+: p then (kv.1, setTrue kv.2) else kv) := by
  induction f generalizing p with
  | zero => omega
  | succ f ih =>
    intro st
    match p, hf with
    | [], _ =>
      simp only [markUpGo, parentPath]
      unfold mapNode
      apply List.map_congr_left
      intro kv _
      by_cases h : kv.1 = []
      · rw [if_pos h, if_pos (show kv.1 <+: ([] : List String) from h ▸ List.prefix_refl _)]
        rfl
      · have h' : ¬ ((kv.1 : List String) <+: ([] : List String)) := by
          simpa [List.prefix_nil] using h
        rw [if_neg h, if_neg h']
    | a :: p', hf =>
      have hlen : (a :: p').dropLast.length < f := by
        simp only [List.length_dropLast, List.length_cons] at *
        omega
      simp only [markUpGo, parentPath]
      rw [ih _ hlen]
      unfold mapNode
      rw [List.map_map]
      apply List.map_congr_left
      intro kv _
      simp only [Function.comp]
      by_cases hq : kv.1 = a :: p'
      · rw [if_pos hq]
        have hd : ¬ ((kv.1 : List String) <+: (a :: p').dropLast) := by
          rw [hq]
          intro hcon
          have := hcon.length_le
          simp only [List.length_dropLast, List.length_cons] at this
          omega
        have hpre : kv.1 <+: a :: p' := hq ▸ List.prefix_refl _
        rw [if_neg hd, if_pos hpre]
        rfl
      · rw [if_neg hq]
        by_cases hd : (kv.1 : List String) <+: (a :: p').dropLast
        · have hpre : kv.1 <+: a :: p' := hd.trans (List.dropLast_prefix _)
          rw [if_pos hd, if_pos hpre]
        · have hnp : ¬ ((kv.1 : List String) <+: a :: p') := by
            intro hcon
            rcases prefix_dropLast_or_self hcon with h3 | h3
            · exact hq h3
            · exact hd h3
          rw [if_neg hd, if_neg hnp]

lemma lookupNode_mapAll (st : TreeStore) (h : List String → TreeNode → TreeNode)
    (q : List String) :
    lookupNode (st.map (fun kv => (kv.1, h kv.1 kv.2))) q = (lookupNode st q).map (h q) := by
  induction st with
  | nil => rfl
  | cons hd tl ih =>
    rw [List.map_cons, lookupNode_cons, lookupNode_cons]
    by_cases hh : hd.1 = q
    · rw [if_pos hh, if_pos hh]
      subst hh
      rfl
    · rw [if_neg hh, if_neg hh]
      exact ih

lemma lookupNode_markUp (st : TreeStore) (start q : List String) :
    lookupNode (mark_contains_match_upwards st start) q =
      if q <+: start then (lookupNode st q).map setTrue else lookupNode st q := by
  rw [mark_contains_match_upwards,
      markUpGo_spec (start.length + 1) start (Nat.lt_succ_self _)]
  have hconv : (st.map (fun kv => if kv.1 <+: start then (kv.1, setTrue kv.2) else kv))
      = st.map (fun kv => (kv.1, if kv.1 <+: start then setTrue kv.2 else kv.2)) := by
    apply List.map_congr_left
    intro kv _
    by_cases h : kv.1 <+: start
    · rw [if_pos h, if_pos h]
    · rw [if_neg h, if_neg h]
  rw [hconv, lookupNode_mapAll st (fun k n => if k <+: start then setTrue n else n) q]
  by_cases h : q <+: start
  · rw [if_pos h]
    cases hl : lookupNode st q with
    | none => rfl
    | some n =>
      show some (if q <+: start then setTrue n else n) = some (setTrue n)
      rw [if_pos h]
  · rw [if_neg h]
    cases hl : lookupNode st q with
    | none => rfl
    | some n =>
      show some (if q <+: start then setTrue n else n) = some n
      rw [if_neg h]

lemma upsert_eq (st : TreeStore) (e : FileEntry) :
    st.upsert e =
      (if e.kind = FileKind.File then mark_contains_match_upwards (upStage2 st e) e.path
       else upStage2 st e) := rfl

lemma parentPath_ne_self (p : List String) : ¬ (parentPath p = some p) := by
  cases p with
  | nil => simp [parentPath]
  | cons a p' =>
    intro hcon
    have := Option.some.inj hcon
    have hlen := congrArg List.length this
    simp only [List.length_dropLast, List.length_cons] at hlen
    omega

lemma parentPath_shorter {p pp : List String} (h : parentPath p = some pp) :
    pp.length + 1 = p.length ∧ pp <+: p := by
  cases p with
  | nil => cases h
  | cons a p' =>
    have := Option.some.inj h
    subst this
    refine ⟨?_, List.dropLast_prefix _⟩
    simp [List.length_dropLast]

lemma lookup_upStage2 (st : TreeStore) (e : FileEntry) (q : List String) :
    lookupNode (upStage2 st e) q =
      (if parentPath e.path = some q then
        (if q = e.path then some (upsertNode st e) else lookupNode st q).map
          (fun pn => { pn with children := insertChild pn.children e.path })
      else (if q = e.path then some (upsertNode st e) else lookupNode st q)) := by
  unfold upStage2
  cases hpp : parentPath e.path with
  | none =>
    rw [lookupNode_insertNode,
        if_neg (show ¬ ((none : Option (List String)) = some q) from fun h =>
          Option.noConfusion h)]
  | some pp =>
    rw [lookupNode_mapNode, lookupNode_insertNode]
    by_cases hq : q = pp
    · subst hq
      rw [if_pos rfl, if_pos rfl]
    · rw [if_neg hq, if_neg (fun hcon => hq (Option.some.inj hcon).symm),
          lookupNode_insertNode]

lemma lookup_upsert (st : TreeStore) (e : FileEntry) (q : List String) :
    lookupNode (st.upsert e) q =
      (if e.kind = FileKind.File ∧ q <+: e.path
       then (lookupNode (upStage2 st e) q).map setTrue
       else lookupNode (upStage2 st e) q) := by
  rw [upsert_eq]
  by_cases hk : e.kind = FileKind.File
  · rw [if_pos hk, lookupNode_markUp]
    by_cases hpre : q <+: e.path
    · rw [if_pos hpre, if_pos ⟨hk, hpre⟩]
    · rw [if_neg hpre, if_neg (fun hcon => hpre hcon.2)]
  · rw [if_neg hk, if_neg (fun hcon => hk hcon.1)]

lemma lookup_upsert_at (st : TreeStore) (e : FileEntry) :
    lookupNode (st.upsert e) e.path =
      some (if e.kind = FileKind.File then setTrue (upsertNode st e)
        else upsertNode st e) := by
  rw [lookup_upsert, lookup_upStage2, if_neg (parentPath_ne_self e.path), if_pos rfl]
  by_cases hk : e.kind = FileKind.File
  · rw [if_pos ⟨hk, List.prefix_refl _⟩, if_pos hk]
    rfl
  · rw [if_neg (fun hcon => hk hcon.1), if_neg hk]

lemma lookup_upsert_ne (st : TreeStore) (e : FileEntry) (q : List String)
    (hq : q ≠ e.path) :
    lookupNode (st.upsert e) q =
      (lookupNode st q).map (fun n =>
        let n1 := if parentPath e.path = some q
          then { n with children := insertChild n.children e.path } else n
        if e.kind = FileKind.File ∧ q <+: e.path then setTrue n1 else n1) := by
  rw [lookup_upsert, lookup_upStage2, if_neg hq]
  by_cases hpp : parentPath e.path = some q
  · rw [if_pos hpp]
    by_cases hmk : e.kind = FileKind.File ∧ q <+: e.path
    · rw [if_pos hmk]
      cases hl : lookupNode st q with
      | none => rfl
      | some n =>
        simp only [Option.map_some']
        rw [if_pos hpp, if_pos hmk]
    · rw [if_neg hmk]
      cases hl : lookupNode st q with
      | none => rfl
      | some n =>
        simp only [Option.map_some']
        rw [if_pos hpp, if_neg hmk]
  · rw [if_neg hpp]
    by_cases hmk : e.kind = FileKind.File ∧ q <+: e.path
    · rw [if_pos hmk]
      cases hl : lookupNode st q with
      | none => rfl
      | some n =>
        simp only [Option.map_some']
        rw [if_neg hpp, if_pos hmk]
    · rw [if_neg hmk]
      cases hl : lookupNode st q with
      | none => rfl
      | some n =>
        simp only [Option.map_some']
        rw [if_neg hpp, if_neg hmk]

lemma lookup_upsert_at_existing (st : TreeStore) (e : FileEntry) (n : TreeNode)
    (hl : lookupNode st e.path = some n) :
    lookupNode (st.upsert e) e.path =
      some ⟨e.file_name, e.kind, e.direct_size, e.modified, e.created, n.children,
        if e.kind = FileKind.File then true else n.contains_match⟩ := by
  rw [lookup_upsert_at]
  by_cases hk : e.kind = FileKind.File
  · simp [upsertNode, hl, setTrue, hk]
  · simp [upsertNode, hl, setTrue, hk]

lemma lookup_upsert_at_new (st : TreeStore) (e : FileEntry)
    (hl : lookupNode st e.path = none) :
    lookupNode (st.upsert e) e.path =
      some ⟨e.file_name, e.kind, e.direct_size, e.modified, e.created, [],
        decide (e.kind = FileKind.File)⟩ := by
  rw [lookup_upsert_at]
  by_cases hk : e.kind = FileKind.File
  · simp [upsertNode, hl, TreeNode.new, setTrue, hk]
  · simp [upsertNode, hl, TreeNode.new, setTrue, hk]

lemma lookup_upsert_ne_some (st : TreeStore) (e : FileEntry) (q : List String)
    (hq : q ≠ e.path) (n : TreeNode) (hl : lookupNode st q = some n) :
    lookupNode (st.upsert e) q =
      some ⟨n.name, n.kind, n.direct_size, n.modified, n.created,
        (if parentPath e.path = some q then insertChild n.children e.path else n.children),
        (if e.kind = FileKind.File ∧ q <+: e.path then true else n.contains_match)⟩ := by
  rw [lookup_upsert_ne st e q hq, hl]
  by_cases hpp : parentPath e.path = some q
  · by_cases hmk : e.kind = FileKind.File ∧ q <+: e.path
    · simp [setTrue, hpp, hmk]
    · simp [setTrue, hpp, hmk]
  · by_cases hmk : e.kind = FileKind.File ∧ q <+: e.path
    · simp [setTrue, hpp, hmk]
    · simp [setTrue, hpp, hmk]

lemma lookup_upsert_ne_none (st : TreeStore) (e : FileEntry) (q : List String)
    (hq : q ≠ e.path) (hl : lookupNode st q = none) :
    lookupNode (st.upsert e) q = none := by
  rw [lookup_upsert_ne st e q hq, hl]
  rfl

lemma lookup_upsert_ne_isSome (st : TreeStore) (e : FileEntry) (q : List String)
    (hq : q ≠ e.path) :
    (lookupNode (st.upsert e) q).isSome = (lookupNode st q).isSome := by
  rw [lookup_upsert_ne st e q hq]
  cases lookupNode st q <;> rfl

lemma lookup_upsert_at_isSome (st : TreeStore) (e : FileEntry) :
    (lookupNode (st.upsert e) e.path).isSome = true := by
  rw [lookup_upsert_at]
  rfl

lemma mem_insertChild (l : List (List String)) (x c : List String) :
    c ∈ insertChild l x ↔ c = x ∨ c ∈ l := by
  unfold insertChild
  by_cases h : x ∈ l
  · rw [if_pos h]
    constructor
    · exact Or.inr
    · rintro (rfl | hc)
      · exact h
      · exact hc
  · rw [if_neg h]
    constructor
    · intro hc
      rcases List.mem_append.mp hc with hc | hc
      · exact Or.inr hc
      · exact Or.inl (List.mem_singleton.mp hc)
    · rintro (rfl | hc)
      · exact List.mem_append.mpr (Or.inr (List.mem_singleton.mpr rfl))
      · exact List.mem_append.mpr (Or.inl hc)

lemma keys_mapNode (st : TreeStore) (p : List String) (f : TreeNode → TreeNode) :
    (mapNode st p f).map (fun kv => kv.1) = st.map (fun kv => kv.1) := by
  unfold mapNode
  rw [List.map_map]
  apply List.map_congr_left
  intro kv _
  show (if kv.1 = p then (kv.1, f kv.2) else kv).1 = kv.1
  by_cases h : kv.1 = p
  · rw [if_pos h]
  · rw [if_neg h]

lemma keys_markUp (st : TreeStore) (start : List String) :
    (mark_contains_match_upwards st start).map (fun kv => kv.1) =
      st.map (fun kv => kv.1) := by
  rw [mark_contains_match_upwards, markUpGo_spec (start.length + 1) start (Nat.lt_succ_self _),
      List.map_map]
  apply List.map_congr_left
  intro kv _
  show (if kv.1 <+: start then (kv.1, setTrue kv.2) else kv).1 = kv.1
  by_cases h : kv.1 <+: start
  · rw [if_pos h]
  · rw [if_neg h]

lemma keys_insertNode (st : TreeStore) (p : List String) (n : TreeNode) :
    (insertNode st p n).map (fun kv => kv.1) =
      (if st.any (fun kv => decide (kv.1 = p)) = true then st.map (fun kv => kv.1)
       else st.map (fun kv => kv.1) ++ [p]) := by
  unfold insertNode
  by_cases h : st.any (fun kv => decide (kv.1 = p)) = true
  · rw [if_pos h, if_pos h, List.map_map]
    apply List.map_congr_left
    intro kv _
    show (if kv.1 = p then (kv.1, n) else kv).1 = kv.1
    by_cases hk : kv.1 = p
    · rw [if_pos hk]
    · rw [if_neg hk]
  · rw [if_neg h, if_neg h, List.map_append]
    rfl

lemma uniq_upsert (st : TreeStore) (e : FileEntry) (hU : StoreUniq st) :
    StoreUniq (st.upsert e) := by
  have hstage : StoreUniq (upStage2 st e) := by
    unfold StoreUniq at *
    have hins : ((insertNode st e.path (upsertNode st e)).map (fun kv => kv.1)).Nodup := by
      rw [keys_insertNode]
      by_cases h : st.any (fun kv => decide (kv.1 = e.path)) = true
      · rw [if_pos h]
        exact hU
      · rw [if_neg h]
        have hnm : e.path ∉ st.map (fun kv => kv.1) := by
          intro hmem
          rcases List.mem_map.mp hmem with ⟨kv, hkv, hk⟩
          have : st.any (fun kv => decide (kv.1 = e.path)) = true :=
            List.any_eq_true.mpr ⟨kv, hkv, decide_eq_true hk⟩
          exact h this
        simp [List.nodup_append, hU, hnm]
    unfold upStage2
    cases parentPath e.path with
    | none => exact hins
    | some pp =>
      rw [keys_mapNode]
      exact hins
  unfold StoreUniq at *
  rw [upsert_eq]
  by_cases hk : e.kind = FileKind.File
  · rw [if_pos hk, keys_markUp]
    exact hstage
  · rw [if_neg hk]
    exact hstage

lemma lookup_of_mem_uniq {st : TreeStore} (hU : StoreUniq st)
    {kv : List String × TreeNode} (hkv : kv ∈ st) :
    lookupNode st kv.1 = some kv.2 := by
  induction st with
  | nil => cases hkv
  | cons hd tl ih =>
    rw [lookupNode_cons]
    rcases List.mem_cons.mp hkv with h | h
    · subst h
      rw [if_pos rfl]
    · by_cases hh : hd.1 = kv.1
      · exfalso
        unfold StoreUniq at hU
        rw [List.map_cons] at hU
        have hnin := (List.nodup_cons.mp hU).1
        exact hnin (hh ▸ List.mem_map.mpr ⟨kv, h, rfl⟩)
      · rw [if_neg hh]
        exact ih (by
          unfold StoreUniq at hU ⊢
          rw [List.map_cons] at hU
          exact (List.nodup_cons.mp hU).2) h

lemma ancestors_isSome (st : TreeStore) (hAC : AncClosed st) :
    ∀ k (r : List String), r.length ≤ k → (lookupNode st r).isSome = true →
      ∀ q, q <+: r → (lookupNode st q).isSome = true := by
  intro k
  induction k with
  | zero =>
    intro r hr hsome q hq
    have hr0 : r = [] := List.length_eq_zero.mp (Nat.le_zero.mp hr)
    subst hr0
    have hq0 : q = [] := List.prefix_nil.mp hq
    subst hq0
    exact hsome
  | succ k ih =>
    intro r hr hsome q hq
    by_cases hqr : q = r
    · subst hqr
      exact hsome
    · have hrne : r ≠ [] := by
        rintro rfl
        exact hqr (List.prefix_nil.mp hq)
      obtain ⟨n, hn⟩ := Option.isSome_iff_exists.mp hsome
      have hpp : parentPath r = some r.dropLast := by
        cases r with
        | nil => exact absurd rfl hrne
        | cons a r' => rfl
      have hparent := hAC r n hn _ hpp
      have hq' : q <+: r.dropLast := by
        rcases prefix_dropLast_or_self hq with h | h
        · exact absurd h hqr
        · exact h
      refine ih r.dropLast ?_ hparent q hq'
      have h1 : r.dropLast.length = r.length - 1 := by simp [List.length_dropLast]
      have h2 : 1 ≤ r.length := by
        cases r with
        | nil => exact absurd rfl hrne
        | cons a r' => simp
      omega

lemma lookup_upsert_ne_inv (st : TreeStore) (e : FileEntry) (q : List String)
    (hq : q ≠ e.path) (m : TreeNode) (hl : lookupNode (st.upsert e) q = some m) :
    ∃ n, lookupNode st q = some n ∧ m.kind = n.kind ∧
      m.contains_match =
        (if e.kind = FileKind.File ∧ q <+: e.path then true else n.contains_match) ∧
      m.children =
        (if parentPath e.path = some q then insertChild n.children e.path
         else n.children) := by
  cases ho : lookupNode st q with
  | none =>
    rw [lookup_upsert_ne_none st e q hq ho] at hl
    exact Option.noConfusion hl
  | some n =>
    rw [lookup_upsert_ne_some st e q hq n ho] at hl
    have hm := Option.some.inj hl
    exact ⟨n, rfl, by rw [← hm], by rw [← hm], by rw [← hm]⟩

lemma anc_upsert (st : TreeStore) (e : FileEntry) (hAC : AncClosed st)
    (hpf : ∀ pp, parentPath e.path = some pp → (lookupNode st pp).isSome = true) :
    AncClosed (st.upsert e) := by
  intro p n hl pp hpp
  by_cases hppne : pp = e.path
  · rw [hppne]
    exact lookup_upsert_at_isSome st e
  · rw [lookup_upsert_ne_isSome st e pp hppne]
    by_cases hpe : p = e.path
    · exact hpf pp (hpe ▸ hpp)
    · obtain ⟨n0, hn0, _, _, _⟩ := lookup_upsert_ne_inv st e p hpe n hl
      exact hAC p n0 hn0 pp hpp

lemma children_upsert (st : TreeStore) (e : FileEntry)
    (hAC : AncClosed st) (hCC : ChildrenChar st) :
    ChildrenChar (st.upsert e) := by
  intro p n' hl q
  by_cases hpe : p = e.path
  · subst hpe
    cases ho : lookupNode st e.path with
    | some n =>
      rw [lookup_upsert_at_existing st e n ho] at hl
      have hn' := Option.some.inj hl
      constructor
      · intro hq
        rw [← hn'] at hq
        have hq' : q ∈ n.children := hq
        have hold := (hCC e.path n ho q).mp hq'
        have hqe : q ≠ e.path := fun h => parentPath_ne_self e.path (h ▸ hold.2)
        exact ⟨by rw [lookup_upsert_ne_isSome st e q hqe]; exact hold.1, hold.2⟩
      · rintro ⟨hs, hpq⟩
        have hqe : q ≠ e.path := fun h => parentPath_ne_self e.path (h ▸ hpq)
        rw [lookup_upsert_ne_isSome st e q hqe] at hs
        rw [← hn']
        exact (hCC e.path n ho q).mpr ⟨hs, hpq⟩
    | none =>
      rw [lookup_upsert_at_new st e ho] at hl
      have hn' := Option.some.inj hl
      constructor
      · intro hq
        rw [← hn'] at hq
        exact absurd hq (List.not_mem_nil q)
      · rintro ⟨hs, hpq⟩
        exfalso
        have hqe : q ≠ e.path := fun h => parentPath_ne_self e.path (h ▸ hpq)
        rw [lookup_upsert_ne_isSome st e q hqe] at hs
        obtain ⟨m, hm⟩ := Option.isSome_iff_exists.mp hs
        have hcon := hAC q m hm e.path hpq
        rw [ho] at hcon
        exact Bool.noConfusion hcon
  · obtain ⟨n, hn, _, _, hch⟩ := lookup_upsert_ne_inv st e p hpe n' hl
    rw [hch]
    by_cases hpp : parentPath e.path = some p
    · rw [if_pos hpp, mem_insertChild]
      constructor
      · rintro (rfl | hq)
        · exact ⟨lookup_upsert_at_isSome st e, hpp⟩
        · have hold := (hCC p n hn q).mp hq
          by_cases hqe : q = e.path
          · exact ⟨by rw [hqe]; exact lookup_upsert_at_isSome st e, hold.2⟩
          · exact ⟨by rw [lookup_upsert_ne_isSome st e q hqe]; exact hold.1, hold.2⟩
      · rintro ⟨hs, hpq⟩
        by_cases hqe : q = e.path
        · exact Or.inl hqe
        · rw [lookup_upsert_ne_isSome st e q hqe] at hs
          exact Or.inr ((hCC p n hn q).mpr ⟨hs, hpq⟩)
    · rw [if_neg hpp]
      constructor
      · intro hq
        have hold := (hCC p n hn q).mp hq
        have hqe : q ≠ e.path := fun h => hpp (h ▸ hold.2)
        exact ⟨by rw [lookup_upsert_ne_isSome st e q hqe]; exact hold.1, hold.2⟩
      · rintro ⟨hs, hpq⟩
        have hqe : q ≠ e.path := fun h => hpp (h ▸ hpq)
        rw [lookup_upsert_ne_isSome st e q hqe] at hs
        exact (hCC p n hn q).mpr ⟨hs, hpq⟩

lemma file_witness_upsert (st : TreeStore) (e : FileEntry) :
    ∀ q, (∃ m, lookupNode (st.upsert e) q = some m ∧ m.kind = FileKind.File) ↔
      ((∃ m, lookupNode st q = some m ∧ m.kind = FileKind.File ∧ q ≠ e.path) ∨
       (q = e.path ∧ e.kind = FileKind.File)) := by
  intro q
  by_cases hqe : q = e.path
  · subst hqe
    constructor
    · rintro ⟨m, hm, hmk⟩
      right
      refine ⟨rfl, ?_⟩
      cases ho : lookupNode st e.path with
      | some n =>
        rw [lookup_upsert_at_existing st e n ho] at hm
        have h := Option.some.inj hm
        rw [← h] at hmk
        exact hmk
      | none =>
        rw [lookup_upsert_at_new st e ho] at hm
        have h := Option.some.inj hm
        rw [← h] at hmk
        exact hmk
    · rintro (⟨m, _, _, hne⟩ | ⟨_, hek⟩)
      · exact absurd rfl hne
      · cases ho : lookupNode st e.path with
        | some n => exact ⟨_, lookup_upsert_at_existing st e n ho, hek⟩
        | none => exact ⟨_, lookup_upsert_at_new st e ho, hek⟩
  · constructor
    · rintro ⟨m, hm, hmk⟩
      obtain ⟨n, hn, hkind, _, _⟩ := lookup_upsert_ne_inv st e q hqe m hm
      exact Or.inl ⟨n, hn, by rw [← hkind]; exact hmk, hqe⟩
    · rintro (⟨n, hn, hnk, _⟩ | ⟨hqq, _⟩)
      · exact ⟨_, lookup_upsert_ne_some st e q hqe n hn, hnk⟩
      · exact absurd hqq hqe

lemma contains_upsert (st : TreeStore) (e : FileEntry)
    (hAC : AncClosed st) (hXC : ContainsChar st)
    (hk : ∀ m, lookupNode st e.path = some m → m.kind = e.kind) :
    ContainsChar (st.upsert e) := by
  have hwit := file_witness_upsert st e
  intro p n' hl
  by_cases hpe : p = e.path
  · subst hpe
    cases ho : lookupNode st e.path with
    | some n =>
      rw [lookup_upsert_at_existing st e n ho] at hl
      have hn' := Option.some.inj hl
      have hcm : n'.contains_match =
          (if e.kind = FileKind.File then true else n.contains_match) := by
        rw [← hn']
      by_cases hek : e.kind = FileKind.File
      · rw [hcm, if_pos hek]
        constructor
        · intro _
          obtain ⟨m, hm, hmk⟩ := (hwit e.path).mpr (Or.inr ⟨rfl, hek⟩)
          exact ⟨e.path, m, hm, hmk, List.prefix_refl _⟩
        · intro _
          rfl
      · rw [hcm, if_neg hek, hXC e.path n ho]
        constructor
        · rintro ⟨q, m, hqm, hmk, hpre⟩
          have hqe : q ≠ e.path := by
            intro h
            subst h
            rw [ho] at hqm
            have hnm : n = m := Option.some.inj hqm
            exact hek (by rw [← hk n ho, hnm]; exact hmk)
          obtain ⟨m', hm'⟩ := (hwit q).mpr (Or.inl ⟨m, hqm, hmk, hqe⟩)
          exact ⟨q, m', hm'.1, hm'.2, hpre⟩
        · rintro ⟨q, m, hqm, hmk, hpre⟩
          rcases (hwit q).mp ⟨m, hqm, hmk⟩ with ⟨m0, hm0, hm0k, _⟩ | ⟨_, hekF⟩
          · exact ⟨q, m0, hm0, hm0k, hpre⟩
          · exact absurd hekF hek
    | none =>
      rw [lookup_upsert_at_new st e ho] at hl
      have hn' := Option.some.inj hl
      have hcm : n'.contains_match = decide (e.kind = FileKind.File) := by
        rw [← hn']
      by_cases hek : e.kind = FileKind.File
      · rw [hcm]
        constructor
        · intro _
          obtain ⟨m, hm, hmk⟩ := (hwit e.path).mpr (Or.inr ⟨rfl, hek⟩)
          exact ⟨e.path, m, hm, hmk, List.prefix_refl _⟩
        · intro _
          exact decide_eq_true hek
      · rw [hcm]
        constructor
        · intro hdec
          exact absurd (of_decide_eq_true hdec) hek
        · rintro ⟨q, m, hqm, hmk, hpre⟩
          exfalso
          rcases (hwit q).mp ⟨m, hqm, hmk⟩ with ⟨m0, hm0, _, _⟩ | ⟨_, hekF⟩
          · have hs : (lookupNode st q).isSome = true := by
              rw [hm0]
              rfl
            have hcon :=
              ancestors_isSome st hAC q.length q (Nat.le_refl _) hs e.path hpre
            rw [ho] at hcon
            exact Bool.noConfusion hcon
          · exact hek hekF
  · obtain ⟨n, hn, _, hcm, _⟩ := lookup_upsert_ne_inv st e p hpe n' hl
    rw [hcm]
    by_cases hmk : e.kind = FileKind.File ∧ p <+: e.path
    · rw [if_pos hmk]
      constructor
      · intro _
        obtain ⟨m, hm, hmkF⟩ := (hwit e.path).mpr (Or.inr ⟨rfl, hmk.1⟩)
        exact ⟨e.path, m, hm, hmkF, hmk.2⟩
      · intro _
        rfl
    · rw [if_neg hmk, hXC p n hn]
      constructor
      · rintro ⟨q, m, hqm, hmkF, hpre⟩
        by_cases hqe : q = e.path
        · exfalso
          subst hqe
          have hke : m.kind = e.kind := hk m hqm
          exact hmk ⟨by rw [← hke]; exact hmkF, hpre⟩
        · obtain ⟨m', hm'⟩ := (hwit q).mpr (Or.inl ⟨m, hqm, hmkF, hqe⟩)
          exact ⟨q, m', hm'.1, hm'.2, hpre⟩
      · rintro ⟨q, m, hqm, hmkF, hpre⟩
        rcases (hwit q).mp ⟨m, hqm, hmkF⟩ with ⟨m0, hm0, hm0k, _⟩ | ⟨hq, hekF⟩
        · exact ⟨q, m0, hm0, hm0k, hpre⟩
        · exact absurd ⟨hekF, hq ▸ hpre⟩ hmk

lemma upsert_preserves_inv (st : TreeStore) (e : FileEntry)
    (hInv : StoreInv st)
    (hpf : ∀ pp, parentPath e.path = some pp → (lookupNode st pp).isSome = true)
    (hk : ∀ m, lookupNode st e.path = some m → m.kind = e.kind) :
    StoreInv (st.upsert e) := by
  obtain ⟨hU, hAC, hCC, hXC⟩ := hInv
  exact ⟨uniq_upsert st e hU, anc_upsert st e hAC hpf,
    children_upsert st e hAC hCC, contains_upsert st e hAC hXC hk⟩

lemma storeKinds_upsert (st : TreeStore) (e : FileEntry) (es : List FileEntry)
    (hSK : StoreKinds es st) :
    StoreKinds (es ++ [e]) (st.upsert e) := by
  intro p m hm
  by_cases hpe : p = e.path
  · subst hpe
    refine ⟨e, List.mem_append.mpr (Or.inr (List.mem_singleton.mpr rfl)), rfl, ?_⟩
    cases ho : lookupNode st e.path with
    | some n =>
      rw [lookup_upsert_at_existing st e n ho] at hm
      have h := Option.some.inj hm
      rw [← h]
    | none =>
      rw [lookup_upsert_at_new st e ho] at hm
      have h := Option.some.inj hm
      rw [← h]
  · obtain ⟨n, hn, hkind, _, _⟩ := lookup_upsert_ne_inv st e p hpe m hm
    obtain ⟨e', he', hep, hek⟩ := hSK p n hn
    exact ⟨e', List.mem_append.mpr (Or.inl he'), hep, by rw [hek]; exact hkind.symm⟩

lemma buildStore_inv_go (rest : List FileEntry) :
    ∀ (done : List FileEntry) (st : TreeStore),
      StoreInv st → StoreKinds done st →
      parentsFirst st rest = true → KindStable (done ++ rest) →
      StoreInv (rest.foldl TreeStore.upsert st) := by
  induction rest with
  | nil =>
    intro _ st hInv _ _ _
    exact hInv
  | cons e rest ih =>
    intro done st hInv hSK hpf hks
    rw [List.foldl_cons]
    simp only [parentsFirst, Bool.and_eq_true] at hpf
    obtain ⟨hpf1, hpf2⟩ := hpf
    have hpfc : ∀ pp, parentPath e.path = some pp →
        (lookupNode st pp).isSome = true := by
      intro pp hpp
      rw [hpp] at hpf1
      exact hpf1
    have hkc : ∀ m, lookupNode st e.path = some m → m.kind = e.kind := by
      intro m hm
      obtain ⟨e', he', hep, hek⟩ := hSK e.path m hm
      have hkk := hks e' (List.mem_append.mpr (Or.inl he'))
        e (List.mem_append.mpr (Or.inr (List.mem_cons_self e rest))) hep
      rw [← hek]
      exact hkk
    have hks' : KindStable ((done ++ [e]) ++ rest) := by
      rw [List.append_assoc]
      exact hks
    exact ih (done ++ [e]) (st.upsert e)
      (upsert_preserves_inv st e hInv hpfc hkc)
      (storeKinds_upsert st e done hSK) hpf2 hks'

lemma lookupNode_nil (p : List String) : lookupNode ([] : TreeStore) p = none := rfl

lemma buildStore_inv (es : List FileEntry)
    (hpf : parentsFirst [] es = true) (hks : KindStable es) :
    StoreInv (buildStore es) := by
  have h0 : StoreInv ([] : TreeStore) := by
    refine ⟨List.nodup_nil, ?_, ?_, ?_⟩
    · intro p n h
      rw [lookupNode_nil] at h
      exact Option.noConfusion h
    · intro p n h
      rw [lookupNode_nil] at h
      exact Option.noConfusion h
    · intro p n h
      rw [lookupNode_nil] at h
      exact Option.noConfusion h
  have hSK0 : StoreKinds [] ([] : TreeStore) := by
    intro p m hm
    rw [lookupNode_nil] at hm
    exact Option.noConfusion hm
  exact buildStore_inv_go es [] [] h0 hSK0 hpf hks

lemma Reaches_trans (st : TreeStore) : ∀ {p q r : List String},
    Reaches st p q → Reaches st q r → Reaches st p r := by
  intro p q r h1
  induction h1 generalizing r with
  | child a b n hl hm =>
    intro h2
    exact Reaches.step a b r n hl hm h2
  | step a x b n hl hm _ ih =>
    intro h2
    exact Reaches.step a x r n hl hm (ih h2)

lemma reaches_prefix (st : TreeStore) (hCC : ChildrenChar st) :
    ∀ {p q : List String}, Reaches st p q → p <+: q := by
  intro p q h
  induction h with
  | child a b n hl hm =>
    obtain ⟨_, hpp⟩ := (hCC a n hl b).mp hm
    cases b with
    | nil => exact Option.noConfusion hpp
    | cons x t =>
      have h2 := Option.some.inj hpp
      rw [← h2]
      exact List.dropLast_prefix _
  | step a x b n hl hm _ ih =>
    have h1 : a <+: x := by
      obtain ⟨_, hpp⟩ := (hCC a n hl x).mp hm
      cases x with
      | nil => exact Option.noConfusion hpp
      | cons y t =>
        have h2 := Option.some.inj hpp
        rw [← h2]
        exact List.dropLast_prefix _
    exact h1.trans ih

lemma prefix_reaches (st : TreeStore) (hAC : AncClosed st) (hCC : ChildrenChar st) :
    ∀ k (q : List String), q.length ≤ k → (lookupNode st q).isSome = true →
      ∀ p, p <+: q → p ≠ q → Reaches st p q := by
  intro k
  induction k with
  | zero =>
    intro q hq hs p hpre hne
    have hq0 : q = [] := List.length_eq_zero.mp (Nat.le_zero.mp hq)
    subst hq0
    exact absurd (List.prefix_nil.mp hpre) hne
  | succ k ih =>
    intro q hq hs p hpre hne
    have hqne : q ≠ [] := by
      rintro rfl
      exact hne (List.prefix_nil.mp hpre)
    have hpp : parentPath q = some q.dropLast := by
      cases q with
      | nil => exact absurd rfl hqne
      | cons a t => rfl
    obtain ⟨nq, hnq⟩ := Option.isSome_iff_exists.mp hs
    have hps : (lookupNode st q.dropLast).isSome = true := hAC q nq hnq _ hpp
    obtain ⟨np, hnp⟩ := Option.isSome_iff_exists.mp hps
    have hchild : q ∈ np.children := (hCC q.dropLast np hnp q).mpr ⟨hs, hpp⟩
    by_cases hpd : p = q.dropLast
    · rw [hpd]
      exact Reaches.child q.dropLast q np hnp hchild
    · have hpre' : p <+: q.dropLast := by
        rcases prefix_dropLast_or_self hpre with h | h
        · exact absurd h hne
        · exact h
      have hlen : q.dropLast.length ≤ k := by
        have h1 : q.dropLast.length = q.length - 1 := by simp [List.length_dropLast]
        have h2 : 1 ≤ q.length := by
          cases q with
          | nil => exact absurd rfl hqne
          | cons a t => simp
        omega
      exact Reaches_trans st (ih q.dropLast hlen hps p hpre' hpd)
        (Reaches.child q.dropLast q np hnp hchild)

/-- C9 (amended): over entry streams that respect the scanner's actual
discipline — each entry's parent directory is upserted before the entry
(parents-first) and no path changes kind within the stream — the built
tree satisfies both claimed properties: every stored strict ancestor of a
stored File node has contains_match = true, and a stored Directory node
has contains_match = true exactly when it transitively contains, through
the recorded children sets, a stored File node. -/
theorem C9_upsert_stream_marks_ancestors (es : List FileEntry)
    (hpf : parentsFirst [] es = true) (hks : KindStable es) :
    AncestorsMarked (buildStore es) ∧ DirContainsIff (buildStore es) := by
  obtain ⟨hU, hAC, hCC, hXC⟩ := buildStore_inv es hpf hks
  constructor
  · intro kv hkv kv' hkv' hkind hpre _
    have hl := lookup_of_mem_uniq hU hkv
    have hl' := lookup_of_mem_uniq hU hkv'
    exact (hXC kv.1 kv.2 hl).mpr ⟨kv'.1, kv'.2, hl', hkind, hpre⟩
  · intro kv hkv hdir
    have hl := lookup_of_mem_uniq hU hkv
    rw [hXC kv.1 kv.2 hl]
    constructor
    · rintro ⟨q, m, hqm, hmk, hpre⟩
      have hqkv : q ≠ kv.1 := by
        intro h
        subst h
        rw [hl] at hqm
        have hqm2 := Option.some.inj hqm
        rw [← hqm2] at hmk
        rw [hdir] at hmk
        exact FileKind.noConfusion hmk
      have hqs : (lookupNode (buildStore es) q).isSome = true := by
        rw [hqm]
        rfl
      refine ⟨(q, m), lookupNode_mem hqm, hmk, ?_⟩
      exact prefix_reaches (buildStore es) hAC hCC q.length q (Nat.le_refl _)
        hqs kv.1 hpre (fun h => hqkv h.symm)
    · rintro ⟨kv', hkv', hkind, hre⟩
      exact ⟨kv'.1, kv'.2, lookup_of_mem_uniq hU hkv', hkind,
        reaches_prefix (buildStore es) hCC hre⟩

/-- Witness for the amended C9 theorem: a concrete parents-first,
kind-stable stream (root, directory a, file a/f). -/
theorem C9_upsert_stream_marks_ancestors_witness :
    parentsFirst [] esC9w = true ∧ KindStable esC9w ∧
      (AncestorsMarked (buildStore esC9w) ∧ DirContainsIff (buildStore esC9w)) := by
  refine ⟨by decide, ?_, ?_⟩
  · unfold KindStable
    decide
  · exact C9_upsert_stream_marks_ancestors esC9w (by decide)
      (by unfold KindStable; decide)

/-- C1: refuted as stated — the code lacks the transactional behaviour the
specification asserts.  begin_scan (src/cache.rs 496-505) opens a plain
autocommit connection and starts no transaction, so every upsert a scan
performs is committed immediately; when the shared job counter preempts the
walk, run_scan merely breaks out (src/scanner.rs 214-218, 394) and the rows
already upserted stay behind.  Concretely: scanning an empty cache over a
one-file tree with the counter changing before the second entry leaves the
walk aborted, the session unfinished (the root row untouched), and a fresh
directory row in the entries table, which therefore differs from the state
at begin_scan. -/
theorem C1_preempted_scan_leaves_partial_rows :
    (run_scan envC1 eventsC1 1 dbC1 [0]).aborted = true
    ∧ (run_scan envC1 eventsC1 1 dbC1 [0]).db.roots = dbC1.roots
    ∧ (run_scan envC1 eventsC1 1 dbC1 [0]).db.entries ≠ dbC1.entries := by
  refine ⟨by decide, by decide, ?_⟩
  decide

/-- Counterexample for C2 as stated: a completed, non-aborted scan with a
session after which a Directory row of the scanned root violates
aggregate_size = direct_size + Σ children.aggregate_size.  The cached
replay of directory a upserts the cached rows verbatim (stamping them with
scan_ts) BEFORE validating them; when validation then fails on the stale
child row, the scanner falls back to a fresh walk, but the stale row is
already stamped with the session timestamp, so finish() keeps it, and the
freshly finalized aggregate of a (50) disagrees with its children's stored
aggregates (50 + 10). -/
theorem C2_counterexample :
    (run_scan envC2 eventsC2 100 dbC2 [0]).aborted = false
    ∧ (run_scan envC2 eventsC2 100 dbC2 [0]).stats.replay_failures = 1
    ∧ ¬ AggConsistent (run_scan envC2 eventsC2 100 dbC2 [0]).db.entries 1 := by
  refine ⟨by decide, by decide, ?_⟩
  unfold AggConsistent
  decide

lemma maxRelLen_bound : ∀ (tbl : List CachedEntry), ∀ e ∈ tbl, e.path.length ≤ maxRelLen tbl := by
  intro tbl
  induction tbl with
  | nil => intro e he; cases he
  | cons hd tl ih =>
    intro e he
    rcases List.mem_cons.mp he with h | h
    · subst h
      simp only [maxRelLen, List.map_cons, List.foldr_cons]
      exact le_max_left _ _
    · have hle := ih e h
      simp only [maxRelLen, List.map_cons, List.foldr_cons]
      simp only [maxRelLen] at hle
      exact le_trans hle (le_max_right _ _)

lemma fetch_entry_mem {tbl : List CachedEntry} {rid : Int} {p : RelPath} {a : CachedEntry}
    (h : fetch_entry tbl rid p = some a) : a ∈ tbl ∧ a.rootId = rid ∧ a.path = p := by
  unfold fetch_entry at h
  have hmem := List.mem_of_find?_eq_some h
  have hpred := List.find?_some h
  rw [decide_eq_true_eq] at hpred
  exact ⟨hmem, hpred.1, hpred.2⟩

lemma children_of_mem {tbl : List CachedEntry} {rid : Int} {p : RelPath} {c : CachedEntry}
    (h : c ∈ children_of tbl rid p) : c ∈ tbl ∧ c.rootId = rid ∧ c.parent = some p := by
  unfold children_of at h
  have hh := List.mem_filter.mp h
  have hp := of_decide_eq_true hh.2
  exact ⟨hh.1, hp.1, hp.2⟩

lemma child_path_spec {tbl : List CachedEntry} (hWf : WfP tbl) {rid : Int} {p : RelPath}
    {c : CachedEntry} (h : c ∈ children_of tbl rid p) :
    c.path.length = p.length + 1 ∧ c.path.dropLast = p := by
  obtain ⟨hmem, _, hpar⟩ := children_of_mem h
  have hw := hWf c hmem
  rw [hpar] at hw
  cases hc : c.path with
  | nil =>
    rw [hc] at hw
    exact Option.noConfusion hw
  | cons x xs =>
    rw [hc] at hw
    have hpd := Option.some.inj hw
    constructor
    · rw [hpd]
      simp [List.length_dropLast]
    · exact hpd.symm

lemma countDirs_append (a b : List CachedEntry) :
    countDirs (a ++ b) = countDirs a + countDirs b := by
  unfold countDirs
  rw [List.filter_append, List.length_append]

lemma countDirs_cons (e : CachedEntry) (l : List CachedEntry) :
    countDirs (e :: l) =
      (if e.kind = FileKind.Directory then 1 else 0) + countDirs l := by
  by_cases h : e.kind = FileKind.Directory
  · simp [countDirs, List.filter_cons, h, Nat.add_comm]
  · simp [countDirs, List.filter_cons, h]

lemma verify_char (tbl : List CachedEntry) (rid : Int) (hWf : WfP tbl) :
    ∀ f, ∀ e ∈ tbl, maxRelLen tbl + 1 ≤ f + e.path.length →
      ((∀ d ∈ subEntries tbl rid f e, entryViolates tbl rid d = false) →
        verifyGo tbl rid f e =
          Except.ok ⟨(subEntries tbl rid f e).length,
            countDirs (subEntries tbl rid f e), e.aggregate_size⟩)
      ∧ ((∃ d ∈ subEntries tbl rid f e, entryViolates tbl rid d = true) →
        ∃ d ∈ subEntries tbl rid f e, entryViolates tbl rid d = true ∧
          verifyGo tbl rid f e =
            Except.error (CacheValidationError.AggregateMismatch d.path
              (computedTotal tbl rid d) d.aggregate_size)) := by
  intro f
  induction f with
  | zero =>
    intro e he hb
    exfalso
    have := maxRelLen_bound tbl e he
    omega
  | succ f ih =>
    intro e he hb
    by_cases hk : e.kind = FileKind.Directory
    · have hsub : subEntries tbl rid (f + 1) e =
          e :: ((children_of tbl rid e.path).map (fun c => subEntries tbl rid f c)).flatten := by
        simp [subEntries, hk]
      have hct : computedTotal tbl rid e =
          e.direct_size + ((children_of tbl rid e.path).map (fun c => c.aggregate_size)).sum := by
        simp [computedTotal, hk]
      have hch : ∀ c ∈ children_of tbl rid e.path,
          c ∈ tbl ∧ maxRelLen tbl + 1 ≤ f + c.path.length := by
        intro c hc
        obtain ⟨hcm, _, hcp⟩ := children_of_mem hc
        have hlen := (child_path_spec hWf hc).1
        exact ⟨hcm, by omega⟩
      have hfold : ∀ cs : List CachedEntry,
          (∀ c ∈ cs, c ∈ tbl ∧ maxRelLen tbl + 1 ≤ f + c.path.length) →
          ((∀ c ∈ cs, ∀ d ∈ subEntries tbl rid f c, entryViolates tbl rid d = false) →
            verifyFold (fun c => verifyGo tbl rid f c) cs =
              Except.ok (((cs.map (fun c => subEntries tbl rid f c)).flatten).length,
                countDirs ((cs.map (fun c => subEntries tbl rid f c)).flatten),
                (cs.map (fun c => c.aggregate_size)).sum))
          ∧ ((∃ c ∈ cs, ∃ d ∈ subEntries tbl rid f c, entryViolates tbl rid d = true) →
            ∃ d ∈ (cs.map (fun c => subEntries tbl rid f c)).flatten,
              entryViolates tbl rid d = true ∧
              verifyFold (fun c => verifyGo tbl rid f c) cs =
                Except.error (CacheValidationError.AggregateMismatch d.path
                  (computedTotal tbl rid d) d.aggregate_size)) := by
        intro cs
        induction cs with
        | nil =>
          intro _
          constructor
          · intro _
            rfl
          · rintro ⟨c, hc, _⟩
            cases hc
        | cons c cs ihcs =>
          intro hmemb
          have hc0 := hmemb c (List.mem_cons_self c cs)
          have hcsmem := fun x hx => hmemb x (List.mem_cons_of_mem c hx)
          have hcchar := ih c hc0.1 hc0.2
          have hrest := ihcs hcsmem
          constructor
          · intro hall
            have hcok := hcchar.1 (fun d hd => hall c (List.mem_cons_self c cs) d hd)
            have hrok := hrest.1 (fun x hx d hd => hall x (List.mem_cons_of_mem c hx) d hd)
            simp only [verifyFold, hcok, hrok, List.map_cons, List.flatten_cons,
              List.length_append, countDirs_append, List.sum_cons]
          · intro hex
            by_cases hcviol : ∃ d ∈ subEntries tbl rid f c, entryViolates tbl rid d = true
            · obtain ⟨d, hd, hdv, herr⟩ := hcchar.2 hcviol
              refine ⟨d, ?_, hdv, ?_⟩
              · rw [List.map_cons, List.flatten_cons]
                exact List.mem_append.mpr (Or.inl hd)
              · simp only [verifyFold, herr]
            · have hexr : ∃ x ∈ cs, ∃ d ∈ subEntries tbl rid f x,
                  entryViolates tbl rid d = true := by
                obtain ⟨x, hx, d, hd, hdv⟩ := hex
                rcases List.mem_cons.mp hx with rfl | hx'
                · exact absurd ⟨d, hd, hdv⟩ hcviol
                · exact ⟨x, hx', d, hd, hdv⟩
              obtain ⟨d, hd, hdv, herr⟩ := hrest.2 hexr
              have hcok := hcchar.1 (by
                intro d' hd'
                by_contra hne
                refine hcviol ⟨d', hd', ?_⟩
                revert hne
                cases entryViolates tbl rid d' <;> simp)
              refine ⟨d, ?_, hdv, ?_⟩
              · rw [List.map_cons, List.flatten_cons]
                exact List.mem_append.mpr (Or.inr hd)
              · simp only [verifyFold, hcok, herr]
      obtain ⟨hfold1, hfold2⟩ := hfold (children_of tbl rid e.path) hch
      constructor
      · intro hall
        have hallc : ∀ c ∈ children_of tbl rid e.path,
            ∀ d ∈ subEntries tbl rid f c, entryViolates tbl rid d = false := by
          intro c hc d hd
          refine hall d ?_
          rw [hsub]
          exact List.mem_cons_of_mem e
            (List.mem_flatten.mpr ⟨subEntries tbl rid f c, List.mem_map.mpr ⟨c, hc, rfl⟩, hd⟩)
        have heok := hfold1 hallc
        have heviol := hall e (by rw [hsub]; exact List.mem_cons_self _ _)
        have hagg : e.aggregate_size =
            e.direct_size + ((children_of tbl rid e.path).map (fun c => c.aggregate_size)).sum := by
          unfold entryViolates at heviol
          rw [decide_eq_false_iff_not, not_ne_iff, hct] at heviol
          exact heviol
        simp only [verifyGo]
        rw [if_pos hk, heok]
        simp only []
        rw [if_neg (fun hcon => hcon hagg), hsub]
        simp only [List.length_cons, countDirs_cons, if_pos hk]
        rw [Nat.add_comm ((((children_of tbl rid e.path).map
          (fun c => subEntries tbl rid f c)).flatten).length) 1]
      · intro hex
        by_cases hchild : ∃ c ∈ children_of tbl rid e.path,
            ∃ d ∈ subEntries tbl rid f c, entryViolates tbl rid d = true
        · obtain ⟨d, hd, hdv, herr⟩ := hfold2 hchild
          refine ⟨d, by rw [hsub]; exact List.mem_cons_of_mem e hd, hdv, ?_⟩
          simp only [verifyGo]
          rw [if_pos hk, herr]
        · have heviol : entryViolates tbl rid e = true := by
            obtain ⟨d, hd, hdv⟩ := hex
            rw [hsub] at hd
            rcases List.mem_cons.mp hd with rfl | hd'
            · exact hdv
            · exfalso
              obtain ⟨s, hs, hds⟩ := List.mem_flatten.mp hd'
              obtain ⟨c, hc, rfl⟩ := List.mem_map.mp hs
              exact hchild ⟨c, hc, d, hds, hdv⟩
          have hallc : ∀ c ∈ children_of tbl rid e.path,
              ∀ d ∈ subEntries tbl rid f c, entryViolates tbl rid d = false := by
            intro c hc d hd
            by_contra hne
            refine hchild ⟨c, hc, d, hd, ?_⟩
            revert hne
            cases entryViolates tbl rid d <;> simp
          have heok := hfold1 hallc
          refine ⟨e, by rw [hsub]; exact List.mem_cons_self _ _, heviol, ?_⟩
          have hne : e.aggregate_size ≠
              e.direct_size + ((children_of tbl rid e.path).map (fun c => c.aggregate_size)).sum := by
            have := of_decide_eq_true heviol
            rw [hct] at this
            exact this
          simp only [verifyGo]
          rw [if_pos hk, heok]
          simp only []
          rw [if_pos hne, hct]
    · have hsub : subEntries tbl rid (f + 1) e = [e] := by
        simp [subEntries, hk]
      have hct : computedTotal tbl rid e = e.direct_size := by
        simp [computedTotal, hk]
      constructor
      · intro hall
        have hv := hall e (by rw [hsub]; exact List.mem_singleton.mpr rfl)
        have hagg : e.aggregate_size = e.direct_size := by
          unfold entryViolates at hv
          rw [decide_eq_false_iff_not, not_ne_iff, hct] at hv
          exact hv
        simp only [verifyGo]
        rw [if_neg hk, if_neg (fun hcon => hcon hagg), hsub]
        simp [countDirs, hk]
      · intro hex
        obtain ⟨d, hd, hviol⟩ := hex
        rw [hsub] at hd
        have hde : d = e := List.mem_singleton.mp hd
        subst hde
        refine ⟨d, by rw [hsub]; exact List.mem_singleton.mpr rfl, hviol, ?_⟩
        have hne : d.aggregate_size ≠ d.direct_size := by
          have := of_decide_eq_true hviol
          rw [hct] at this
          exact this
        simp only [verifyGo]
        rw [if_neg hk, if_pos hne, hct]

/-- C8: validate_aggregate(root_id, anchor) over a table with well-formed
parent links fails exactly when some row of the anchor's cached subtree
violates aggregate consistency (a Directory whose stored aggregate differs
from its direct size plus its children's stored aggregates, a File whose
stored aggregate differs from its direct size); the error carries the
violating row's path, the recomputed total, and the stored aggregate, and
on a consistent subtree the summary counts exactly the subtree's rows and
Directory rows and reports total_size equal to the anchor's stored
aggregate. -/
theorem C8_validate_aggregate_spec (db : CacheDb) (rid : Int) (p : RelPath)
    (a : CachedEntry) (hWf : WfP db.entries)
    (ha : fetch_entry db.entries rid p = some a) :
    ((∀ d ∈ subEntries db.entries rid (maxRelLen db.entries + 1) a,
        entryViolates db.entries rid d = false) →
      validate_aggregate db rid p =
        Except.ok ⟨(subEntries db.entries rid (maxRelLen db.entries + 1) a).length,
          countDirs (subEntries db.entries rid (maxRelLen db.entries + 1) a),
          a.aggregate_size⟩)
    ∧ ((∃ d ∈ subEntries db.entries rid (maxRelLen db.entries + 1) a,
          entryViolates db.entries rid d = true) →
        ∃ d ∈ subEntries db.entries rid (maxRelLen db.entries + 1) a,
          entryViolates db.entries rid d = true ∧
          validate_aggregate db rid p =
            Except.error (CacheValidationError.AggregateMismatch d.path
              (computedTotal db.entries rid d) d.aggregate_size)) := by
  have hmem := (fetch_entry_mem ha).1
  have hchar := verify_char db.entries rid hWf (maxRelLen db.entries + 1) a hmem
    (by omega)
  unfold validate_aggregate
  rw [ha]
  exact hchar

/-- Witness for C8: the testable-properties scenario — the root stored with
aggregate 999 while its two child files sum to 100 — where the theorem
yields AggregateMismatch, and the concrete error is
AggregateMismatch "." 100 999. -/
theorem C8_witness :
    WfP dbC8.entries
    ∧ fetch_entry dbC8.entries 1 [] = some rootC8
    ∧ (∃ d ∈ subEntries dbC8.entries 1 (maxRelLen dbC8.entries + 1) rootC8,
        entryViolates dbC8.entries 1 d = true
        ∧ validate_aggregate dbC8 1 [] =
            Except.error (CacheValidationError.AggregateMismatch d.path
              (computedTotal dbC8.entries 1 d) d.aggregate_size))
    ∧ validate_aggregate dbC8 1 [] =
        Except.error (CacheValidationError.AggregateMismatch [] 100 999) :=
  ⟨by unfold WfP; decide, by decide,
   (C8_validate_aggregate_spec dbC8 1 [] rootC8 (by unfold WfP; decide) (by decide)).2
     (by decide),
   rfl⟩

lemma strip_fields {e1 e2 : CachedEntry} (h : strip e1 = strip e2) :
    e1.rootId = e2.rootId ∧ e1.path = e2.path ∧ e1.parent = e2.parent
    ∧ e1.kind = e2.kind ∧ e1.direct_size = e2.direct_size
    ∧ e1.aggregate_size = e2.aggregate_size ∧ e1.modified = e2.modified
    ∧ e1.created = e2.created := by
  simp only [strip, Prod.mk.injEq] at h
  exact h

lemma map_strip_cons {e : CachedEntry} {t1 : List CachedEntry} {l2 : List CachedEntry}
    (h : (e :: t1).map strip = l2.map strip) :
    ∃ e2 t2, l2 = e2 :: t2 ∧ strip e = strip e2 ∧ t1.map strip = t2.map strip := by
  cases l2 with
  | nil => exact absurd h (by simp)
  | cons e2 t2 =>
    rw [List.map_cons, List.map_cons] at h
    simp only [List.cons.injEq] at h
    exact ⟨e2, t2, rfl, h.1, h.2⟩

lemma fetch_entry_cons (e : CachedEntry) (tl : List CachedEntry) (rid : Int) (p : RelPath) :
    fetch_entry (e :: tl) rid p =
      (if e.rootId = rid ∧ e.path = p then some e else fetch_entry tl rid p) := by
  unfold fetch_entry
  rw [List.find?_cons]
  by_cases h : e.rootId = rid ∧ e.path = p
  · simp [h]
  · simp [h]

lemma children_of_cons (e : CachedEntry) (tl : List CachedEntry) (rid : Int) (p : RelPath) :
    children_of (e :: tl) rid p =
      (if e.rootId = rid ∧ e.parent = some p then e :: children_of tl rid p
       else children_of tl rid p) := by
  unfold children_of
  rw [List.filter_cons]
  by_cases h : e.rootId = rid ∧ e.parent = some p
  · simp [h]
  · simp [h]

lemma fetch_strip (rid : Int) (p : RelPath) :
    ∀ {t1 t2 : List CachedEntry}, t1.map strip = t2.map strip →
      (fetch_entry t1 rid p).map strip = (fetch_entry t2 rid p).map strip := by
  intro t1
  induction t1 with
  | nil =>
    intro t2 h
    cases t2 with
    | nil => rfl
    | cons a t => exact absurd h (by simp)
  | cons e t1 ihl =>
    intro t2 h
    obtain ⟨e2, t2', rfl, hse, hst⟩ := map_strip_cons h
    have hf := strip_fields hse
    rw [fetch_entry_cons, fetch_entry_cons]
    by_cases hp : e.rootId = rid ∧ e.path = p
    · rw [if_pos hp, if_pos ⟨by rw [← hf.1]; exact hp.1, by rw [← hf.2.1]; exact hp.2⟩]
      simp only [Option.map_some']
      rw [hse]
    · rw [if_neg hp,
        if_neg (fun hcon => hp ⟨by rw [hf.1]; exact hcon.1, by rw [hf.2.1]; exact hcon.2⟩)]
      exact ihl hst

lemma children_strip (rid : Int) (p : RelPath) :
    ∀ {t1 t2 : List CachedEntry}, t1.map strip = t2.map strip →
      (children_of t1 rid p).map strip = (children_of t2 rid p).map strip := by
  intro t1
  induction t1 with
  | nil =>
    intro t2 h
    cases t2 with
    | nil => rfl
    | cons a t => exact absurd h (by simp)
  | cons e t1 ihl =>
    intro t2 h
    obtain ⟨e2, t2', rfl, hse, hst⟩ := map_strip_cons h
    have hf := strip_fields hse
    rw [children_of_cons, children_of_cons]
    by_cases hp : e.rootId = rid ∧ e.parent = some p
    · rw [if_pos hp,
        if_pos ⟨by rw [← hf.1]; exact hp.1, by rw [← hf.2.2.1]; exact hp.2⟩,
        List.map_cons, List.map_cons, hse, ihl hst]
    · rw [if_neg hp,
        if_neg (fun hcon =>
          hp ⟨by rw [hf.1]; exact hcon.1, by rw [hf.2.2.1]; exact hcon.2⟩)]
      exact ihl hst

lemma uniq_strip {t1 t2 : List CachedEntry} (h : t1.map strip = t2.map strip)
    (hU : UniqP t2) : UniqP t1 := by
  unfold UniqP at *
  have h2 : t1.map (fun e => (e.rootId, e.path)) = t2.map (fun e => (e.rootId, e.path)) := by
    have hc := congrArg
      (List.map (fun s : Int × RelPath × Option RelPath × FileKind × Nat × Nat ×
        Option Int × Option Int => (s.1, s.2.1))) h
    rw [List.map_map, List.map_map] at hc
    exact hc
  rw [h2]
  exact hU

lemma uniq_key_eq {tbl : List CachedEntry} (hU : UniqP tbl) {e a : CachedEntry}
    (he : e ∈ tbl) (ha : a ∈ tbl) (h1 : e.rootId = a.rootId) (h2 : e.path = a.path) :
    e = a := by
  unfold UniqP at hU
  exact List.inj_on_of_nodup_map hU he ha (by rw [h1, h2])

lemma fetch_self {tbl : List CachedEntry} (hU : UniqP tbl) {c : CachedEntry} (hc : c ∈ tbl) :
    fetch_entry tbl c.rootId c.path = some c := by
  induction tbl with
  | nil => cases hc
  | cons e tl ih =>
    rw [fetch_entry_cons]
    rcases List.mem_cons.mp hc with rfl | hmem
    · rw [if_pos ⟨rfl, rfl⟩]
    · by_cases hp : e.rootId = c.rootId ∧ e.path = c.path
      · exfalso
        unfold UniqP at hU
        rw [List.map_cons] at hU
        have hnin := (List.nodup_cons.mp hU).1
        refine hnin (List.mem_map.mpr ⟨c, hmem, ?_⟩)
        rw [hp.1, hp.2]
      · rw [if_neg hp]
        refine ih ?_ hmem
        unfold UniqP at hU ⊢
        rw [List.map_cons] at hU
        exact (List.nodup_cons.mp hU).2

lemma upsert_verbatim_strip {tbl : List CachedEntry} (hU : UniqP tbl) {rid : Int}
    {p : RelPath} {a : CachedEntry} (ha : fetch_entry tbl rid p = some a) (ts : Int) :
    (upsert_entry tbl rid ts a.path a.parent a.kind a.direct_size a.aggregate_size
      a.modified a.created).map strip = tbl.map strip := by
  obtain ⟨hmem, hrid, hpath⟩ := fetch_entry_mem ha
  unfold upsert_entry
  have hany : tbl.any (fun e => decide (e.rootId = rid ∧ e.path = a.path)) = true :=
    List.any_eq_true.mpr ⟨a, hmem, decide_eq_true ⟨hrid, rfl⟩⟩
  rw [if_pos hany, List.map_map]
  apply List.map_congr_left
  intro e hemem
  show strip (if e.rootId = rid ∧ e.path = a.path then
      { e with parent := a.parent, kind := a.kind, direct_size := a.direct_size,
               aggregate_size := a.aggregate_size, modified := a.modified,
               created := a.created, last_seen := ts, flags := 0 }
    else e) = strip e
  by_cases hp : e.rootId = rid ∧ e.path = a.path
  · rw [if_pos hp]
    have hea : e = a := uniq_key_eq hU hemem hmem (by rw [hp.1, hrid]) hp.2
    subst hea
    rfl
  · rw [if_neg hp]

lemma emitGo_succ_some (env : ScanEnv) (fu : Nat) (rel : RelPath)
    (tblLive : List CachedEntry) (a1 : CachedEntry)
    (hlf : fetch_entry tblLive env.rid rel = some a1) :
    emitGo env (fu + 1) rel tblLive =
      (if a1.kind = FileKind.Directory then
        emitFinish a1
          (emitFold (fun r t => emitGo env fu r t)
            (children_of (upsert_entry tblLive env.rid env.scan_ts a1.path a1.parent
              a1.kind a1.direct_size a1.aggregate_size a1.modified a1.created)
              env.rid a1.path)
            (upsert_entry tblLive env.rid env.scan_ts a1.path a1.parent a1.kind
              a1.direct_size a1.aggregate_size a1.modified a1.created)
            ⟨0, 1, 0, 0⟩ a1.direct_size)
      else
        if a1.direct_size ≠ a1.aggregate_size then
          (upsert_entry tblLive env.rid env.scan_ts a1.path a1.parent a1.kind
            a1.direct_size a1.aggregate_size a1.modified a1.created,
           Except.error (CacheValidationError.AggregateMismatch a1.path a1.direct_size
             a1.aggregate_size))
        else
          (upsert_entry tblLive env.rid env.scan_ts a1.path a1.parent a1.kind
            a1.direct_size a1.aggregate_size a1.modified a1.created,
           Except.ok ⟨1, 0, 1, a1.aggregate_size⟩)) := by
  simp only [emitGo]
  rw [hlf]

lemma emitFinish_error (entry : CachedEntry) (t : List CachedEntry)
    (err : CacheValidationError) :
    emitFinish entry (t, Except.error err) = (t, Except.error err) := rfl

lemma emitFinish_ok (entry : CachedEntry) (t : List CachedEntry) (out : EmitStats)
    (total : Nat) :
    emitFinish entry (t, Except.ok (out, total)) =
      (if total ≠ entry.aggregate_size then
        (t, Except.error
          (CacheValidationError.AggregateMismatch entry.path total entry.aggregate_size))
      else
        (t, Except.ok ⟨out.entries + 1, out.directories, out.files, entry.aggregate_size⟩)) :=
  rfl

lemma emitFold_char (env : ScanEnv) (tbl : List CachedEntry) (hU : UniqP tbl) (fu : Nat)
    (hrec : ∀ (rel : RelPath) (c : CachedEntry), fetch_entry tbl env.rid rel = some c →
      maxRelLen tbl + 1 ≤ fu + c.path.length →
      ∀ tblL, tblL.map strip = tbl.map strip → EmitCharP env tbl fu rel c tblL) :
    ∀ csP : List CachedEntry,
      (∀ c ∈ csP, c ∈ tbl ∧ c.rootId = env.rid ∧ maxRelLen tbl + 1 ≤ fu + c.path.length) →
      ∀ csL tblL (acc : EmitStats) (total : Nat), csL.map strip = csP.map strip →
        tblL.map strip = tbl.map strip →
      ((∀ c ∈ csP, ∀ d ∈ subEntries tbl env.rid fu c, entryViolates tbl env.rid d = false) →
        ∃ t' out, emitFold (fun r t => emitGo env fu r t) csL tblL acc total =
            (t', Except.ok (out, total + (csP.map (fun c => c.aggregate_size)).sum))
          ∧ t'.map strip = tbl.map strip)
      ∧ ((∃ c ∈ csP, ∃ d ∈ subEntries tbl env.rid fu c, entryViolates tbl env.rid d = true) →
        ∃ t' d, (∃ c ∈ csP, d ∈ subEntries tbl env.rid fu c)
          ∧ entryViolates tbl env.rid d = true
          ∧ emitFold (fun r t => emitGo env fu r t) csL tblL acc total =
              (t', Except.error (CacheValidationError.AggregateMismatch d.path
                (computedTotal tbl env.rid d) d.aggregate_size))
          ∧ t'.map strip = tbl.map strip) := by
  intro csP
  induction csP with
  | nil =>
    intro _ csL tblL acc total hcsL htblL
    have hnil : csL = [] := by
      cases csL with
      | nil => rfl
      | cons x xs => exact absurd hcsL (by simp)
    subst hnil
    constructor
    · intro _
      exact ⟨tblL, acc, by simp [emitFold], htblL⟩
    · rintro ⟨c, hc, _⟩
      cases hc
  | cons c csP ihcs =>
    intro hmemb csL tblL acc total hcsL htblL
    obtain ⟨c1, csL', rfl, hsc, hst⟩ := map_strip_cons hcsL.symm
    have hcf := strip_fields hsc
    have hc0 := hmemb c (List.mem_cons_self c csP)
    have hfetch : fetch_entry tbl env.rid c.path = some c := by
      have := fetch_self hU hc0.1
      rw [hc0.2.1] at this
      exact this
    have hcchar := hrec c.path c hfetch hc0.2.2 tblL htblL
    have hmemb' := fun x hx => hmemb x (List.mem_cons_of_mem c hx)
    constructor
    · intro hall
      have hcok := hcchar.1 (fun d hd => hall c (List.mem_cons_self c csP) d hd)
      obtain ⟨tc, esc, heqc, hstc, haggc⟩ := hcok
      have hrest := (ihcs hmemb' csL' tc
        ⟨acc.entries + esc.entries, acc.directories + esc.directories,
         acc.files + esc.files, acc.aggregate_size + esc.aggregate_size⟩
        (total + esc.aggregate_size) hst.symm hstc).1
        (fun x hx d hd => hall x (List.mem_cons_of_mem c hx) d hd)
      obtain ⟨t', out, heqr, hstr⟩ := hrest
      refine ⟨t', out, ?_, hstr⟩
      have harith : total + esc.aggregate_size +
          (csP.map (fun c => c.aggregate_size)).sum =
          total + ((c :: csP).map (fun c => c.aggregate_size)).sum := by
        rw [haggc, List.map_cons, List.sum_cons]
        omega
      rw [harith] at heqr
      simp only [emitFold]
      rw [← hcf.2.1, heqc]
      exact heqr
    · intro hex
      by_cases hcviol : ∃ d ∈ subEntries tbl env.rid fu c, entryViolates tbl env.rid d = true
      · obtain ⟨tc, d, hd, hdv, heqc, hstc⟩ := hcchar.2 hcviol
        refine ⟨tc, d, ⟨c, List.mem_cons_self c csP, hd⟩, hdv, ?_, hstc⟩
        simp only [emitFold]
        rw [← hcf.2.1, heqc]
      · have hcok := hcchar.1 (by
          intro d' hd'
          by_contra hne
          refine hcviol ⟨d', hd', ?_⟩
          revert hne
          cases entryViolates tbl env.rid d' <;> simp)
        obtain ⟨tc, esc, heqc, hstc, haggc⟩ := hcok
        have hexr : ∃ x ∈ csP, ∃ d ∈ subEntries tbl env.rid fu x,
            entryViolates tbl env.rid d = true := by
          obtain ⟨x, hx, d, hd, hdv⟩ := hex
          rcases List.mem_cons.mp hx with rfl | hx'
          · exact absurd ⟨d, hd, hdv⟩ hcviol
          · exact ⟨x, hx', d, hd, hdv⟩
        have hrest := (ihcs hmemb' csL' tc
          ⟨acc.entries + esc.entries, acc.directories + esc.directories,
           acc.files + esc.files, acc.aggregate_size + esc.aggregate_size⟩
          (total + esc.aggregate_size) hst.symm hstc).2 hexr
        obtain ⟨t', d, hdc, hdv, heqr, hstr⟩ := hrest
        refine ⟨t', d, ?_, hdv, ?_, hstr⟩
        · obtain ⟨x, hx, hd⟩ := hdc
          exact ⟨x, List.mem_cons_of_mem c hx, hd⟩
        · simp only [emitFold]
          rw [← hcf.2.1, heqc]
          exact heqr

lemma emit_char (env : ScanEnv) (tbl : List CachedEntry) (hWf : WfP tbl) (hU : UniqP tbl) :
    ∀ fu (rel : RelPath) (a : CachedEntry), fetch_entry tbl env.rid rel = some a →
      maxRelLen tbl + 1 ≤ fu + a.path.length →
      ∀ tblLive, tblLive.map strip = tbl.map strip →
      EmitCharP env tbl fu rel a tblLive := by
  intro fu
  induction fu with
  | zero =>
    intro rel a ha hb tblLive hL
    exfalso
    have := maxRelLen_bound tbl a (fetch_entry_mem ha).1
    omega
  | succ fu ih =>
    intro rel a ha hb tblLive hL
    have hamem := (fetch_entry_mem ha).1
    have hset := fetch_strip env.rid rel hL
    rw [ha] at hset
    cases hlf : fetch_entry tblLive env.rid rel with
    | none =>
      rw [hlf] at hset
      exact absurd hset (by simp)
    | some a1 =>
      rw [hlf] at hset
      simp only [Option.map_some'] at hset
      have hsa := Option.some.inj hset
      have hf := strip_fields hsa
      have hUL : UniqP tblLive := uniq_strip hL hU
      have htbl1 : (upsert_entry tblLive env.rid env.scan_ts a1.path a1.parent a1.kind
          a1.direct_size a1.aggregate_size a1.modified a1.created).map strip
            = tbl.map strip :=
        (upsert_verbatim_strip hUL hlf env.scan_ts).trans hL
      by_cases hk : a.kind = FileKind.Directory
      · have hk1 : a1.kind = FileKind.Directory := by
          rw [hf.2.2.2.1]
          exact hk
        have hsub : subEntries tbl env.rid (fu + 1) a =
            a :: ((children_of tbl env.rid a.path).map
              (fun c => subEntries tbl env.rid fu c)).flatten := by
          simp [subEntries, hk]
        have hct : computedTotal tbl env.rid a =
            a.direct_size +
              ((children_of tbl env.rid a.path).map (fun c => c.aggregate_size)).sum := by
          simp [computedTotal, hk]
        have hch : ∀ c ∈ children_of tbl env.rid a.path,
            c ∈ tbl ∧ c.rootId = env.rid ∧ maxRelLen tbl + 1 ≤ fu + c.path.length := by
          intro c hc
          obtain ⟨hcm, hcr, _⟩ := children_of_mem hc
          have hlen := (child_path_spec hWf hc).1
          exact ⟨hcm, hcr, by omega⟩
        have hcsL : (children_of (upsert_entry tblLive env.rid env.scan_ts a1.path a1.parent
            a1.kind a1.direct_size a1.aggregate_size a1.modified a1.created)
              env.rid a1.path).map strip =
            (children_of tbl env.rid a.path).map strip := by
          rw [← hf.2.1]
          exact children_strip env.rid a1.path htbl1
        have hfold := emitFold_char env tbl hU fu
          (fun r c hc hb' tblL hL' => ih r c hc hb' tblL hL')
          (children_of tbl env.rid a.path) hch
          (children_of (upsert_entry tblLive env.rid env.scan_ts a1.path a1.parent
            a1.kind a1.direct_size a1.aggregate_size a1.modified a1.created)
            env.rid a1.path)
          (upsert_entry tblLive env.rid env.scan_ts a1.path a1.parent a1.kind
            a1.direct_size a1.aggregate_size a1.modified a1.created)
          ⟨0, 1, 0, 0⟩ a1.direct_size hcsL htbl1
        constructor
        · intro hall
          have hallc : ∀ c ∈ children_of tbl env.rid a.path,
              ∀ d ∈ subEntries tbl env.rid fu c, entryViolates tbl env.rid d = false := by
            intro c hc d hd
            refine hall d ?_
            rw [hsub]
            exact List.mem_cons_of_mem a (List.mem_flatten.mpr
              ⟨subEntries tbl env.rid fu c, List.mem_map.mpr ⟨c, hc, rfl⟩, hd⟩)
          obtain ⟨t', out, heqf, hstr⟩ := hfold.1 hallc
          have heviol := hall a (by rw [hsub]; exact List.mem_cons_self _ _)
          have hagg : a.aggregate_size = a.direct_size +
              ((children_of tbl env.rid a.path).map (fun c => c.aggregate_size)).sum := by
            unfold entryViolates at heviol
            rw [decide_eq_false_iff_not, not_ne_iff, hct] at heviol
            exact heviol
          refine ⟨t', ⟨out.entries + 1, out.directories, out.files, a1.aggregate_size⟩,
            ?_, hstr, hf.2.2.2.2.2.1⟩
          have hcond : ¬ (a1.direct_size +
              ((children_of tbl env.rid a.path).map (fun c => c.aggregate_size)).sum ≠
                a1.aggregate_size) := by
            rw [hf.2.2.2.2.1, hf.2.2.2.2.2.1]
            exact fun hcon => hcon hagg.symm
          rw [emitGo_succ_some env fu rel tblLive a1 hlf, if_pos hk1, heqf, emitFinish_ok,
            if_neg hcond]
        · intro hex
          by_cases hchild : ∃ c ∈ children_of tbl env.rid a.path,
              ∃ d ∈ subEntries tbl env.rid fu c, entryViolates tbl env.rid d = true
          · obtain ⟨t', d, hdc, hdv, heqf, hstr⟩ := hfold.2 hchild
            refine ⟨t', d, ?_, hdv, ?_, hstr⟩
            · rw [hsub]
              obtain ⟨c, hc, hd⟩ := hdc
              exact List.mem_cons_of_mem a (List.mem_flatten.mpr
                ⟨subEntries tbl env.rid fu c, List.mem_map.mpr ⟨c, hc, rfl⟩, hd⟩)
            · rw [emitGo_succ_some env fu rel tblLive a1 hlf, if_pos hk1, heqf,
                emitFinish_error]
          · have heviol : entryViolates tbl env.rid a = true := by
              obtain ⟨d, hd, hdv⟩ := hex
              rw [hsub] at hd
              rcases List.mem_cons.mp hd with rfl | hd'
              · exact hdv
              · exfalso
                obtain ⟨s, hs, hds⟩ := List.mem_flatten.mp hd'
                obtain ⟨c, hc, rfl⟩ := List.mem_map.mp hs
                exact hchild ⟨c, hc, d, hds, hdv⟩
            have hallc : ∀ c ∈ children_of tbl env.rid a.path,
                ∀ d ∈ subEntries tbl env.rid fu c, entryViolates tbl env.rid d = false := by
              intro c hc d hd
              by_contra hne
              refine hchild ⟨c, hc, d, hd, ?_⟩
              revert hne
              cases entryViolates tbl env.rid d <;> simp
            obtain ⟨t', out, heqf, hstr⟩ := hfold.1 hallc
            have hne : a.aggregate_size ≠ a.direct_size +
                ((children_of tbl env.rid a.path).map (fun c => c.aggregate_size)).sum := by
              have := of_decide_eq_true heviol
              rw [hct] at this
              exact this
            refine ⟨t', a, by rw [hsub]; exact List.mem_cons_self _ _, heviol, ?_, hstr⟩
            have hcond : a1.direct_size +
                ((children_of tbl env.rid a.path).map (fun c => c.aggregate_size)).sum ≠
                  a1.aggregate_size := by
              rw [hf.2.2.2.2.1, hf.2.2.2.2.2.1]
              exact fun hcon => hne hcon.symm
            rw [emitGo_succ_some env fu rel tblLive a1 hlf, if_pos hk1, heqf, emitFinish_ok,
              if_pos hcond, hf.2.1, hf.2.2.2.2.1, hf.2.2.2.2.2.1, hct]
      · have hk1 : ¬ a1.kind = FileKind.Directory := by
          rw [hf.2.2.2.1]
          exact hk
        have hsub : subEntries tbl env.rid (fu + 1) a = [a] := by
          simp [subEntries, hk]
        have hct : computedTotal tbl env.rid a = a.direct_size := by
          simp [computedTotal, hk]
        constructor
        · intro hall
          have hv := hall a (by rw [hsub]; exact List.mem_singleton.mpr rfl)
          have hagg : a.aggregate_size = a.direct_size := by
            unfold entryViolates at hv
            rw [decide_eq_false_iff_not, not_ne_iff, hct] at hv
            exact hv
          refine ⟨upsert_entry tblLive env.rid env.scan_ts a1.path a1.parent a1.kind
            a1.direct_size a1.aggregate_size a1.modified a1.created,
            ⟨1, 0, 1, a1.aggregate_size⟩, ?_, htbl1, hf.2.2.2.2.2.1⟩
          rw [emitGo_succ_some env fu rel tblLive a1 hlf, if_neg hk1]
          have hcond : ¬ a1.direct_size ≠ a1.aggregate_size := by
            rw [hf.2.2.2.2.1, hf.2.2.2.2.2.1]
            exact fun hcon => hcon hagg.symm
          rw [if_neg hcond]
        · intro hex
          obtain ⟨d, hd, hdv⟩ := hex
          rw [hsub] at hd
          have hde : d = a := List.mem_singleton.mp hd
          subst hde
          refine ⟨upsert_entry tblLive env.rid env.scan_ts a1.path a1.parent a1.kind
            a1.direct_size a1.aggregate_size a1.modified a1.created,
            d, by rw [hsub]; exact List.mem_singleton.mpr rfl, hdv, ?_, htbl1⟩
          have hne : d.aggregate_size ≠ d.direct_size := by
            have := of_decide_eq_true hdv
            rw [hct] at this
            exact this
          rw [emitGo_succ_some env fu rel tblLive a1 hlf, if_neg hk1]
          have hcond : a1.direct_size ≠ a1.aggregate_size := by
            rw [hf.2.2.2.2.1, hf.2.2.2.2.2.1]
            exact fun hcon => hne hcon.symm
          rw [if_pos hcond, hf.2.1, hf.2.2.2.2.1, hf.2.2.2.2.2.1, hct]

/-- C5: over a cache table with well-formed parent links and unique
(root_id, path) keys, emit_cached_subtree on a path present in the cache
returns AggregateMismatch exactly when some row of the cached subtree
violates aggregate consistency — the error carrying a violating row's path,
its recomputed total as expected, and its stored aggregate as cached — and
otherwise returns EmitStats whose aggregate_size equals the anchor row's
stored aggregate_size; in both cases the table is only restamped
(its rows' structural columns are unchanged). -/
theorem C5_emit_cached_subtree_spec (env : ScanEnv) (tbl : List CachedEntry)
    (rel : RelPath) (a : CachedEntry) (hWf : WfP tbl) (hU : UniqP tbl)
    (ha : fetch_entry tbl env.rid rel = some a) :
    ((∀ d ∈ subEntries tbl env.rid (maxRelLen tbl + 1) a,
        entryViolates tbl env.rid d = false) →
      ∃ t' es, emit_cached_subtree env rel tbl = (t', Except.ok es)
        ∧ t'.map strip = tbl.map strip ∧ es.aggregate_size = a.aggregate_size)
    ∧ ((∃ d ∈ subEntries tbl env.rid (maxRelLen tbl + 1) a,
          entryViolates tbl env.rid d = true) →
      ∃ t' d, d ∈ subEntries tbl env.rid (maxRelLen tbl + 1) a
        ∧ entryViolates tbl env.rid d = true
        ∧ emit_cached_subtree env rel tbl =
            (t', Except.error (CacheValidationError.AggregateMismatch d.path
              (computedTotal tbl env.rid d) d.aggregate_size))
        ∧ t'.map strip = tbl.map strip) := by
  have h := emit_char env tbl hWf hU (maxRelLen tbl + 1) rel a ha (by omega) tbl rfl
  unfold emit_cached_subtree
  exact h

/-- Witness for C5: on a consistent two-row subtree the theorem yields Ok
with the anchor's stored aggregate (60). -/
theorem C5_witness :
    WfP tblC5 ∧ UniqP tblC5 ∧ fetch_entry tblC5 envC5.rid [] = some rootC5
    ∧ (∃ t' es, emit_cached_subtree envC5 [] tblC5 = (t', Except.ok es)
        ∧ t'.map strip = tblC5.map strip ∧ es.aggregate_size = rootC5.aggregate_size) :=
  ⟨by unfold WfP; decide, by unfold UniqP; decide, by decide,
   (C5_emit_cached_subtree_spec envC5 tblC5 [] rootC5 (by unfold WfP; decide)
     (by unfold UniqP; decide) (by decide)).1 (by decide)⟩

lemma events_len_pos (sp : List String) (d : Nat) (n : FsNode) :
    1 ≤ (eventsNode sp d n).length := by
  cases n with
  | file name size mtime => simp [eventsNode]
  | dir name mtime cs => simp [eventsNode]

lemma relative_path_root_append (r q : List String) : relative_path r (r ++ q) = q := by
  unfold relative_path
  rw [if_pos ((List.isPrefixOf_iff_prefix).mpr (List.prefix_append r q))]
  exact List.drop_left r q

lemma parent_relative_append_one (p : List String) (s : String) :
    parent_relative (p ++ [s]) = some p := by
  cases hp : p ++ [s] with
  | nil => exact absurd hp (by simp)
  | cons x xs =>
    show some (x :: xs).dropLast = some p
    rw [← hp, List.dropLast_concat]

lemma frameChain_length : ∀ (F : List DirectoryFrame) (p : RelPath),
    FrameChain F p → F.length = p.length := by
  intro F
  induction F with
  | nil =>
    intro p h
    rw [h]
    rfl
  | cons fr rest ih =>
    intro p h
    obtain ⟨h1, h2⟩ := h
    have hlen := ih fr.relative h2
    cases p with
    | nil => exact Option.noConfusion h1
    | cons x xs =>
      have hdl := Option.some.inj h1
      rw [← hdl] at hlen
      have hxl : (x :: xs).dropLast.length = xs.length := by simp
      simp only [List.length_cons]
      omega

lemma framePaths_shorter : ∀ (F : List DirectoryFrame) (p : RelPath),
    FrameChain F p → ∀ fr ∈ F, fr.relative.length < p.length := by
  intro F
  induction F with
  | nil =>
    intro p _ fr hfr
    cases hfr
  | cons f0 rest ih =>
    intro p h fr hfr
    obtain ⟨h1, h2⟩ := h
    have hlt : f0.relative.length < p.length := by
      cases p with
      | nil => exact Option.noConfusion h1
      | cons x xs =>
        have hdl := Option.some.inj h1
        rw [← hdl]
        simp [List.length_dropLast]
    rcases List.mem_cons.mp hfr with rfl | hmem
    · exact hlt
    · exact lt_trans (ih f0.relative h2 fr hmem) hlt

lemma frameChain_addToParent (F : List DirectoryFrame) (S : Nat) (p : RelPath)
    (h : FrameChain F p) : FrameChain (addToParent F S) p := by
  cases F with
  | nil => exact h
  | cons fr rest => exact ⟨h.1, h.2⟩

lemma framePaths_addToParent (F : List DirectoryFrame) (S : Nat) :
    framePaths (addToParent F S) = framePaths F := by
  cases F with
  | nil => rfl
  | cons fr rest => rfl

lemma addToParent_zero (F : List DirectoryFrame) : addToParent F 0 = F := by
  cases F with
  | nil => rfl
  | cons fr rest =>
    show ({ fr with aggregate_size := fr.aggregate_size + 0 } : DirectoryFrame) :: rest =
      fr :: rest
    rw [Nat.add_zero]

lemma addToParent_add (F : List DirectoryFrame) (a b : Nat) :
    addToParent (addToParent F a) b = addToParent F (a + b) := by
  cases F with
  | nil => rfl
  | cons fr rest => simp [addToParent, Nat.add_assoc]

lemma addToParent_length (F : List DirectoryFrame) (S : Nat) :
    (addToParent F S).length = F.length := by
  cases F with
  | nil => rfl
  | cons fr rest => rfl

lemma scanLoopGo_nil (env : ScanEnv) (fu b : Nat) (st : LoopState) :
    scanLoopGo env fu [] b st = st := by
  cases fu with
  | zero => rfl
  | succ f => rfl

lemma popTo_stop (env : ScanEnv) (d : Nat) (stack : List DirectoryFrame)
    (tbl : List CachedEntry) (h : stack.length ≤ d) :
    popTo env d stack tbl = (stack, tbl) := by
  cases stack with
  | nil => rfl
  | cons fr rest =>
    show popToGo env d (rest.length + 1) (fr :: rest) tbl = (fr :: rest, tbl)
    simp only [popToGo]
    rw [if_pos (by simpa using h)]

lemma popTo_step (env : ScanEnv) (d : Nat) (fr : DirectoryFrame)
    (rest : List DirectoryFrame) (tbl : List CachedEntry)
    (h : d < rest.length + 1) :
    popTo env d (fr :: rest) tbl =
      popTo env d (finalize_directory env fr rest tbl).1
        (finalize_directory env fr rest tbl).2 := by
  show popToGo env d (rest.length + 1) (fr :: rest) tbl = _
  simp only [popToGo]
  rw [if_neg (by omega)]
  have hlen : (finalize_directory env fr rest tbl).1.length = rest.length := by
    unfold finalize_directory
    exact addToParent_length _ _
  show popToGo env d rest.length _ _ = popToGo env d (finalize_directory env fr rest tbl).1.length _ _
  rw [hlen]

lemma popTo_split (env : ScanEnv) (d1 d2 : Nat) (h : d2 ≤ d1) :
    ∀ k (stack : List DirectoryFrame) (tbl : List CachedEntry), stack.length ≤ k →
      popTo env d2 stack tbl =
        popTo env d2 (popTo env d1 stack tbl).1 (popTo env d1 stack tbl).2 := by
  intro k
  induction k with
  | zero =>
    intro stack tbl hk
    have : stack = [] := List.length_eq_zero.mp (Nat.le_zero.mp hk)
    subst this
    rfl
  | succ k ih =>
    intro stack tbl hk
    cases stack with
    | nil => rfl
    | cons fr rest =>
      by_cases h1 : rest.length + 1 ≤ d1
      · rw [popTo_stop env d1 _ _ (by simpa using h1)]
      · have h1' : d1 < rest.length + 1 := by omega
        have h2' : d2 < rest.length + 1 := by omega
        rw [popTo_step env d1 fr rest tbl h1', popTo_step env d2 fr rest tbl h2']
        have hflen : (finalize_directory env fr rest tbl).1.length ≤ k := by
          unfold finalize_directory
          rw [addToParent_length]
          simp only [List.length_cons] at hk
          omega
        exact ih _ _ hflen

lemma any_false_of_fetch_none {tbl : List CachedEntry} {rid : Int} {p : RelPath}
    (h : fetch_entry tbl rid p = none) :
    tbl.any (fun e => decide (e.rootId = rid ∧ e.path = p)) = false := by
  unfold fetch_entry at h
  rw [List.find?_eq_none] at h
  rw [List.any_eq_false]
  intro e he
  simp only [decide_eq_true_eq]
  exact fun hc => h e he (decide_eq_true hc)

lemma upsert_append {tbl : List CachedEntry} {rid : Int} {p : RelPath}
    (h : fetch_entry tbl rid p = none) (ts : Int) (par : Option RelPath) (k : FileKind)
    (ds asz : Nat) (m c : Option Int) :
    upsert_entry tbl rid ts p par k ds asz m c =
      tbl ++ [⟨rid, p, par, k, ds, asz, m, c, ts, 0⟩] := by
  unfold upsert_entry
  rw [if_neg (by rw [any_false_of_fetch_none h]; exact Bool.false_ne_true)]

lemma upsert_inplace {tbl : List CachedEntry} {rid : Int} {p : RelPath} {a : CachedEntry}
    (h : fetch_entry tbl rid p = some a) (ts : Int) (par : Option RelPath) (k : FileKind)
    (ds asz : Nat) (m c : Option Int) :
    upsert_entry tbl rid ts p par k ds asz m c =
      tbl.map (updRow rid ts p par k ds asz m c) := by
  obtain ⟨hmem, hrid, hpath⟩ := fetch_entry_mem h
  unfold upsert_entry updRow
  rw [if_pos (List.any_eq_true.mpr ⟨a, hmem, decide_eq_true ⟨hrid, hpath⟩⟩)]

lemma fetch_append_left {tbl : List CachedEntry} {rid : Int} {p : RelPath}
    {r : CachedEntry} (h : fetch_entry tbl rid p = some r) (l : List CachedEntry) :
    fetch_entry (tbl ++ l) rid p = some r := by
  induction tbl with
  | nil => exact Option.noConfusion h
  | cons e tl ih =>
    rw [fetch_entry_cons] at h
    show fetch_entry (e :: (tl ++ l)) rid p = some r
    rw [fetch_entry_cons]
    by_cases hp : e.rootId = rid ∧ e.path = p
    · rw [if_pos hp] at h ⊢
      exact h
    · rw [if_neg hp] at h ⊢
      exact ih h

lemma fetch_append_new {tbl : List CachedEntry} {rid : Int} {p : RelPath}
    (h : fetch_entry tbl rid p = none) (row : CachedEntry)
    (hrow : row.rootId = rid ∧ row.path = p) :
    fetch_entry (tbl ++ [row]) rid p = some row := by
  induction tbl with
  | nil =>
    show fetch_entry (row :: []) rid p = some row
    rw [fetch_entry_cons, if_pos hrow]
  | cons e tl ih =>
    rw [fetch_entry_cons] at h
    show fetch_entry (e :: (tl ++ [row])) rid p = some row
    rw [fetch_entry_cons]
    by_cases hp : e.rootId = rid ∧ e.path = p
    · rw [if_pos hp] at h
      exact Option.noConfusion h
    · rw [if_neg hp] at h ⊢
      exact ih h

lemma fetch_map_keylike (f : CachedEntry → CachedEntry) :
    ∀ (tbl : List CachedEntry), (∀ e ∈ tbl, (f e).rootId = e.rootId ∧ (f e).path = e.path) →
      ∀ (rid : Int) (p : RelPath),
        fetch_entry (tbl.map f) rid p = (fetch_entry tbl rid p).map f := by
  intro tbl
  induction tbl with
  | nil =>
    intro _ rid p
    rfl
  | cons e tl ih =>
    intro hk rid p
    have hke := hk e (List.mem_cons_self e tl)
    rw [List.map_cons, fetch_entry_cons, fetch_entry_cons]
    by_cases hp : e.rootId = rid ∧ e.path = p
    · rw [if_pos ⟨by rw [hke.1]; exact hp.1, by rw [hke.2]; exact hp.2⟩, if_pos hp]
      rfl
    · rw [if_neg (fun hc => hp ⟨by rw [← hke.1]; exact hc.1, by rw [← hke.2]; exact hc.2⟩),
        if_neg hp]
      exact ih (fun x hx => hk x (List.mem_cons_of_mem e hx)) rid p

lemma children_of_append (tbl l : List CachedEntry) (rid : Int) (q : RelPath) :
    children_of (tbl ++ l) rid q = children_of tbl rid q ++ children_of l rid q := by
  unfold children_of
  rw [List.filter_append]

lemma children_of_map_parentlike (f : CachedEntry → CachedEntry) :
    ∀ (tbl : List CachedEntry),
      (∀ e ∈ tbl, (f e).rootId = e.rootId ∧ (f e).parent = e.parent) →
      ∀ (rid : Int) (q : RelPath),
        children_of (tbl.map f) rid q = (children_of tbl rid q).map f := by
  intro tbl
  induction tbl with
  | nil =>
    intro _ rid q
    rfl
  | cons e tl ih =>
    intro hk rid q
    have hke := hk e (List.mem_cons_self e tl)
    rw [List.map_cons, children_of_cons, children_of_cons]
    by_cases hp : e.rootId = rid ∧ e.parent = some q
    · rw [if_pos ⟨by rw [hke.1]; exact hp.1, by rw [hke.2]; exact hp.2⟩, if_pos hp,
        List.map_cons, ih (fun x hx => hk x (List.mem_cons_of_mem e hx)) rid q]
    · rw [if_neg (fun hc => hp ⟨by rw [← hke.1]; exact hc.1, by rw [← hke.2]; exact hc.2⟩),
        if_neg hp]
      exact ih (fun x hx => hk x (List.mem_cons_of_mem e hx)) rid q

lemma sum_children_append (tbl : List CachedEntry) (row : CachedEntry) (rid : Int)
    (q : RelPath) :
    ((children_of (tbl ++ [row]) rid q).map (fun c => c.aggregate_size)).sum =
      ((children_of tbl rid q).map (fun c => c.aggregate_size)).sum +
        (if row.rootId = rid ∧ row.parent = some q then row.aggregate_size else 0) := by
  rw [children_of_append, List.map_append, List.sum_append]
  have : children_of [row] rid q =
      (if row.rootId = rid ∧ row.parent = some q then [row] else []) := by
    unfold children_of
    by_cases hp : row.rootId = rid ∧ row.parent = some q
    · simp [hp]
    · simp [hp]
  rw [this]
  by_cases hp : row.rootId = rid ∧ row.parent = some q
  · rw [if_pos hp, if_pos hp]
    simp
  · rw [if_neg hp, if_neg hp]
    simp

lemma sum_map_upd (f : CachedEntry → CachedEntry) (a : CachedEntry) :
    ∀ (l : List CachedEntry), l.Nodup → (∀ e ∈ l, e ≠ a → f e = e) →
      ((l.map f).map (fun c => c.aggregate_size)).sum +
        (if a ∈ l then a.aggregate_size else 0) =
      (l.map (fun c => c.aggregate_size)).sum +
        (if a ∈ l then (f a).aggregate_size else 0) := by
  intro l
  induction l with
  | nil =>
    intro _ _
    rfl
  | cons e l ih =>
    intro hnd hf
    have hnd' := (List.nodup_cons.mp hnd).2
    have hf' := fun x hx => hf x (List.mem_cons_of_mem e hx)
    by_cases hea : e = a
    · subst hea
      have hna : e ∉ l := (List.nodup_cons.mp hnd).1
      have hmap : l.map f = l :=
        (List.map_congr_left (fun x hx => hf' x hx (fun hxe => hna (hxe ▸ hx)))).trans
          (List.map_id' l)
      rw [List.map_cons, List.map_cons, List.map_cons, List.sum_cons, List.sum_cons,
        hmap, if_pos (List.mem_cons_self e l), if_pos (List.mem_cons_self e l)]
      omega
    · have hfe : f e = e := hf e (List.mem_cons_self e l) hea
      have hih := ih hnd' hf'
      rw [List.map_cons, List.map_cons, List.map_cons, List.sum_cons, List.sum_cons, hfe]
      by_cases hal : a ∈ l
      · have hmem : a ∈ e :: l := List.mem_cons_of_mem e hal
        rw [if_pos hmem, if_pos hmem]
        rw [if_pos hal, if_pos hal] at hih
        omega
      · have hmem : a ∉ e :: l := by
          intro hc
          rcases List.mem_cons.mp hc with h1 | h1
          · exact hea h1.symm
          · exact hal h1
        rw [if_neg hmem, if_neg hmem]
        rw [if_neg hal, if_neg hal] at hih
        omega

lemma children_nodup {tbl : List CachedEntry} (hU : UniqP tbl) (rid : Int) (q : RelPath) :
    (children_of tbl rid q).Nodup := by
  have hnd : tbl.Nodup := by
    unfold UniqP at hU
    exact hU.of_map _
  exact (List.filter_sublist tbl).nodup hnd

lemma mem_children_iff {tbl : List CachedEntry} {a : CachedEntry} (ha : a ∈ tbl)
    (rid : Int) (q : RelPath) :
    a ∈ children_of tbl rid q ↔ (a.rootId = rid ∧ a.parent = some q) := by
  unfold children_of
  rw [List.mem_filter]
  constructor
  · intro h
    exact of_decide_eq_true h.2
  · intro h
    exact ⟨ha, decide_eq_true h⟩

lemma parent_relative_ne_self (p : RelPath) : ¬ (parent_relative p = some p) := by
  cases p with
  | nil => exact fun h => Option.noConfusion h
  | cons x xs =>
    intro h
    have hd := Option.some.inj h
    have h1 : (x :: xs).dropLast.length = xs.length := by simp
    have h2 : (x :: xs).length = xs.length + 1 := rfl
    rw [hd] at h1
    omega

lemma FreshP_fetch_none {env : ScanEnv} {T : List CachedEntry} {rp : RelPath}
    (hF : FreshP env T rp) : fetch_entry T env.rid rp = none := by
  cases hf : fetch_entry T env.rid rp with
  | none => rfl
  | some a =>
    obtain ⟨hmem, hrid, hpath⟩ := fetch_entry_mem hf
    exact absurd (hpath ▸ List.prefix_refl rp) (hF a hmem hrid)

lemma computedTotal_congr {T T' : List CachedEntry} {rid : Int} (e : CachedEntry)
    (h : ((children_of T' rid e.path).map (fun c => c.aggregate_size)).sum =
      ((children_of T rid e.path).map (fun c => c.aggregate_size)).sum) :
    computedTotal T' rid e = computedTotal T rid e := by
  unfold computedTotal
  by_cases hk : e.kind = FileKind.Directory
  · rw [if_pos hk, if_pos hk, h]
  · rw [if_neg hk, if_neg hk]

lemma sum_children_upsert_inplace {tbl : List CachedEntry} (hU : UniqP tbl)
    {rid : Int} {p : RelPath} {a : CachedEntry} (ha : fetch_entry tbl rid p = some a)
    {par : Option RelPath} (hpar : a.parent = par) (ts : Int) (k : FileKind)
    (ds asz : Nat) (m c : Option Int) (q : RelPath) :
    ((children_of (upsert_entry tbl rid ts p par k ds asz m c) rid q).map
        (fun e => e.aggregate_size)).sum + (if par = some q then a.aggregate_size else 0) =
      ((children_of tbl rid q).map (fun e => e.aggregate_size)).sum +
        (if par = some q then asz else 0) := by
  obtain ⟨hmem, hrid, hpath⟩ := fetch_entry_mem ha
  rw [upsert_inplace ha ts par k ds asz m c]
  have hparentlike : ∀ e ∈ tbl,
      (updRow rid ts p par k ds asz m c e).rootId = e.rootId ∧
      (updRow rid ts p par k ds asz m c e).parent = e.parent := by
    intro e he
    unfold updRow
    by_cases hp : e.rootId = rid ∧ e.path = p
    · have hea : e = a := uniq_key_eq hU he hmem (by rw [hp.1, hrid]) (by rw [hp.2, hpath])
      rw [if_pos hp]
      refine ⟨rfl, ?_⟩
      show par = e.parent
      rw [hea, hpar]
    · rw [if_neg hp]
      exact ⟨rfl, rfl⟩
  rw [children_of_map_parentlike _ tbl hparentlike rid q]
  have hafix : (updRow rid ts p par k ds asz m c a).aggregate_size = asz := by
    unfold updRow
    rw [if_pos ⟨hrid, hpath⟩]
  have hsum := sum_map_upd (updRow rid ts p par k ds asz m c) a
    (children_of tbl rid q) (children_nodup hU rid q)
    (by
      intro e he hea
      have hetbl := (children_of_mem he).1
      unfold updRow
      by_cases hp : e.rootId = rid ∧ e.path = p
      · exact absurd (uniq_key_eq hU hetbl hmem (by rw [hp.1, hrid]) (by rw [hp.2, hpath]))
          hea
      · rw [if_neg hp])
  rw [hafix] at hsum
  by_cases hq : par = some q
  · have hain : a ∈ children_of tbl rid q := (mem_children_iff hmem rid q).mpr
      ⟨hrid, by rw [hpar, hq]⟩
    rw [if_pos hain, if_pos hain] at hsum
    rw [if_pos hq, if_pos hq]
    omega
  · have hain : a ∉ children_of tbl rid q := by
      intro hc
      exact hq (by rw [← hpar]; exact ((mem_children_iff hmem rid q).mp hc).2)
    rw [if_neg hain, if_neg hain] at hsum
    rw [if_neg hq, if_neg hq]
    omega

lemma UniqP_append {tbl : List CachedEntry} (hU : UniqP tbl) {rid : Int} {p : RelPath}
    (h : fetch_entry tbl rid p = none) (row : CachedEntry)
    (hrow : row.rootId = rid ∧ row.path = p) :
    UniqP (tbl ++ [row]) := by
  unfold UniqP at *
  rw [List.map_append]
  rw [List.nodup_append]
  refine ⟨hU, List.nodup_singleton _, ?_⟩
  intro k hk hk2
  have hkr : k = (rid, p) := by
    have hks := List.mem_singleton.mp hk2
    rw [hks]
    show (row.rootId, row.path) = (rid, p)
    rw [hrow.1, hrow.2]
  obtain ⟨e, he, hke⟩ := List.mem_map.mp hk
  unfold fetch_entry at h
  rw [List.find?_eq_none] at h
  refine h e he ?_
  rw [hkr] at hke
  have h1 : e.rootId = rid := congrArg Prod.fst hke
  have h2 : e.path = p := congrArg Prod.snd hke
  exact decide_eq_true ⟨h1, h2⟩

lemma UniqP_map_keylike (f : CachedEntry → CachedEntry)
    {tbl : List CachedEntry} (hU : UniqP tbl)
    (hk : ∀ e ∈ tbl, (f e).rootId = e.rootId ∧ (f e).path = e.path) :
    UniqP (tbl.map f) := by
  unfold UniqP at *
  rw [List.map_map]
  have : tbl.map ((fun e => (e.rootId, e.path)) ∘ f) = tbl.map (fun e => (e.rootId, e.path)) :=
    List.map_congr_left (fun e he => by
      show ((f e).rootId, (f e).path) = (e.rootId, e.path)
      rw [(hk e he).1, (hk e he).2])
  rw [this]
  exact hU

lemma inv_append_file (env : ScanEnv) (F : List DirectoryFrame) (T : List CachedEntry)
    (rp : RelPath) (ds : Nat) (m c : Option Int)
    (hinv : ScanInv2 env F T) (hch : FrameChain F rp) (hF : FreshP env T rp) :
    ScanInv2 env (addToParent F ds)
      (T ++ [⟨env.rid, rp, parent_relative rp, FileKind.File, ds, ds, m, c,
        env.scan_ts, 0⟩]) := by
  obtain ⟨hWf, hU, hstamp, hcons, hfr⟩ := hinv
  have hnone := FreshP_fetch_none hF
  refine ⟨?_, ?_, ?_, ?_, ?_⟩
  · intro e he
    rcases List.mem_append.mp he with he' | he'
    · exact hWf e he'
    · rw [List.mem_singleton.mp he']
  · exact UniqP_append hU hnone _ ⟨rfl, rfl⟩
  · intro e he herid
    rcases List.mem_append.mp he with he' | he'
    · exact hstamp e he' herid
    · rw [List.mem_singleton.mp he']
  · intro e he herid hnf
    rw [framePaths_addToParent] at hnf
    rcases List.mem_append.mp he with he' | he'
    · have hold := hcons e he' herid hnf
      have hcond : ¬ ((⟨env.rid, rp, parent_relative rp, FileKind.File, ds, ds, m, c,
          env.scan_ts, 0⟩ : CachedEntry).rootId = env.rid ∧
          (⟨env.rid, rp, parent_relative rp, FileKind.File, ds, ds, m, c,
            env.scan_ts, 0⟩ : CachedEntry).parent = some e.path) := by
        rintro ⟨_, hp⟩
        have hp' : parent_relative rp = some e.path := hp
        cases rp with
        | nil => exact Option.noConfusion hp'
        | cons x xs =>
          cases F with
          | nil => exact List.noConfusion hch
          | cons f0 rest =>
            obtain ⟨hpr, _⟩ := hch
            rw [hpr] at hp'
            have : f0.relative = e.path := Option.some.inj hp'
            exact hnf (List.mem_map.mpr ⟨f0, List.mem_cons_self f0 rest, this⟩)
      have hsum := sum_children_append T
        ⟨env.rid, rp, parent_relative rp, FileKind.File, ds, ds, m, c, env.scan_ts, 0⟩
        env.rid e.path
      rw [if_neg hcond] at hsum
      rw [hold]
      exact (computedTotal_congr e (by rw [hsum]; omega)).symm
    · rw [List.mem_singleton.mp he']
      show ds = computedTotal _ env.rid _
      unfold computedTotal
      rw [if_neg (fun hcon => FileKind.noConfusion hcon)]
  · intro fr' hfr'
    cases F with
    | nil => cases hfr'
    | cons f0 rest =>
      obtain ⟨hpr, hchr⟩ := hch
      rcases List.mem_cons.mp hfr' with rfl | hmemr
      · obtain ⟨hd0, hp0, hagg0, row0, hrow0, hrow0agg⟩ := hfr f0 (List.mem_cons_self f0 rest)
        refine ⟨hd0, hp0, ?_, row0, fetch_append_left hrow0 _, hrow0agg⟩
        have hsum := sum_children_append T
          ⟨env.rid, rp, parent_relative rp, FileKind.File, ds, ds, m, c, env.scan_ts, 0⟩
          env.rid f0.relative
        rw [if_pos ⟨rfl, hpr⟩] at hsum
        show f0.aggregate_size + ds = _
        rw [hsum, hagg0]
      · obtain ⟨hd0, hp0, hagg0, row0, hrow0, hrow0agg⟩ := hfr fr'
          (List.mem_cons_of_mem f0 hmemr)
        refine ⟨hd0, hp0, ?_, row0, fetch_append_left hrow0 _, hrow0agg⟩
        have hne : f0.relative ≠ fr'.relative := by
          intro hcon
          have := framePaths_shorter rest f0.relative hchr fr' hmemr
          rw [hcon] at this
          omega
        have hsum := sum_children_append T
          ⟨env.rid, rp, parent_relative rp, FileKind.File, ds, ds, m, c, env.scan_ts, 0⟩
          env.rid fr'.relative
        rw [if_neg (by
          rintro ⟨_, hp⟩
          have hp' : parent_relative rp = some fr'.relative := hp
          rw [hpr] at hp'
          exact hne (Option.some.inj hp'))] at hsum
        rw [hagg0, hsum]
        omega

lemma inv_append_dir_open (env : ScanEnv) (F : List DirectoryFrame)
    (T : List CachedEntry) (rp : RelPath) (m c : Option Int)
    (hinv : ScanInv2 env F T) (hch : FrameChain F rp) (hF : FreshP env T rp) :
    ScanInv2 env (⟨rp, parent_relative rp, 0, 0, m, c⟩ :: F)
      (T ++ [⟨env.rid, rp, parent_relative rp, FileKind.Directory, 0, 0, m, c,
        env.scan_ts, 0⟩]) := by
  obtain ⟨hWf, hU, hstamp, hcons, hfr⟩ := hinv
  have hnone := FreshP_fetch_none hF
  refine ⟨?_, ?_, ?_, ?_, ?_⟩
  · intro e he
    rcases List.mem_append.mp he with he' | he'
    · exact hWf e he'
    · rw [List.mem_singleton.mp he']
  · exact UniqP_append hU hnone _ ⟨rfl, rfl⟩
  · intro e he herid
    rcases List.mem_append.mp he with he' | he'
    · exact hstamp e he' herid
    · rw [List.mem_singleton.mp he']
  · intro e he herid hnf
    have hnf2 : e.path ∉ framePaths F := by
      intro hcon
      exact hnf (List.mem_cons_of_mem _ hcon)
    have hnrp : e.path ≠ rp := by
      intro hcon
      exact hnf (by rw [hcon]; exact List.mem_cons_self rp (framePaths F))
    rcases List.mem_append.mp he with he' | he'
    · have hold := hcons e he' herid hnf2
      have hcond : ¬ ((⟨env.rid, rp, parent_relative rp, FileKind.Directory, 0, 0, m, c,
          env.scan_ts, 0⟩ : CachedEntry).rootId = env.rid ∧
          (⟨env.rid, rp, parent_relative rp, FileKind.Directory, 0, 0, m, c,
            env.scan_ts, 0⟩ : CachedEntry).parent = some e.path) := by
        rintro ⟨_, hp⟩
        have hp' : parent_relative rp = some e.path := hp
        cases rp with
        | nil => exact Option.noConfusion hp'
        | cons x xs =>
          cases F with
          | nil => exact List.noConfusion hch
          | cons f0 rest =>
            obtain ⟨hpr, _⟩ := hch
            rw [hpr] at hp'
            have heq : f0.relative = e.path := Option.some.inj hp'
            exact hnf2 (List.mem_map.mpr ⟨f0, List.mem_cons_self f0 rest, heq⟩)
      have hsum := sum_children_append T
        ⟨env.rid, rp, parent_relative rp, FileKind.Directory, 0, 0, m, c, env.scan_ts, 0⟩
        env.rid e.path
      rw [if_neg hcond] at hsum
      rw [hold]
      exact (computedTotal_congr e (by rw [hsum]; omega)).symm
    · exact absurd (congrArg CachedEntry.path (List.mem_singleton.mp he')) hnrp
  · intro fr' hfr'
    rcases List.mem_cons.mp hfr' with rfl | hmemr
    · refine ⟨rfl, rfl, ?_, ?_⟩
      · show (0 : Nat) = _
        have hnochild : children_of
            (T ++ [⟨env.rid, rp, parent_relative rp, FileKind.Directory, 0, 0, m, c,
              env.scan_ts, 0⟩]) env.rid rp = [] := by
          rw [children_of_append]
          have h1 : children_of T env.rid rp = [] := by
            cases hc : children_of T env.rid rp with
            | nil => rfl
            | cons ch rest =>
              exfalso
              have hchmem : ch ∈ children_of T env.rid rp := by
                rw [hc]
                exact List.mem_cons_self ch rest
              obtain ⟨hcm, hcr, hcp⟩ := children_of_mem hchmem
              have hwfc := hWf ch hcm
              rw [hcp] at hwfc
              cases hcpath : ch.path with
              | nil => rw [hcpath] at hwfc; exact Option.noConfusion hwfc
              | cons y ys =>
                rw [hcpath] at hwfc
                have hdl : rp = (y :: ys).dropLast := Option.some.inj hwfc
                refine hF ch hcm hcr ?_
                rw [hcpath, hdl]
                exact List.dropLast_prefix _
          have h2 : children_of
              [(⟨env.rid, rp, parent_relative rp, FileKind.Directory, 0, 0, m, c,
                env.scan_ts, 0⟩ : CachedEntry)] env.rid rp = [] := by
            unfold children_of
            simp [parent_relative_ne_self rp]
          rw [h1, h2]
          rfl
        rw [hnochild]
        rfl
      · exact ⟨_, fetch_append_new hnone _ ⟨rfl, rfl⟩, rfl⟩
    · obtain ⟨hd0, hp0, hagg0, row0, hrow0, hrow0agg⟩ := hfr fr' hmemr
      refine ⟨hd0, hp0, ?_, row0, fetch_append_left hrow0 _, hrow0agg⟩
      have hsum := sum_children_append T
        ⟨env.rid, rp, parent_relative rp, FileKind.Directory, 0, 0, m, c, env.scan_ts, 0⟩
        env.rid fr'.relative
      by_cases hcond : (⟨env.rid, rp, parent_relative rp, FileKind.Directory, 0, 0, m, c,
          env.scan_ts, 0⟩ : CachedEntry).rootId = env.rid ∧
          (⟨env.rid, rp, parent_relative rp, FileKind.Directory, 0, 0, m, c,
            env.scan_ts, 0⟩ : CachedEntry).parent = some fr'.relative
      · rw [if_pos hcond] at hsum
        rw [hagg0, hsum]
        simp
      · rw [if_neg hcond] at hsum
        rw [hagg0, hsum]
        omega

lemma updRow_keylike (rid ts : Int) (p : RelPath) (par : Option RelPath) (k : FileKind)
    (ds asz : Nat) (m c : Option Int) (e : CachedEntry) :
    (updRow rid ts p par k ds asz m c e).rootId = e.rootId ∧
    (updRow rid ts p par k ds asz m c e).path = e.path := by
  unfold updRow
  by_cases hp : e.rootId = rid ∧ e.path = p
  · rw [if_pos hp]
    exact ⟨rfl, rfl⟩
  · rw [if_neg hp]
    exact ⟨rfl, rfl⟩

lemma updRow_of_ne (rid ts : Int) (p : RelPath) (par : Option RelPath) (k : FileKind)
    (ds asz : Nat) (m c : Option Int) (e : CachedEntry)
    (h : ¬ (e.rootId = rid ∧ e.path = p)) :
    updRow rid ts p par k ds asz m c e = e := by
  unfold updRow
  rw [if_neg h]

lemma inv_close (env : ScanEnv) (fr0 : DirectoryFrame) (F : List DirectoryFrame)
    (T : List CachedEntry)
    (hinv : ScanInv2 env (fr0 :: F) T) (hch : FrameChain F fr0.relative) :
    ScanInv2 env (addToParent F (fr0.aggregate_size + fr0.direct_size))
      (upsert_entry T env.rid env.scan_ts fr0.relative fr0.parent FileKind.Directory
        fr0.direct_size (fr0.aggregate_size + fr0.direct_size) fr0.modified fr0.created)
    ∧ (∀ e ∈ upsert_entry T env.rid env.scan_ts fr0.relative fr0.parent FileKind.Directory
        fr0.direct_size (fr0.aggregate_size + fr0.direct_size) fr0.modified fr0.created,
        e.rootId = env.rid → e ∈ T ∨ e.path = fr0.relative) := by
  obtain ⟨hWf, hU, hstamp, hcons, hfrAll⟩ := hinv
  obtain ⟨hd0, hp0, hagg0, a, ha, haz⟩ := hfrAll fr0 (List.mem_cons_self fr0 F)
  have hfrF := fun fr hm => hfrAll fr (List.mem_cons_of_mem fr0 hm)
  obtain ⟨hamem, harid, hapath⟩ := fetch_entry_mem ha
  have hpar : a.parent = fr0.parent := by
    rw [hp0, ← hapath]
    exact hWf a hamem
  have hup := upsert_inplace ha env.scan_ts fr0.parent FileKind.Directory
    fr0.direct_size (fr0.aggregate_size + fr0.direct_size) fr0.modified fr0.created
  have hsum := fun q => sum_children_upsert_inplace hU ha hpar env.scan_ts
    FileKind.Directory fr0.direct_size (fr0.aggregate_size + fr0.direct_size)
    fr0.modified fr0.created q
  rw [haz] at hsum
  constructor
  · refine ⟨?_, ?_, ?_, ?_, ?_⟩
    · intro e' he'
      rw [hup] at he'
      obtain ⟨e, he, rfl⟩ := List.mem_map.mp he'
      unfold updRow
      by_cases hp : e.rootId = env.rid ∧ e.path = fr0.relative
      · rw [if_pos hp]
        show fr0.parent = parent_relative e.path
        rw [hp.2]
        exact hp0
      · rw [if_neg hp]
        exact hWf e he
    · rw [hup]
      exact UniqP_map_keylike _ hU (fun e _ => updRow_keylike _ _ _ _ _ _ _ _ _ e)
    · intro e' he' herid
      rw [hup] at he'
      obtain ⟨e, he, rfl⟩ := List.mem_map.mp he'
      unfold updRow at herid ⊢
      by_cases hp : e.rootId = env.rid ∧ e.path = fr0.relative
      · rw [if_pos hp]
      · rw [if_neg hp] at herid ⊢
        exact hstamp e he herid
    · intro e' he' herid hnf
      rw [framePaths_addToParent] at hnf
      rw [hup] at he'
      obtain ⟨e, he, rfl⟩ := List.mem_map.mp he'
      by_cases hp : e.rootId = env.rid ∧ e.path = fr0.relative
      · have hupd : updRow env.rid env.scan_ts fr0.relative fr0.parent FileKind.Directory
            fr0.direct_size (fr0.aggregate_size + fr0.direct_size) fr0.modified
            fr0.created e =
            ⟨e.rootId, e.path, fr0.parent, FileKind.Directory, fr0.direct_size,
              fr0.aggregate_size + fr0.direct_size, fr0.modified, fr0.created,
              env.scan_ts, 0⟩ := by
          unfold updRow
          rw [if_pos hp]
        rw [hupd]
        show fr0.aggregate_size + fr0.direct_size = computedTotal _ env.rid _
        unfold computedTotal
        rw [if_pos rfl]
        have hcond : ¬ (fr0.parent = some fr0.relative) := by
          rw [hp0]
          exact parent_relative_ne_self fr0.relative
        have hs := hsum fr0.relative
        rw [if_neg hcond, if_neg hcond] at hs
        show fr0.aggregate_size + fr0.direct_size = fr0.direct_size + _
        have hlit : (⟨e.rootId, e.path, fr0.parent, FileKind.Directory, fr0.direct_size,
            fr0.aggregate_size + fr0.direct_size, fr0.modified, fr0.created,
            env.scan_ts, 0⟩ : CachedEntry).path = fr0.relative :=
          hp.2
        rw [hlit]
        omega
      · have hfe : updRow env.rid env.scan_ts fr0.relative fr0.parent FileKind.Directory
            fr0.direct_size (fr0.aggregate_size + fr0.direct_size) fr0.modified
            fr0.created e = e := updRow_of_ne _ _ _ _ _ _ _ _ _ e hp
        rw [hfe] at herid hnf ⊢
        have hnp : e.path ≠ fr0.relative := fun hc => hp ⟨herid, hc⟩
        have hnf2 : e.path ∉ framePaths (fr0 :: F) := by
          intro hc
          rcases List.mem_cons.mp hc with h1 | h1
          · exact hnp h1
          · exact hnf h1
        have hold := hcons e he herid hnf2
        have hcond : ¬ (fr0.parent = some e.path) := by
          intro hc
          rw [hp0] at hc
          cases hrel : fr0.relative with
          | nil =>
            rw [hrel] at hc
            exact Option.noConfusion hc
          | cons x xs =>
            rw [hrel] at hc
            have hdl : some (x :: xs).dropLast = some e.path := hc
            cases F with
            | nil =>
              have hnil : fr0.relative = [] := hch
              rw [hrel] at hnil
              exact List.noConfusion hnil
            | cons g rest =>
              obtain ⟨hgp, _⟩ := hch
              rw [hrel] at hgp
              have hgp2 : some (x :: xs).dropLast = some g.relative := hgp
              have hge : g.relative = e.path :=
                (Option.some.inj hgp2).symm.trans (Option.some.inj hdl)
              exact hnf (List.mem_map.mpr ⟨g, List.mem_cons_self g rest, hge⟩)
        have hs := hsum e.path
        rw [if_neg hcond, if_neg hcond] at hs
        rw [hold]
        refine (computedTotal_congr e ?_).symm
        omega
    · intro fr' hfr'
      cases F with
      | nil => cases hfr'
      | cons g rest =>
        obtain ⟨hgp, hchr⟩ := hch
        rcases List.mem_cons.mp hfr' with rfl | hmemr
        · obtain ⟨hdg, hpg, haggg, rowg, hrowg, hrowgz⟩ :=
            hfrF g (List.mem_cons_self g rest)
          refine ⟨hdg, hpg, ?_, ?_⟩
          · have hcond : fr0.parent = some g.relative := by
              rw [hp0]
              exact hgp
            have hs := hsum g.relative
            rw [if_pos hcond, if_pos hcond] at hs
            show g.aggregate_size + (fr0.aggregate_size + fr0.direct_size) =
              (List.map (fun c => c.aggregate_size)
                (children_of (upsert_entry T env.rid env.scan_ts fr0.relative fr0.parent
                  FileKind.Directory fr0.direct_size
                  (fr0.aggregate_size + fr0.direct_size) fr0.modified fr0.created)
                env.rid g.relative)).sum
            omega
          · obtain ⟨rowgmem, rowgrid, rowgpath⟩ := fetch_entry_mem hrowg
            have hglen : g.relative.length < fr0.relative.length := by
              cases hrel : fr0.relative with
              | nil =>
                rw [hrel] at hgp
                exact absurd hgp (fun hc => Option.noConfusion hc)
              | cons x xs =>
                rw [hrel] at hgp
                have hgp2 : some (x :: xs).dropLast = some g.relative := hgp
                have hdl2 : (x :: xs).dropLast = g.relative := Option.some.inj hgp2
                rw [← hdl2]
                simp
            have hnotg : ¬ (rowg.rootId = env.rid ∧ rowg.path = fr0.relative) := by
              rintro ⟨_, hc⟩
              rw [rowgpath] at hc
              rw [hc] at hglen
              omega
            refine ⟨rowg, ?_, hrowgz⟩
            rw [hup, fetch_map_keylike _ T
              (fun e _ => updRow_keylike _ _ _ _ _ _ _ _ _ e) env.rid g.relative, hrowg]
            simp only [Option.map_some']
            rw [updRow_of_ne _ _ _ _ _ _ _ _ _ rowg hnotg]
        · obtain ⟨hdg, hpg, haggg, rowg, hrowg, hrowgz⟩ := hfrF fr'
            (List.mem_cons_of_mem g hmemr)
          refine ⟨hdg, hpg, ?_, ?_⟩
          · have hne : g.relative ≠ fr'.relative := by
              intro hcon
              have := framePaths_shorter rest g.relative hchr fr' hmemr
              rw [hcon] at this
              omega
            have hcond : ¬ (fr0.parent = some fr'.relative) := by
              intro hc
              rw [hp0, hgp] at hc
              exact hne (Option.some.inj hc)
            have hs := hsum fr'.relative
            rw [if_neg hcond, if_neg hcond] at hs
            rw [haggg]
            omega
          · obtain ⟨rowgmem, rowgrid, rowgpath⟩ := fetch_entry_mem hrowg
            have hglen : fr'.relative.length < fr0.relative.length := by
              have h1 := framePaths_shorter rest g.relative hchr fr' hmemr
              cases hrel : fr0.relative with
              | nil =>
                rw [hrel] at hgp
                exact absurd hgp (fun hc => Option.noConfusion hc)
              | cons x xs =>
                rw [hrel] at hgp
                have hgp2 : some (x :: xs).dropLast = some g.relative := hgp
                have h2 : (x :: xs).dropLast = g.relative := Option.some.inj hgp2
                have h3 : (x :: xs).dropLast.length = xs.length := by simp
                rw [h2] at h3
                simp only [List.length_cons]
                omega
            have hnotg : ¬ (rowg.rootId = env.rid ∧ rowg.path = fr0.relative) := by
              rintro ⟨_, hc⟩
              rw [rowgpath] at hc
              rw [hc] at hglen
              omega
            refine ⟨rowg, ?_, hrowgz⟩
            rw [hup, fetch_map_keylike _ T
              (fun e _ => updRow_keylike _ _ _ _ _ _ _ _ _ e) env.rid fr'.relative, hrowg]
            simp only [Option.map_some']
            rw [updRow_of_ne _ _ _ _ _ _ _ _ _ rowg hnotg]
  · intro e' he' herid
    rw [hup] at he'
    obtain ⟨e, he, rfl⟩ := List.mem_map.mp he'
    by_cases hp : e.rootId = env.rid ∧ e.path = fr0.relative
    · right
      unfold updRow
      rw [if_pos hp]
      exact hp.2
    · left
      rw [updRow_of_ne _ _ _ _ _ _ _ _ _ e hp]
      exact he

lemma should_include_dir (path : List String) (s : Nat) (m : Option (List GlobTok))
    (root : List String) (filt : Option SizeFilter) :
    should_include path FileKind.Directory s m root filt = true := by
  unfold should_include
  rw [if_pos rfl]

lemma scanLoopGo_cons (env : ScanEnv) (fu : Nat) (ev : WalkEvent) (rest : List WalkEvent)
    (b : Nat) (st : LoopState) (out : StepOut) (hb : ¬ (b = 0))
    (hout : scanStep env ev st.stack st.tbl st.stats = out) (hskip : out.skip = false) :
    scanLoopGo env (fu + 1) (ev :: rest) b st =
      scanLoopGo env fu rest (b - 1)
        { st with stack := out.stack, tbl := out.tbl, stats := out.stats } := by
  simp only [scanLoopGo]
  rw [if_neg hb, hout, hskip]
  rw [if_neg Bool.false_ne_true]

lemma scanStep_fresh_file (env : ScanEnv) (ev : WalkEvent) (stack : List DirectoryFrame)
    (tbl : List CachedEntry) (stats : ScanStats) (hk : ev.kind = FileKind.File) :
    scanStep env ev stack tbl stats =
      scanFresh env ev (popTo env ev.depth stack tbl).1 (popTo env ev.depth stack tbl).2
        stats (relative_path env.root ev.path)
        (parent_relative (relative_path env.root ev.path)) ev.size := by
  simp only [scanStep, hk]
  rfl

lemma scanStep_fresh_dir (env : ScanEnv) (ev : WalkEvent) (stack : List DirectoryFrame)
    (tbl : List CachedEntry) (stats : ScanStats) (hk : ev.kind = FileKind.Directory)
    (hnone : fetch_entry (popTo env ev.depth stack tbl).2 env.rid
      (relative_path env.root ev.path) = none) :
    scanStep env ev stack tbl stats =
      scanFresh env ev (popTo env ev.depth stack tbl).1 (popTo env ev.depth stack tbl).2
        stats (relative_path env.root ev.path)
        (parent_relative (relative_path env.root ev.path)) 0 := by
  simp only [scanStep, hk, hnone]
  rfl

lemma scanFresh_skip (env : ScanEnv) (ev : WalkEvent) (stack : List DirectoryFrame)
    (tbl : List CachedEntry) (stats : ScanStats) (rel : RelPath) (pr : Option RelPath)
    (direct : Nat)
    (h : should_include ev.path ev.kind direct env.matcher env.root env.filt = false) :
    scanFresh env ev stack tbl stats rel pr direct = ⟨stack, tbl, stats, false⟩ := by
  unfold scanFresh
  rw [if_pos h]

lemma scanFresh_file_inc (env : ScanEnv) (ev : WalkEvent) (stack : List DirectoryFrame)
    (tbl : List CachedEntry) (stats : ScanStats) (rel : RelPath) (pr : Option RelPath)
    (direct : Nat) (hk : ev.kind = FileKind.File)
    (h : should_include ev.path ev.kind direct env.matcher env.root env.filt = true) :
    scanFresh env ev stack tbl stats rel pr direct =
      ⟨addToParent stack direct,
       upsert_entry tbl env.rid env.scan_ts rel pr FileKind.File direct direct
         ev.mtime ev.created,
       { stats with files_scanned := stats.files_scanned + 1 }, false⟩ := by
  unfold scanFresh
  rw [if_neg (by simp [h]), hk]
  rfl

lemma scanFresh_dir_push (env : ScanEnv) (ev : WalkEvent) (stack : List DirectoryFrame)
    (tbl : List CachedEntry) (stats : ScanStats) (rel : RelPath) (pr : Option RelPath)
    (hk : ev.kind = FileKind.Directory) :
    scanFresh env ev stack tbl stats rel pr 0 =
      ⟨⟨rel, pr, 0, 0, ev.mtime, ev.created⟩ :: stack,
       upsert_entry tbl env.rid env.scan_ts rel pr FileKind.Directory 0 0
         ev.mtime ev.created,
       { stats with dirs_scanned := stats.dirs_scanned + 1 }, false⟩ := by
  unfold scanFresh
  rw [if_neg (by simp [hk, should_include_dir]), hk]
  rfl

lemma forest_nil_sim (env : ScanEnv) (pr : RelPath) (d : Nat) :
    ForestSim env FsForest.nil pr d := by
  intro rest fu b st F T hd hu hnd hab hfu hb hpop hinv hch hfresh
  refine ⟨st, 0, T, ?_, hab, ?_, ?_, ?_⟩
  · show scanLoopGo env fu ([] ++ rest) b st = scanLoopGo env (fu - 0) rest (b - 0) st
    simp
  · rw [addToParent_zero]
    exact hpop
  · rw [addToParent_zero]
    exact hinv
  · intro e he _
    exact Or.inl he

lemma node_sim_file (env : ScanEnv) (name : String) (sz : Nat) (mt : Option Int)
    (rp : RelPath) (d : Nat) : NodeSim env (FsNode.file name sz mt) rp d := by
  intro rest fu b st F T hd hu hab hfu hb hpop hinv hch hfresh
  have hevents : eventsNode (env.root ++ rp) d (FsNode.file name sz mt) =
      [⟨env.root ++ rp, d, FileKind.File, sz, mt, none⟩] := rfl
  rw [hevents] at hfu hb ⊢
  simp only [List.length_singleton, List.singleton_append] at hfu hb ⊢
  obtain ⟨fu', rfl⟩ : ∃ fu', fu = fu' + 1 := ⟨fu - 1, by omega⟩
  have hb0 : ¬ (b = 0) := by omega
  have hrel : relative_path env.root (env.root ++ rp) = rp :=
    relative_path_root_append env.root rp
  have hFlen : F.length = d := by
    rw [frameChain_length F rp hch, hd]
  have hstep : scanStep env ⟨env.root ++ rp, d, FileKind.File, sz, mt, none⟩
      st.stack st.tbl st.stats =
      scanFresh env ⟨env.root ++ rp, d, FileKind.File, sz, mt, none⟩ F T st.stats
        rp (parent_relative rp) sz := by
    rw [scanStep_fresh_file env _ st.stack st.tbl st.stats rfl]
    rw [show popTo env (⟨env.root ++ rp, d, FileKind.File, sz, mt, none⟩ : WalkEvent).depth
        st.stack st.tbl = (F, T) from hpop]
    rw [show relative_path env.root
        (⟨env.root ++ rp, d, FileKind.File, sz, mt, none⟩ : WalkEvent).path = rp from hrel]
  cases hinc : should_include (env.root ++ rp) FileKind.File sz env.matcher env.root
      env.filt with
  | false =>
    have hfr : scanFresh env ⟨env.root ++ rp, d, FileKind.File, sz, mt, none⟩ F T st.stats
        rp (parent_relative rp) sz = ⟨F, T, st.stats, false⟩ :=
      scanFresh_skip env _ F T st.stats rp (parent_relative rp) sz hinc
    refine ⟨{ st with stack := F, tbl := T, stats := st.stats }, 0, T, ?_, hab, ?_, ?_, ?_⟩
    · have := scanLoopGo_cons env fu' ⟨env.root ++ rp, d, FileKind.File, sz, mt, none⟩
        rest b st ⟨F, T, st.stats, false⟩ hb0 (hstep.trans hfr) rfl
      simpa using this
    · rw [addToParent_zero]
      exact popTo_stop env d F T (le_of_eq hFlen)
    · rw [addToParent_zero]
      exact hinv
    · intro e he _
      exact Or.inl he
  | true =>
    have hfr : scanFresh env ⟨env.root ++ rp, d, FileKind.File, sz, mt, none⟩ F T st.stats
        rp (parent_relative rp) sz =
        ⟨addToParent F sz,
         upsert_entry T env.rid env.scan_ts rp (parent_relative rp) FileKind.File sz sz
           mt none,
         { st.stats with files_scanned := st.stats.files_scanned + 1 }, false⟩ :=
      scanFresh_file_inc env _ F T st.stats rp (parent_relative rp) sz rfl hinc
    have hT1 : upsert_entry T env.rid env.scan_ts rp (parent_relative rp) FileKind.File
        sz sz mt none =
        T ++ [⟨env.rid, rp, parent_relative rp, FileKind.File, sz, sz, mt, none,
          env.scan_ts, 0⟩] :=
      upsert_append (FreshP_fetch_none hfresh) env.scan_ts (parent_relative rp)
        FileKind.File sz sz mt none
    refine ⟨{ st with
        stack := addToParent F sz,
        tbl := upsert_entry T env.rid env.scan_ts rp (parent_relative rp) FileKind.File
          sz sz mt none,
        stats := { st.stats with files_scanned := st.stats.files_scanned + 1 } },
      sz,
      upsert_entry T env.rid env.scan_ts rp (parent_relative rp) FileKind.File sz sz
        mt none, ?_, hab, ?_, ?_, ?_⟩
    · have := scanLoopGo_cons env fu' ⟨env.root ++ rp, d, FileKind.File, sz, mt, none⟩
        rest b st _ hb0 (hstep.trans hfr) rfl
      simpa using this
    · exact popTo_stop env d _ _ (by rw [addToParent_length]; exact le_of_eq hFlen)
    · rw [hT1]
      exact inv_append_file env F T rp sz mt none hinv hch hfresh
    · intro e he _
      rw [hT1] at he
      rcases List.mem_append.mp he with he' | he'
      · exact Or.inl he'
      · right
        rw [List.mem_singleton.mp he']

lemma node_sim_dir (env : ScanEnv) (name : String) (mt : Option Int) (cs : FsForest)
    (rp : RelPath) (d : Nat) (hcs : ForestSim env cs rp (d + 1)) :
    NodeSim env (FsNode.dir name mt cs) rp d := by
  intro rest fu b st F T hd hu hab hfu hb hpop hinv hch hfresh
  have hevents : eventsNode (env.root ++ rp) d (FsNode.dir name mt cs) =
      ⟨env.root ++ rp, d, FileKind.Directory, 0, mt, none⟩ ::
        eventsForest (env.root ++ rp) (d + 1) cs := rfl
  rw [hevents] at hfu hb ⊢
  simp only [List.length_cons, List.cons_append] at hfu hb ⊢
  obtain ⟨fu', rfl⟩ : ∃ fu', fu = fu' + 1 := ⟨fu - 1, by omega⟩
  have hb0 : ¬ (b = 0) := by omega
  have hrel : relative_path env.root (env.root ++ rp) = rp :=
    relative_path_root_append env.root rp
  have hFlen : F.length = d := by
    rw [frameChain_length F rp hch, hd]
  obtain ⟨hnd, hfu2⟩ : (forestNames cs).Nodup ∧ forestUniq cs = true := by
    have := hu
    unfold nodeUniq at this
    rw [Bool.and_eq_true] at this
    exact ⟨of_decide_eq_true this.1, this.2⟩
  have hnone : fetch_entry (popTo env
      (⟨env.root ++ rp, d, FileKind.Directory, 0, mt, none⟩ : WalkEvent).depth
      st.stack st.tbl).2 env.rid
      (relative_path env.root
        (⟨env.root ++ rp, d, FileKind.Directory, 0, mt, none⟩ : WalkEvent).path) =
      none := by
    rw [show popTo env
        (⟨env.root ++ rp, d, FileKind.Directory, 0, mt, none⟩ : WalkEvent).depth
        st.stack st.tbl = (F, T) from hpop]
    rw [show relative_path env.root
        (⟨env.root ++ rp, d, FileKind.Directory, 0, mt, none⟩ : WalkEvent).path = rp
      from hrel]
    exact FreshP_fetch_none hfresh
  have hstep : scanStep env ⟨env.root ++ rp, d, FileKind.Directory, 0, mt, none⟩
      st.stack st.tbl st.stats =
      scanFresh env ⟨env.root ++ rp, d, FileKind.Directory, 0, mt, none⟩ F T st.stats
        rp (parent_relative rp) 0 := by
    rw [scanStep_fresh_dir env ⟨env.root ++ rp, d, FileKind.Directory, 0, mt, none⟩
      st.stack st.tbl st.stats rfl hnone]
    rw [show popTo env
        (⟨env.root ++ rp, d, FileKind.Directory, 0, mt, none⟩ : WalkEvent).depth
        st.stack st.tbl = (F, T) from hpop]
    rw [show relative_path env.root
        (⟨env.root ++ rp, d, FileKind.Directory, 0, mt, none⟩ : WalkEvent).path = rp
      from hrel]
  have hfr : scanFresh env ⟨env.root ++ rp, d, FileKind.Directory, 0, mt, none⟩ F T
      st.stats rp (parent_relative rp) 0 =
      ⟨⟨rp, parent_relative rp, 0, 0, mt, none⟩ :: F,
       upsert_entry T env.rid env.scan_ts rp (parent_relative rp) FileKind.Directory
         0 0 mt none,
       { st.stats with dirs_scanned := st.stats.dirs_scanned + 1 }, false⟩ :=
    scanFresh_dir_push env _ F T st.stats rp (parent_relative rp) rfl
  have hT1 : upsert_entry T env.rid env.scan_ts rp (parent_relative rp)
      FileKind.Directory 0 0 mt none =
      T ++ [⟨env.rid, rp, parent_relative rp, FileKind.Directory, 0, 0, mt, none,
        env.scan_ts, 0⟩] :=
    upsert_append (FreshP_fetch_none hfresh) env.scan_ts (parent_relative rp)
      FileKind.Directory 0 0 mt none
  have hiter := scanLoopGo_cons env fu'
    ⟨env.root ++ rp, d, FileKind.Directory, 0, mt, none⟩
    (eventsForest (env.root ++ rp) (d + 1) cs ++ rest) b st _ hb0 (hstep.trans hfr) rfl
  have hinv1 : ScanInv2 env (⟨rp, parent_relative rp, 0, 0, mt, none⟩ :: F)
      (upsert_entry T env.rid env.scan_ts rp (parent_relative rp) FileKind.Directory
        0 0 mt none) := by
    rw [hT1]
    exact inv_append_dir_open env F T rp mt none hinv hch hfresh
  obtain ⟨st2, S2, T2, heq2, hab2, hpop2, hinv2, hmem2⟩ :=
    hcs rest fu' (b - 1)
      { st with
          stack := ⟨rp, parent_relative rp, 0, 0, mt, none⟩ :: F,
          tbl := upsert_entry T env.rid env.scan_ts rp (parent_relative rp)
            FileKind.Directory 0 0 mt none,
          stats := { st.stats with dirs_scanned := st.stats.dirs_scanned + 1 } }
      (⟨rp, parent_relative rp, 0, 0, mt, none⟩ :: F)
      (upsert_entry T env.rid env.scan_ts rp (parent_relative rp) FileKind.Directory
        0 0 mt none)
      (by rw [hd]) hfu2 hnd hab
      (by omega) (by omega)
      (popTo_stop env (d + 1) _ _ (by simp [hFlen]))
      hinv1
      (fun s => ⟨parent_relative_append_one rp s, hch⟩)
      (by
        intro s hs e he herid hpre
        rw [hT1] at he
        rcases List.mem_append.mp he with he' | he'
        · exact hfresh e he' herid ((List.prefix_append rp [s]).trans hpre)
        · rw [List.mem_singleton.mp he'] at hpre
          have := hpre.length_le
          simp at this)
  have hsplit2 : popTo env d st2.stack st2.tbl =
      popTo env d (addToParent (⟨rp, parent_relative rp, 0, 0, mt, none⟩ :: F) S2) T2 := by
    rw [popTo_split env (d + 1) d (by omega) st2.stack.length st2.stack st2.tbl
      (le_refl _), hpop2]
  have hstep2 : popTo env d
      (addToParent (⟨rp, parent_relative rp, 0, 0, mt, none⟩ :: F) S2) T2 =
      popTo env d (addToParent F ((0 + S2) + 0))
        (upsert_entry T2 env.rid env.scan_ts rp (parent_relative rp) FileKind.Directory
          0 ((0 + S2) + 0) mt none) :=
    popTo_step env d ⟨rp, parent_relative rp, 0, 0 + S2, mt, none⟩ F T2 (by omega)
  have hstop : popTo env d (addToParent F ((0 + S2) + 0))
      (upsert_entry T2 env.rid env.scan_ts rp (parent_relative rp) FileKind.Directory
        0 ((0 + S2) + 0) mt none) =
      (addToParent F ((0 + S2) + 0),
       upsert_entry T2 env.rid env.scan_ts rp (parent_relative rp) FileKind.Directory
         0 ((0 + S2) + 0) mt none) :=
    popTo_stop env d _ _ (by rw [addToParent_length]; exact le_of_eq hFlen)
  have hinv2' : ScanInv2 env ((⟨rp, parent_relative rp, 0, 0 + S2, mt, none⟩ :
      DirectoryFrame) :: F) T2 := hinv2
  have hclose := inv_close env ⟨rp, parent_relative rp, 0, 0 + S2, mt, none⟩ F T2
    hinv2' hch
  refine ⟨st2, (0 + S2) + 0,
    upsert_entry T2 env.rid env.scan_ts rp (parent_relative rp) FileKind.Directory 0
      ((0 + S2) + 0) mt none,
    ?_, hab2, ?_, ?_, ?_⟩
  · rw [show fu' + 1 - ((eventsForest (env.root ++ rp) (d + 1) cs).length + 1) =
        fu' - (eventsForest (env.root ++ rp) (d + 1) cs).length from by omega]
    rw [show b - ((eventsForest (env.root ++ rp) (d + 1) cs).length + 1) =
        b - 1 - (eventsForest (env.root ++ rp) (d + 1) cs).length from by omega]
    exact hiter.trans heq2
  · exact hsplit2.trans (hstep2.trans hstop)
  · exact hclose.1
  · intro e he herid
    rcases hclose.2 e he herid with hin2 | hpath
    · rcases hmem2 e hin2 herid with hin1 | ⟨s, hs, hpre⟩
      · rw [hT1] at hin1
        rcases List.mem_append.mp hin1 with h' | h'
        · exact Or.inl h'
        · right
          rw [List.mem_singleton.mp h']
      · exact Or.inr ((List.prefix_append rp [s]).trans hpre)
    · right
      rw [hpath]

lemma forest_cons_sim (env : ScanEnv) (n : FsNode) (cs' : FsForest) (pr : RelPath)
    (d : Nat) (hn : NodeSim env n (pr ++ [nodeName n]) d)
    (hrest : ForestSim env cs' pr d) :
    ForestSim env (FsForest.cons n cs') pr d := by
  intro rest fu b st F T hd hu hnd hab hfu hb hpop hinv hch hfresh
  have hevents : eventsForest (env.root ++ pr) d (FsForest.cons n cs') =
      eventsNode ((env.root ++ pr) ++ [nodeName n]) d n ++
        eventsForest (env.root ++ pr) d cs' := rfl
  rw [hevents] at hfu hb ⊢
  rw [List.length_append] at hfu hb ⊢
  obtain ⟨hun, hucs⟩ : nodeUniq n = true ∧ forestUniq cs' = true := by
    have := hu
    unfold forestUniq at this
    rw [Bool.and_eq_true] at this
    exact this
  obtain ⟨st1, S1, T1, heq1, hab1, hpop1, hinv1, hmem1⟩ :=
    hn (eventsForest (env.root ++ pr) d cs' ++ rest) fu b st F T
      (by simp [hd]) hun hab
      (by rw [← List.append_assoc env.root pr [nodeName n], List.length_append]; omega)
      (by rw [← List.append_assoc env.root pr [nodeName n], List.length_append]; omega)
      hpop hinv (hch (nodeName n))
      (hfresh (nodeName n) (List.mem_cons_self (nodeName n) (forestNames cs')))
  rw [← List.append_assoc env.root pr [nodeName n]] at heq1
  obtain ⟨st2, S2, T2, heq2, hab2, hpop2, hinv2, hmem2⟩ :=
    hrest rest (fu - (eventsNode ((env.root ++ pr) ++ [nodeName n]) d n).length)
      (b - (eventsNode ((env.root ++ pr) ++ [nodeName n]) d n).length)
      st1 (addToParent F S1) T1
      hd hucs (List.Nodup.of_cons hnd) hab1
      (by omega) (by omega)
      hpop1 hinv1
      (fun s => frameChain_addToParent F S1 (pr ++ [s]) (hch s))
      (by
        intro s hs e he herid hpre
        rcases hmem1 e he herid with hin | hunder
        · exact hfresh s (List.mem_cons_of_mem (nodeName n) hs) e hin herid hpre
        · have hpp : (pr ++ [s]) <+: (pr ++ [nodeName n]) :=
            List.prefix_of_prefix_length_le hpre hunder (by simp)
          have heq : pr ++ [s] = pr ++ [nodeName n] :=
            hpp.eq_of_length (by simp)
          have hs_eq : s = nodeName n := by simpa using heq
          have hne := (List.nodup_cons.mp hnd).1
          rw [hs_eq] at hs
          exact hne hs)
  refine ⟨st2, S1 + S2, T2, ?_, hab2, ?_, ?_, ?_⟩
  · rw [List.append_assoc]
    rw [show fu - ((eventsNode ((env.root ++ pr) ++ [nodeName n]) d n).length +
        (eventsForest (env.root ++ pr) d cs').length) =
        fu - (eventsNode ((env.root ++ pr) ++ [nodeName n]) d n).length -
          (eventsForest (env.root ++ pr) d cs').length from by omega]
    rw [show b - ((eventsNode ((env.root ++ pr) ++ [nodeName n]) d n).length +
        (eventsForest (env.root ++ pr) d cs').length) =
        b - (eventsNode ((env.root ++ pr) ++ [nodeName n]) d n).length -
          (eventsForest (env.root ++ pr) d cs').length from by omega]
    exact heq1.trans heq2
  · rw [← addToParent_add]
    exact hpop2
  · rw [← addToParent_add]
    exact hinv2
  · intro e he herid
    rcases hmem2 e he herid with hin1 | ⟨s, hs, hpre⟩
    · rcases hmem1 e hin1 herid with hin | hunder
      · exact Or.inl hin
      · exact Or.inr ⟨nodeName n, List.mem_cons_self (nodeName n) (forestNames cs'),
          hunder⟩
    · exact Or.inr ⟨s, List.mem_cons_of_mem (nodeName n) hs, hpre⟩

lemma scan_sim (env : ScanEnv) : ∀ k : Nat,
    (∀ (n : FsNode) (rp : RelPath) (d : Nat),
      (eventsNode (env.root ++ rp) d n).length ≤ k → NodeSim env n rp d)
    ∧ (∀ (cs : FsForest) (pr : RelPath) (d : Nat),
      (eventsForest (env.root ++ pr) d cs).length ≤ k → ForestSim env cs pr d) := by
  intro k
  induction k with
  | zero =>
    constructor
    · intro n rp d hlen
      have := events_len_pos (env.root ++ rp) d n
      omega
    · intro cs pr d hlen
      cases cs with
      | nil => exact forest_nil_sim env pr d
      | cons n rest' =>
        exfalso
        have h1 := events_len_pos ((env.root ++ pr) ++ [nodeName n]) d n
        have h2 : (eventsForest (env.root ++ pr) d (FsForest.cons n rest')).length =
            (eventsNode ((env.root ++ pr) ++ [nodeName n]) d n).length +
            (eventsForest (env.root ++ pr) d rest').length := by
          show (eventsNode ((env.root ++ pr) ++ [nodeName n]) d n ++
            eventsForest (env.root ++ pr) d rest').length = _
          rw [List.length_append]
        omega
  | succ k ih =>
    have hnode : ∀ (n : FsNode) (rp : RelPath) (d : Nat),
        (eventsNode (env.root ++ rp) d n).length ≤ k + 1 → NodeSim env n rp d := by
      intro n rp d hlen
      cases n with
      | file name sz mt => exact node_sim_file env name sz mt rp d
      | dir name mt cs =>
        refine node_sim_dir env name mt cs rp d ?_
        apply ih.2
        have h2 : (eventsNode (env.root ++ rp) d (FsNode.dir name mt cs)).length =
            (eventsForest (env.root ++ rp) (d + 1) cs).length + 1 := by
          show (⟨env.root ++ rp, d, FileKind.Directory, 0, mt, none⟩ ::
            eventsForest (env.root ++ rp) (d + 1) cs).length = _
          rw [List.length_cons]
        omega
    refine ⟨hnode, ?_⟩
    intro cs pr d hlen
    cases cs with
    | nil => exact forest_nil_sim env pr d
    | cons n rest' =>
      have h2 : (eventsForest (env.root ++ pr) d (FsForest.cons n rest')).length =
          (eventsNode ((env.root ++ pr) ++ [nodeName n]) d n).length +
          (eventsForest (env.root ++ pr) d rest').length := by
        show (eventsNode ((env.root ++ pr) ++ [nodeName n]) d n ++
          eventsForest (env.root ++ pr) d rest').length = _
        rw [List.length_append]
      refine forest_cons_sim env n rest' pr d ?_ ?_
      · apply hnode
        rw [← List.append_assoc env.root pr [nodeName n]]
        omega
      · apply ih.2
        have h1 := events_len_pos ((env.root ++ pr) ++ [nodeName n]) d n
        omega

lemma prune_stamped_noop (roots1 : List RootRow) (T : List CachedEntry)
    (rid ts : Int) (sizes : List Nat)
    (hsize : sizes.getD 0 0 ≤ CACHE_MAX_BYTES)
    (hstamp : ∀ e ∈ T, e.rootId = rid → e.last_seen = ts) :
    (prune_if_needed roots1 T rid ts sizes).2 = T := by
  unfold prune_if_needed
  cases hfind : roots1.find? (fun r => decide (r.id = rid)) with
  | none => rfl
  | some row =>
    simp only
    by_cases hcond : ¬ (ts ≤ row.last_pruned_utc ∨
        ts - row.last_pruned_utc ≥ 3600 ∨ row.scan_count % 5 = 0)
    · rw [if_pos hcond]
    · rw [if_neg hcond]
      have hnotbig : ¬ (sizes.getD 0 0 > CACHE_MAX_BYTES) := by omega
      simp only [if_neg hnotbig]
      apply List.filter_eq_self.mpr
      intro e he
      rw [decide_eq_true_eq]
      rintro ⟨h1, hlt⟩
      rw [hstamp e he h1] at hlt
      have : CACHE_MAX_AGE_SECS = 2592000 := by decide
      omega

lemma finish_stamped_noop (roots : List RootRow) (T : List CachedEntry)
    (rid ts : Int) (sizes : List Nat)
    (hsize : sizes.getD 0 0 ≤ CACHE_MAX_BYTES)
    (hstamp : ∀ e ∈ T, e.rootId = rid → e.last_seen = ts) :
    (finish ⟨roots, T⟩ rid ts sizes).entries = T := by
  have hfil : T.filter (fun e => decide (¬ (e.rootId = rid ∧ e.last_seen ≠ ts))) = T := by
    apply List.filter_eq_self.mpr
    intro e he
    rw [decide_eq_true_eq]
    rintro ⟨h1, h2⟩
    exact h2 (hstamp e he h1)
  show (prune_if_needed _ (T.filter _) rid ts sizes).2 = T
  rw [hfil]
  exact prune_stamped_noop _ T rid ts sizes hsize hstamp

lemma computedTotal_map_structural (f : CachedEntry → CachedEntry)
    (hf : ∀ e : CachedEntry, (f e).rootId = e.rootId ∧ (f e).path = e.path
      ∧ (f e).parent = e.parent ∧ (f e).kind = e.kind
      ∧ (f e).direct_size = e.direct_size ∧ (f e).aggregate_size = e.aggregate_size)
    (T : List CachedEntry) (rid : Int) (e : CachedEntry) :
    computedTotal (T.map f) rid (f e) = computedTotal T rid e := by
  unfold computedTotal
  obtain ⟨h1, h2, h3, h4, h5, h6⟩ := hf e
  rw [h4, h2, h5]
  by_cases hk : e.kind = FileKind.Directory
  · rw [if_pos hk, if_pos hk]
    rw [children_of_map_parentlike f T (fun x _ => ⟨(hf x).1, (hf x).2.2.1⟩) rid e.path]
    rw [List.map_map]
    have : (children_of T rid e.path).map (fun c => (f c).aggregate_size) =
        (children_of T rid e.path).map (fun c => c.aggregate_size) :=
      List.map_congr_left (fun c _ => (hf c).2.2.2.2.2)
    rw [show ((fun c => c.aggregate_size) ∘ f) = (fun c => (f c).aggregate_size) from rfl,
      this]
  · rw [if_neg hk, if_neg hk]

lemma aggConsistent_map_structural (f : CachedEntry → CachedEntry)
    (hf : ∀ e : CachedEntry, (f e).rootId = e.rootId ∧ (f e).path = e.path
      ∧ (f e).parent = e.parent ∧ (f e).kind = e.kind
      ∧ (f e).direct_size = e.direct_size ∧ (f e).aggregate_size = e.aggregate_size)
    {T : List CachedEntry} {rid : Int} (h : AggConsistent T rid) :
    AggConsistent (T.map f) rid := by
  intro e' he' herid
  obtain ⟨e, he, rfl⟩ := List.mem_map.mp he'
  rw [(hf e).2.2.2.2.2, computedTotal_map_structural f hf T rid e]
  exact h e he (by rw [← (hf e).1]; exact herid)

lemma aggConsistent_mark_dirty {T : List CachedEntry} {rid : Int} (rid' : Int)
    (p : RelPath) (h : AggConsistent T rid) :
    AggConsistent (mark_dirty T rid' p) rid := by
  refine aggConsistent_map_structural _ ?_ h
  intro e
  by_cases hc : e.rootId = rid' ∧ e.path = p
  · rw [if_pos hc]
    exact ⟨rfl, rfl, rfl, rfl, rfl, rfl⟩
  · rw [if_neg hc]
    exact ⟨rfl, rfl, rfl, rfl, rfl, rfl⟩

/-- C2 (amended): at the end of every completed (non-aborted) scan of a root
with no prior cache rows (so no cached replay can fire), run with a cache
session over a sibling-name-unique disk tree, with enough job-counter budget
for the whole walk and a backing-file size reading under the prune ceiling,
after Session.finish() returns every Directory entry stored for the scanned
root satisfies aggregate_size = direct_size + the sum of aggregate_size over
its immediate children, and every File entry satisfies
aggregate_size = direct_size. -/
theorem C2_cold_scan_aggregate_consistency (env : ScanEnv) (n : FsNode) (db : CacheDb)
    (sizes : List Nat) (budget : Nat)
    (hcold : ∀ e ∈ db.entries, e.rootId ≠ env.rid)
    (hwf : WfP db.entries) (huq : UniqP db.entries)
    (hun : nodeUniq n = true)
    (hb : (eventsNode env.root 0 n).length ≤ budget)
    (hsize : sizes.getD 0 0 ≤ CACHE_MAX_BYTES) :
    (run_scan env (eventsNode env.root 0 n) budget db sizes).aborted = false
    ∧ AggConsistent (run_scan env (eventsNode env.root 0 n) budget db sizes).db.entries
        env.rid := by
  have hen : eventsNode (env.root ++ ([] : List String)) 0 n =
      eventsNode env.root 0 n := by rw [List.append_nil]
  have hinv0 : ScanInv2 env [] db.entries := by
    refine ⟨hwf, huq, ?_, ?_, ?_⟩
    · intro e he herid
      exact absurd herid (hcold e he)
    · intro e he herid _
      exact absurd herid (hcold e he)
    · intro fr hfr
      cases hfr
  obtain ⟨st', S, T', heq, hab', hpop', hinv', hmem'⟩ :=
    (scan_sim env (eventsNode env.root 0 n).length).1 n [] 0
      (by rw [hen]) []
      ((eventsNode env.root 0 n).length + 1) budget
      ⟨[], db.entries, ⟨0, 0, 0, 0, 0, 0, 0, 0⟩, false⟩ [] db.entries
      rfl hun rfl
      (by rw [hen]; simp)
      (by rw [hen]; simpa using hb)
      (popTo_stop env 0 [] db.entries (by simp))
      hinv0 rfl
      (fun e he herid _ => absurd herid (hcold e he))
  rw [hen, List.append_nil, scanLoopGo_nil] at heq
  have hstampT' : ∀ e ∈ T', e.rootId = env.rid → e.last_seen = env.scan_ts :=
    hinv'.2.2.1
  have hcons : AggConsistent T' env.rid := by
    intro e he herid
    exact hinv'.2.2.2.1 e he herid (List.not_mem_nil e.path)
  have hfin : popTo env 0 st'.stack st'.tbl = ([], T') := hpop'
  have hnoop : (finish ⟨db.roots, T'⟩ env.rid env.scan_ts sizes).entries = T' :=
    finish_stamped_noop db.roots T' env.rid env.scan_ts sizes hsize hstampT'
  have hrun : run_scan env (eventsNode env.root 0 n) budget db sizes =
      match validate_aggregate (finish ⟨db.roots, T'⟩ env.rid env.scan_ts sizes)
          env.rid [] with
      | Except.ok _ => ⟨finish ⟨db.roots, T'⟩ env.rid env.scan_ts sizes, st'.stats, false⟩
      | Except.error _ =>
        ⟨⟨(finish ⟨db.roots, T'⟩ env.rid env.scan_ts sizes).roots,
          mark_dirty (finish ⟨db.roots, T'⟩ env.rid env.scan_ts sizes).entries
            env.rid []⟩,
         { st'.stats with
             cache_validation_errors := st'.stats.cache_validation_errors + 1 },
         false⟩ := by
    simp only [run_scan]
    rw [heq]
    simp only [hab', Bool.false_eq_true, if_false]
    rw [hfin]
  rw [hrun]
  cases hv : validate_aggregate (finish ⟨db.roots, T'⟩ env.rid env.scan_ts sizes)
      env.rid [] with
  | ok s =>
    refine ⟨rfl, ?_⟩
    show AggConsistent (finish ⟨db.roots, T'⟩ env.rid env.scan_ts sizes).entries env.rid
    rw [hnoop]
    exact hcons
  | error err =>
    refine ⟨rfl, ?_⟩
    show AggConsistent (mark_dirty
      (finish ⟨db.roots, T'⟩ env.rid env.scan_ts sizes).entries env.rid []) env.rid
    rw [hnoop]
    exact aggConsistent_mark_dirty env.rid [] hcons

/-- Witness for the amended C2: a cold-cache scan of a three-file tree with
ample budget and a backing file under the prune ceiling completes without
aborting and leaves the root's table aggregate-consistent. -/
theorem C2_cold_scan_aggregate_consistency_witness :
    (∀ e ∈ dbC2w.entries, e.rootId ≠ envC2w.rid)
    ∧ (eventsNode envC2w.root 0 fsC2w).length ≤ 10
    ∧ (run_scan envC2w (eventsNode envC2w.root 0 fsC2w) 10 dbC2w [0]).aborted = false
    ∧ AggConsistent
        (run_scan envC2w (eventsNode envC2w.root 0 fsC2w) 10 dbC2w [0]).db.entries
        envC2w.rid :=
  ⟨by decide, by decide,
   C2_cold_scan_aggregate_consistency envC2w fsC2w dbC2w [0] 10
     (fun e he => absurd he (List.not_mem_nil e))
     (fun e he => absurd he (List.not_mem_nil e))
     List.nodup_nil
     (by decide) (by decide) (by decide)⟩

end Dusk
